import Mathlib

/-!
# Resource ledger, Banker's safety check and schedulers of `src/main.cpp`

A shallow embedding of the C++ program.  The global vectors `Available`, `Max`,
`Allocation`, `Need` become the fields of a `Ledger` value that every mutator
takes and returns.  `int` is embedded as the unbounded `Int` (signed overflow is
undefined in C++), a `std::vector` as a `List`, and an index that is out of
range (undefined in C++) reads the default `0`/`[]` and writes nothing; the
theorems state the in-range conditions they rely on.  An uncaught exception of
`std::stoi` is the result `none`.  Console output and `sleep` are left out.
-/

namespace BankersLedger

/-! ## Data model -/

/-- The struct `ResourceType`: a name and the ordered instance identifiers. -/
structure ResourceType where
  name : String
  instances : List String
  deriving DecidableEq

/-- The struct `Process`. -/
structure Process where
  pid : Int
  deadline : Int
  computationTime : Int
  instructions : List String
  deriving DecidableEq

/-- The four global vectors `Available`, `Max`, `Allocation`, `Need`. -/
structure Ledger where
  Available : List Int
  Max : List (List Int)
  Allocation : List (List Int)
  Need : List (List Int)
  deriving DecidableEq

/-- Reads `M[i][j]`. -/
def getCell (M : List (List Int)) (i j : Nat) : Int := (M.getD i []).getD j 0

/-- Performs the write `M[i][j] = v`. -/
def setCell (M : List (List Int)) (i j : Nat) (v : Int) : List (List Int) :=
  M.set i ((M.getD i []).set j v)

/-! ## Strings: `std::string::find`, `std::getline`, `std::stoi` -/

/-- Searches like `std::string::find`: the first position of `sub` in the text,
counted from `k`; `none` is `npos`. -/
def findFrom (sub : List Char) : List Char → Nat → Option Nat
  | [], k => if sub.isEmpty then some k else none
  | c :: cs, k => if sub.isPrefixOf (c :: cs) then some k else findFrom sub cs (k + 1)

/-- The test `s.find(sub) != std::string::npos`. -/
def containsStr (s sub : String) : Bool := (findFrom sub.data s.data 0).isSome

/-- The expression `s.substr(s.find("(") + 1)`; when there is no parenthesis
`npos + 1` wraps around to `0` and the whole string is kept. -/
def afterParen (s : String) : List Char :=
  match findFrom ['('] s.data 0 with
  | some i => s.data.drop (i + 1)
  | none => s.data

/-- The tokens read by `while (std::getline(iss, num, d))`: the pieces between
delimiters, where an empty piece at the very end is not produced. -/
def getlines (d : Char) : List Char → List (List Char)
  | [] => []
  | c :: cs =>
    if c = d then [] :: getlines d cs
    else match getlines d cs with
      | [] => [[c]]
      | t :: ts => (c :: t) :: ts

/-- The C locale test `isspace`. -/
def isSpaceChar (c : Char) : Bool :=
  c = ' ' || c = '\t' || c = '\n' || c = '\x0b' || c = '\x0c' || c = '\r'

/-- Value of a decimal digit, `none` for any other character. -/
def digitVal (c : Char) : Option Nat :=
  if '0' ≤ c ∧ c ≤ '9' then some (c.toNat - '0'.toNat) else none

/-- Reads the longest run of decimal digits, continuing from the value `acc`. -/
def readDigits : List Char → Nat → Nat
  | [], acc => acc
  | c :: cs, acc =>
    match digitVal c with
    | some d => readDigits cs (10 * acc + d)
    | none => acc

/-- The unsigned part of a number: at least one digit is required. -/
def readNat : List Char → Option Nat
  | [] => none
  | c :: cs =>
    match digitVal c with
    | some d => some (readDigits cs d)
    | none => none

/-- Checks the range of `int`, outside of which `std::stoi` throws
`std::out_of_range`. -/
def inIntRange (v : Int) : Option Int :=
  if -2147483648 ≤ v ∧ v ≤ 2147483647 then some v else none

/-- The number after the leading white space has been skipped: an optional sign
and then digits. -/
def stoiSigned : List Char → Option Int
  | '-' :: cs => (readNat cs).bind (fun n => inIntRange (-(n : Int)))
  | '+' :: cs => (readNat cs).bind (fun n => inIntRange (n : Int))
  | cs => (readNat cs).bind (fun n => inIntRange (n : Int))

/-- The call `std::stoi(s)`: skips white space, reads a signed decimal number
and ignores what follows it; `none` stands for the exception thrown when there
is no number or it does not fit an `int`. -/
def stoi : List Char → Option Int
  | [] => none
  | c :: cs => if isSpaceChar c then stoi cs else stoiSigned (c :: cs)

/-- The loop `while (std::getline(iss, num, ',')) v.push_back(std::stoi(num))`
over a list of tokens. -/
def stoiAll : List (List Char) → Option (List Int)
  | [] => some []
  | t :: ts =>
    match stoi t with
    | none => none
    | some v =>
      match stoiAll ts with
      | none => none
      | some vs => some (v :: vs)

/-- The argument vector that `executeProcess` builds from a `request` or a
`release` line. -/
def parseArgs (s : String) : Option (List Int) :=
  stoiAll (getlines ',' (afterParen s))

/-! ## `isSafe` -/

/-- The inner `for j` loop of `isSafe`: `possible` stays true when no resource
`j` below `Available.size()` has `Need[i][j] > Work[j]`. -/
def possible (L : Ledger) (Work : List Int) (i : Nat) : Bool :=
  (List.range L.Available.length).all
    (fun j => !decide (getCell L.Need i j > Work.getD j 0))

/-- The loop `for k: Work[k] += Allocation[i][k]`. -/
def addAllocation (L : Ledger) (i : Nat) (Work : List Int) : List Int :=
  (List.range L.Available.length).foldl
    (fun W k => W.set k (W.getD k 0 + getCell L.Allocation i k)) Work

/-- The locals of `isSafe` that one pass of the `while` body works on. -/
structure SafeState where
  Work : List Int
  Finish : List Bool
  found : Bool
  deriving DecidableEq

/-- One iteration of the `for i` loop of `isSafe`. -/
def passStep (L : Ledger) (s : SafeState) (i : Nat) : SafeState :=
  if !s.Finish.getD i false then
    if possible L s.Work i then
      { Work := addAllocation L i s.Work, Finish := s.Finish.set i true, found := true }
    else s
  else s

/-- One full pass, the body of `while (true)`, with `found` reset to false. -/
def isSafePass (L : Ledger) (Work : List Int) (Finish : List Bool) : SafeState :=
  (List.range L.Max.length).foldl (passStep L) { Work := Work, Finish := Finish, found := false }

/-- The `while (true)` loop of `isSafe` with a bound on the number of passes;
`none` when the bound is used up before a pass finds nothing. -/
def isSafeLoop (L : Ledger) : Nat → List Int → List Bool → Option (List Bool)
  | 0, _, _ => none
  | fuel + 1, Work, Finish =>
    let s := isSafePass L Work Finish
    if s.found then isSafeLoop L fuel s.Work s.Finish else some s.Finish

/-- The function `isSafe()`.  The loop is given `Max.size() + 1` passes, which
`isSafeLoop_terminates` shows to be enough for every ledger. -/
def isSafe (L : Ledger) : Bool :=
  match isSafeLoop L (L.Max.length + 1) L.Available (List.replicate L.Max.length false) with
  | some Finish => Finish.all id
  | none => false

/-! ## `requestResources` and `releaseResources` -/

/-- The first loop of `requestResources`: no index `i` below `request.size()`
has `request[i] > Need[processId][i] || request[i] > Available[i]`. -/
def requestCheck (processId : Nat) (request : List Int) (L : Ledger) : Bool :=
  (List.range request.length).all (fun i =>
    !(decide (request.getD i 0 > getCell L.Need processId i)
      || decide (request.getD i 0 > L.Available.getD i 0)))

/-- The body of the loop that allocates tentatively. -/
def allocateStep (processId : Nat) (request : List Int) (L : Ledger) (i : Nat) : Ledger :=
  { L with
    Available := L.Available.set i (L.Available.getD i 0 - request.getD i 0)
    Allocation := setCell L.Allocation processId i
      (getCell L.Allocation processId i + request.getD i 0)
    Need := setCell L.Need processId i (getCell L.Need processId i - request.getD i 0) }

/-- The loop "Temporarily allocate requested resources". -/
def allocate (processId : Nat) (request : List Int) (L : Ledger) : Ledger :=
  (List.range request.length).foldl (allocateStep processId request) L

/-- The body of the rollback loop. -/
def rollbackStep (processId : Nat) (request : List Int) (L : Ledger) (i : Nat) : Ledger :=
  { L with
    Available := L.Available.set i (L.Available.getD i 0 + request.getD i 0)
    Allocation := setCell L.Allocation processId i
      (getCell L.Allocation processId i - request.getD i 0)
    Need := setCell L.Need processId i (getCell L.Need processId i + request.getD i 0) }

/-- The loop "Rollback resources". -/
def rollback (processId : Nat) (request : List Int) (L : Ledger) : Ledger :=
  (List.range request.length).foldl (rollbackStep processId request) L

/-- The function `requestResources`: the returned flag and the ledger it leaves. -/
def requestResources (processId : Nat) (request : List Int) (L : Ledger) : Bool × Ledger :=
  if !requestCheck processId request L then (false, L)
  else
    let L1 := allocate processId request L
    if !isSafe L1 then (false, rollback processId request L1)
    else (true, L1)

/-- The body of the loop of `releaseResources`.  The parameter `release` is a
reference, so `release[i]` is read from the ledger as it is at each of the
three statements: `rd` is that read. -/
def releaseStep (rd : Ledger → Nat → Int) (processId : Nat) (L : Ledger) (i : Nat) : Ledger :=
  let L1 := { L with Available := L.Available.set i (L.Available.getD i 0 + rd L i) }
  let L2 := { L1 with
    Allocation := setCell L1.Allocation processId i (getCell L1.Allocation processId i - rd L1 i) }
  { L2 with Need := setCell L2.Need processId i (getCell L2.Need processId i + rd L2 i) }

/-- The loop of `releaseResources` over `size` indices. -/
def releaseLoop (size : Nat) (rd : Ledger → Nat → Int) (processId : Nat) (L : Ledger) :
    Ledger :=
  (List.range size).foldl (releaseStep rd processId) L

/-- The function `releaseResources` called with a vector of its own, as the
`release` branch of `executeProcess` does. -/
def releaseResources (processId : Nat) (release : List Int) (L : Ledger) : Ledger :=
  releaseLoop release.length (fun _ i => release.getD i 0) processId L

/-- The call `releaseResources(processId, Allocation[processId])` of the `end`
branch: the argument is the row of the ledger itself. -/
def releaseAll (processId : Nat) (L : Ledger) : Ledger :=
  releaseLoop (L.Allocation.getD processId []).length
    (fun L1 i => getCell L1.Allocation processId i) processId L

/-! ## `executeProcess` -/

/-- The body of the innermost loop of the `use_resources` branch, for resource
type `i` and one of its instance identifiers: the unit is taken when
`Available[i] > 0` and the identifier is one of the lines of the stream.  The
local vector `use` only feeds the printout of `useResources` and is left out. -/
def useInstance (instructions : List String) (processId i : Nat) (L : Ledger)
    (inst : String) : Ledger :=
  if decide (L.Available.getD i 0 > 0) && instructions.contains inst then
    { L with
      Available := L.Available.set i (L.Available.getD i 0 - 1)
      Allocation := setCell L.Allocation processId i (getCell L.Allocation processId i + 1)
      Need := setCell L.Need processId i (getCell L.Need processId i - 1) }
  else L

/-- The two nested loops of the `use_resources` branch over the resource types
from index `i` on. -/
def useFrom (instructions : List String) (processId : Nat) :
    List ResourceType → Nat → Ledger → Ledger
  | [], _, L => L
  | r :: rs, i, L =>
    useFrom instructions processId rs (i + 1)
      (r.instances.foldl (useInstance instructions processId i) L)

/-- The whole `use_resources` branch. -/
def useResourcesStep (resources : List ResourceType) (instructions : List String)
    (processId : Nat) (L : Ledger) : Ledger :=
  useFrom instructions processId resources 0 L

/-- The loop that follows `releaseResources` in the `release` branch:
`Need[processId][i] += release[i]` for every resource type. -/
def needAfterRelease (n processId : Nat) (release : List Int) (L : Ledger) : Ledger :=
  (List.range n).foldl (fun L1 i =>
    { L1 with
      Need := setCell L1.Need processId i (getCell L1.Need processId i + release.getD i 0) }) L

/-- One iteration of the instruction loop of `executeProcess`: the ledger it
leaves and whether the loop goes on (`false` is `break`); `none` when
`std::stoi` throws.  The locals `totalComputationTime` and `usedResources` only
feed the printout and are left out. -/
def execInstruction (resources : List ResourceType) (instructions : List String)
    (processId : Nat) (instruction : String) (L : Ledger) : Option (Ledger × Bool) :=
  if containsStr instruction "calculate" then
    match stoi (afterParen instruction) with
    | none => none
    | some _ => some (L, true)
  else if containsStr instruction "request" then
    match parseArgs instruction with
    | none => none
    | some request =>
      let r := requestResources processId request L
      if !r.1 then some (r.2, false) else some (r.2, true)
  else if containsStr instruction "use_resources" then
    some (useResourcesStep resources instructions processId L, true)
  else if containsStr instruction "release" then
    match parseArgs instruction with
    | none => none
    | some release =>
      some (needAfterRelease resources.length processId release
        (releaseResources processId release L), true)
  else if containsStr instruction "print_resources_used" then some (L, true)
  else if containsStr instruction "end" then some (releaseAll processId L, false)
  else some (L, true)

/-- The instruction loop of `executeProcess` over the instructions still to
run; `instructions` is the whole stream, which `use_resources` searches. -/
def execLoop (resources : List ResourceType) (instructions : List String) (processId : Nat) :
    List String → Ledger → Option Ledger
  | [], L => some L
  | instruction :: rest, L =>
    match execInstruction resources instructions processId instruction L with
    | none => none
    | some (L1, true) => execLoop resources instructions processId rest L1
    | some (L1, false) => some L1

/-- The last loop of `executeProcess`:
`Need[processId][i] = Max[processId][i] - Allocation[processId][i]`. -/
def updateNeed (n processId : Nat) (L : Ledger) : Ledger :=
  (List.range n).foldl (fun L1 i =>
    { L1 with
      Need := setCell L1.Need processId i
        (getCell L1.Max processId i - getCell L1.Allocation processId i) }) L

/-- The function `executeProcess`. -/
def executeProcess (resources : List ResourceType) (instructions : List String)
    (processId : Nat) (L : Ledger) : Option Ledger :=
  match execLoop resources instructions processId instructions L with
  | none => none
  | some L1 => some (updateNeed resources.length processId L1)

/-! ## `initializeDataStructures` -/

/-- The loop `while (std::getline(iss, num, ',')) Max[pid - 1][j++] = std::stoi(num)`
over the tokens of one `request` line. -/
def writeMax (row : Nat) : List (List Char) → Nat → List (List Int) → Option (List (List Int))
  | [], _, M => some M
  | t :: ts, j, M =>
    match stoi t with
    | none => none
    | some v => writeMax row ts (j + 1) (setCell M row j v)

/-- The loop of `initializeDataStructures` over the instructions of one process. -/
def scanInstructions (row : Nat) : List String → List (List Int) → Option (List (List Int))
  | [], M => some M
  | instruction :: rest, M =>
    if containsStr instruction "request" then
      match writeMax row (getlines ',' (afterParen instruction)) 0 M with
      | none => none
      | some M1 => scanInstructions row rest M1
    else scanInstructions row rest M

/-- The loop of `initializeDataStructures` over the map `processes`, given as
the list of its values in ascending key order. -/
def scanProcesses : List Process → List (List Int) → Option (List (List Int))
  | [], M => some M
  | proc :: rest, M =>
    match scanInstructions (proc.pid - 1).toNat proc.instructions M with
    | none => none
    | some M1 => scanProcesses rest M1

/-- The function `initializeDataStructures`, run on the empty global vectors. -/
def initializeDataStructures (resources : List ResourceType) (processes : List Process) :
    Option Ledger :=
  let numProcesses := processes.length
  let numResources := resources.length
  let Allocation : List (List Int) := List.replicate numProcesses (List.replicate numResources 0)
  match scanProcesses processes (List.replicate numProcesses (List.replicate numResources 0)) with
  | none => none
  | some Max =>
    some
      { Available := resources.map (fun r => (r.instances.length : Int))
        Max := Max
        Allocation := Allocation
        Need := (List.range numProcesses).map (fun i =>
          (List.range numResources).map (fun j => getCell Max i j - getCell Allocation i j)) }

/-! ## `runEDFScheduling` -/

/-- The lookup `processes[pid]` in the map; a missing key yields the process
that `operator[]` would insert. -/
def lookupProcess (processes : List Process) (pid : Int) : Process :=
  (processes.find? (fun q => decide (q.pid = pid))).getD
    { pid := 0, deadline := 0, computationTime := 0, instructions := [] }

/-- The comparator of the `std::sort` call: `a.second < b.second`. -/
def edfLess (a b : Int × Int) : Bool := decide (a.2 < b.2)

/-- The vector `sortedProcesses` after the `std::sort` call.  The library
routine is the parameter `sort`. -/
def sortedProcesses (sort : List (Int × Int) → List (Int × Int)) (processes : List Process) :
    List (Int × Int) :=
  sort (processes.map (fun q => (q.pid, q.deadline)))

/-- The execution loop of `runEDFScheduling` over the entries still to run: the
ids executed so far are recorded in `trace`. -/
def edfLoop (resources : List ResourceType) (processes : List Process) :
    List (Int × Int) → List Int → Ledger → Option (List Int × Ledger)
  | [], trace, L => some (trace, L)
  | (pid, _) :: rest, trace, L =>
    match executeProcess resources (lookupProcess processes pid).instructions (pid - 1).toNat L with
    | none => none
    | some L1 => edfLoop resources processes rest (trace ++ [pid]) L1

/-- The function `runEDFScheduling`: the ids in the order in which
`executeProcess` was called, and the final ledger. -/
def runEDFScheduling (sort : List (Int × Int) → List (Int × Int))
    (resources : List ResourceType) (processes : List Process) (L : Ledger) :
    Option (List Int × Ledger) :=
  edfLoop resources processes (sortedProcesses sort processes) [] L

/-! ## `std::sort` as GNU libstdc++ implements it (`bits/stl_algo.h`, `bits/stl_heap.h`)

The vector is the list of its elements, iterators are indices into it, and the
comparator `comp` is the parameter `lt`.  The insertion loops work on the sorted
segment before the element they insert; the partition and heap routines work on
indices. -/

/-- The loop of `std::__unguarded_linear_insert` seen from `val`: the elements
before it, nearest first, are passed as long as `comp(val, next)` holds, and
`val` is put down in front of the first one for which it does not. -/
def linearInsertScan (lt : Int × Int → Int × Int → Bool) (val : Int × Int) :
    List (Int × Int) → List (Int × Int)
  | [] => [val]
  | x :: before => if lt val x then x :: linearInsertScan lt val before else val :: x :: before

/-- The routine `std::__unguarded_linear_insert(last, comp)`, where `acc` holds
the elements before `*last` and `val` is `*last`: the result holds `acc` and
`val`. -/
def unguardedLinearInsert (lt : Int × Int → Int × Int → Bool) (val : Int × Int)
    (acc : List (Int × Int)) : List (Int × Int) :=
  (linearInsertScan lt val acc.reverse).reverse

/-- The body of the loop of `std::__insertion_sort` for the element `val = *i`
and the elements `acc` of `[first, i)`: if `comp(i, first)`, `val` goes to the
front, else `std::__unguarded_linear_insert`. -/
def insertionSortStep (lt : Int × Int → Int × Int → Bool) (acc : List (Int × Int))
    (val : Int × Int) : List (Int × Int) :=
  match acc with
  | [] => [val]
  | f :: _ => if lt val f then val :: acc else unguardedLinearInsert lt val acc

/-- The routine `std::__insertion_sort(first, last, comp)` on the elements of
`[first, last)`. -/
def insertionSortRange (lt : Int × Int → Int × Int → Bool) :
    List (Int × Int) → List (Int × Int)
  | [] => []
  | x :: rest => rest.foldl (insertionSortStep lt) [x]

/-- The routine `std::__unguarded_insertion_sort(first, last, comp)`, where `acc`
holds the elements before `first` and `rest` those of `[first, last)`. -/
def unguardedInsertionSort (lt : Int × Int → Int × Int → Bool) (acc rest : List (Int × Int)) :
    List (Int × Int) :=
  rest.foldl (fun acc val => unguardedLinearInsert lt val acc) acc

/-- The routine `std::__final_insertion_sort(first, last, comp)` on the whole
vector, with `_S_threshold = 16`. -/
def finalInsertionSort (lt : Int × Int → Int × Int → Bool) (a : List (Int × Int)) :
    List (Int × Int) :=
  if a.length > 16 then
    unguardedInsertionSort lt (insertionSortRange lt (a.take 16)) (a.drop 16)
  else insertionSortRange lt a

/-- The call `std::iter_swap(i, j)`. -/
def iterSwap (a : List (Int × Int)) (i j : Nat) : List (Int × Int) :=
  (a.set i (a.getD j (0, 0))).set j (a.getD i (0, 0))

/-- The routine `std::__move_median_to_first(result, a, b, c, comp)`; the
iterators `a`, `b`, `c` are the indices `x`, `y`, `z`. -/
def moveMedianToFirst (lt : Int × Int → Int × Int → Bool) (a : List (Int × Int))
    (result x y z : Nat) : List (Int × Int) :=
  if lt (a.getD x (0, 0)) (a.getD y (0, 0)) then
    if lt (a.getD y (0, 0)) (a.getD z (0, 0)) then iterSwap a result y
    else if lt (a.getD x (0, 0)) (a.getD z (0, 0)) then iterSwap a result z
    else iterSwap a result x
  else if lt (a.getD x (0, 0)) (a.getD z (0, 0)) then iterSwap a result x
  else if lt (a.getD y (0, 0)) (a.getD z (0, 0)) then iterSwap a result z
  else iterSwap a result y

/-- The loop `while (comp(first, pivot)) ++first` of `std::__unguarded_partition`;
`fuel` bounds the number of passes. -/
def partitionUp (lt : Int × Int → Int × Int → Bool) (a : List (Int × Int)) (pivot : Nat) :
    Nat → Nat → Nat
  | 0, first => first
  | fuel + 1, first =>
    if lt (a.getD first (0, 0)) (a.getD pivot (0, 0)) then partitionUp lt a pivot fuel (first + 1)
    else first

/-- The loop `while (comp(pivot, last)) --last` of `std::__unguarded_partition`. -/
def partitionDown (lt : Int × Int → Int × Int → Bool) (a : List (Int × Int)) (pivot : Nat) :
    Nat → Nat
  | 0 => 0
  | last + 1 =>
    if lt (a.getD pivot (0, 0)) (a.getD (last + 1) (0, 0)) then partitionDown lt a pivot last
    else last + 1

/-- The routine `std::__unguarded_partition(first, last, pivot, comp)`: the
vector it leaves and the iterator it returns; `fuel` bounds the number of
passes of its outer loop. -/
def unguardedPartition (lt : Int × Int → Int × Int → Bool) (pivot : Nat) :
    Nat → List (Int × Int) → Nat → Nat → List (Int × Int) × Nat
  | 0, a, first, _ => (a, first)
  | fuel + 1, a, first, last =>
    let first1 := partitionUp lt a pivot a.length first
    let last1 := partitionDown lt a pivot (last - 1)
    if first1 < last1 then unguardedPartition lt pivot fuel (iterSwap a first1 last1) (first1 + 1) last1
    else (a, first1)

/-- The routine `std::__unguarded_partition_pivot(first, last, comp)`. -/
def unguardedPartitionPivot (lt : Int × Int → Int × Int → Bool) (a : List (Int × Int))
    (first last : Nat) : List (Int × Int) × Nat :=
  let mid := first + (last - first) / 2
  unguardedPartition lt first a.length
    (moveMedianToFirst lt a first (first + 1) mid (last - 1)) (first + 1) last

/-- The routine `std::__push_heap(first, holeIndex, topIndex, value, comp)`;
`fuel` bounds the number of passes of its loop. -/
def pushHeap (lt : Int × Int → Int × Int → Bool) (first topIndex : Nat) (value : Int × Int) :
    Nat → List (Int × Int) → Nat → List (Int × Int)
  | 0, a, holeIndex => a.set (first + holeIndex) value
  | fuel + 1, a, holeIndex =>
    let parent := (holeIndex - 1) / 2
    if holeIndex > topIndex && lt (a.getD (first + parent) (0, 0)) value then
      pushHeap lt first topIndex value fuel
        (a.set (first + holeIndex) (a.getD (first + parent) (0, 0))) parent
    else a.set (first + holeIndex) value

/-- The first loop of `std::__adjust_heap`: the vector, `holeIndex` and
`secondChild` it leaves; `fuel` bounds the number of passes. -/
def adjustHeapDown (lt : Int × Int → Int × Int → Bool) (first len : Nat) :
    Nat → List (Int × Int) → Nat → Nat → List (Int × Int) × Nat × Nat
  | 0, a, holeIndex, secondChild => (a, holeIndex, secondChild)
  | fuel + 1, a, holeIndex, secondChild =>
    if secondChild < (len - 1) / 2 then
      let child := 2 * (secondChild + 1)
      let child1 :=
        if lt (a.getD (first + child) (0, 0)) (a.getD (first + (child - 1)) (0, 0))
        then child - 1 else child
      adjustHeapDown lt first len fuel
        (a.set (first + holeIndex) (a.getD (first + child1) (0, 0))) child1 child1
    else (a, holeIndex, secondChild)

/-- The routine `std::__adjust_heap(first, holeIndex, len, value, comp)`. -/
def adjustHeap (lt : Int × Int → Int × Int → Bool) (a : List (Int × Int))
    (first holeIndex len : Nat) (value : Int × Int) : List (Int × Int) :=
  let r := adjustHeapDown lt first len len a holeIndex holeIndex
  let a1 := r.1
  let hole1 := r.2.1
  let second1 := r.2.2
  if len % 2 = 0 ∧ second1 = (len - 2) / 2 then
    let child := 2 * (second1 + 1)
    pushHeap lt first holeIndex value len
      (a1.set (first + hole1) (a1.getD (first + (child - 1)) (0, 0))) (child - 1)
  else pushHeap lt first holeIndex value len a1 hole1

/-- The routine `std::__pop_heap(first, last, result, comp)`. -/
def popHeap (lt : Int × Int → Int × Int → Bool) (a : List (Int × Int))
    (first last result : Nat) : List (Int × Int) :=
  adjustHeap lt (a.set result (a.getD first (0, 0))) first 0 (last - first)
    (a.getD result (0, 0))

/-- The loop of `std::__make_heap` from `parent` down to 0. -/
def makeHeapLoop (lt : Int × Int → Int × Int → Bool) (first len : Nat) :
    Nat → List (Int × Int) → List (Int × Int)
  | 0, a => adjustHeap lt a first 0 len (a.getD first (0, 0))
  | parent + 1, a =>
    makeHeapLoop lt first len parent
      (adjustHeap lt a first (parent + 1) len (a.getD (first + (parent + 1)) (0, 0)))

/-- The routine `std::__make_heap(first, last, comp)`. -/
def makeHeap (lt : Int × Int → Int × Int → Bool) (a : List (Int × Int)) (first last : Nat) :
    List (Int × Int) :=
  if last - first < 2 then a
  else makeHeapLoop lt first (last - first) ((last - first - 2) / 2) a

/-- The routine `std::__sort_heap(first, last, comp)`, by the number
`last - first` of elements still in the heap. -/
def sortHeap (lt : Int × Int → Int × Int → Bool) (first : Nat) :
    Nat → List (Int × Int) → List (Int × Int)
  | 0, a => a
  | 1, a => a
  | count + 2, a =>
    sortHeap lt first (count + 1)
      (popHeap lt a first (first + (count + 1)) (first + (count + 1)))

/-- The call `std::__partial_sort(first, last, last, comp)` of
`std::__introsort_loop`: `std::__heap_select`, whose loop from `middle = last`
is empty, and `std::__sort_heap`. -/
def partialSort (lt : Int × Int → Int × Int → Bool) (a : List (Int × Int)) (first last : Nat) :
    List (Int × Int) :=
  sortHeap lt first (last - first) (makeHeap lt a first last)

/-- The loop behind `std::__lg`: the number of times `n` can be halved before it
is below 2; `fuel` bounds the number of passes. -/
def lgLoop : Nat → Nat → Nat
  | 0, _ => 0
  | fuel + 1, n => if n < 2 then 0 else lgLoop fuel (n / 2) + 1

/-- The function `std::__lg(n)`: the position of the highest bit set in `n`. -/
def stdLg (n : Nat) : Nat := lgLoop n n

/-- The routine `std::__introsort_loop(first, last, depth_limit, comp)`; `fuel`
bounds the number of passes of its loop together with the depth of its calls. -/
def introsortLoop (lt : Int × Int → Int × Int → Bool) :
    Nat → List (Int × Int) → Nat → Nat → Nat → List (Int × Int)
  | 0, a, _, _, _ => a
  | fuel + 1, a, first, last, depthLimit =>
    if last - first > 16 then
      if depthLimit = 0 then partialSort lt a first last
      else
        let r := unguardedPartitionPivot lt a first last
        introsortLoop lt fuel (introsortLoop lt fuel r.1 r.2 last (depthLimit - 1))
          first r.2 (depthLimit - 1)
    else a

/-- The routine `std::__sort(first, last, comp)` that `std::sort` calls, on the
whole vector. -/
def stdSort (lt : Int × Int → Int × Int → Bool) (a : List (Int × Int)) : List (Int × Int) :=
  if a.isEmpty then a
  else finalInsertionSort lt (introsortLoop lt a.length a 0 a.length (stdLg a.length * 2))

/-! ## `runBankersAlgorithm` -/

/-- The loops that follow each `executeProcess` call in `runBankersAlgorithm`:
`Need[i][j] = Max[i][j] - Allocation[i][j]` for every process and resource type. -/
def updateAllNeed (nP nR : Nat) (L : Ledger) : Ledger :=
  (List.range nP).foldl (fun L1 i => updateNeed nR i L1) L

/-- The loop of `runBankersAlgorithm` over the map `processes` in key order. -/
def bankersLoop (resources : List ResourceType) (nP : Nat) : List Process → Ledger → Option Ledger
  | [], L => some L
  | proc :: rest, L =>
    match executeProcess resources proc.instructions (proc.pid - 1).toNat L with
    | none => none
    | some L1 => bankersLoop resources nP rest (updateAllNeed nP resources.length L1)

/-- The function `runBankersAlgorithm`: the ledger it leaves. -/
def runBankersAlgorithm (resources : List ResourceType) (processes : List Process) :
    Option Ledger :=
  match initializeDataStructures resources processes with
  | none => none
  | some L0 => bankersLoop resources processes.length processes L0

/-! ## `runLLFScheduling`, integers taken as unbounded -/

/-- The comparison `operator<` of `std::pair<int, int>`:
`a.first < b.first || (!(b.first < a.first) && a.second < b.second)`. -/
def pairLess (a b : Int × Int) : Bool :=
  decide (a.1 < b.1) || (!decide (b.1 < a.1) && decide (a.2 < b.2))

/-- The member `top()` of the `std::priority_queue` with `std::greater<>`: an
entry of the queue that no other entry is less than.  The queue is the list of
its entries; an empty queue has no top. -/
def pqTop : List (Int × Int) → Option (Int × Int)
  | [] => none
  | e :: q => some (q.foldl (fun m x => if pairLess x m then x else m) e)

/-- The member `pop()`: the top entry leaves the queue. -/
def pqPop (q : List (Int × Int)) : List (Int × Int) :=
  match pqTop q with
  | none => q
  | some m => q.erase m

/-- The member `push(e)`. -/
def pqPush (q : List (Int × Int)) (e : Int × Int) : List (Int × Int) := e :: q

/-- The queue after the loop "Initialize priority queue with processes and their
laxities", with `currentTime = 0`. -/
def llfInit (processes : List Process) : List (Int × Int) :=
  processes.foldl (fun pq proc => pqPush pq (proc.deadline - 0 - proc.computationTime, proc.pid)) []

/-- The inner `while (!pq.empty())` loop of `runLLFScheduling`, which moves every
entry of `pq` to `updatedPQ` with its laxity computed anew.  `fuel` bounds the
number of passes; `none` when it is used up with entries left. -/
def llfRefill (processes : List Process) (currentTime : Int) :
    Nat → List (Int × Int) → List (Int × Int) → Option (List (Int × Int))
  | 0, pq, updatedPQ => if pq.isEmpty then some updatedPQ else none
  | fuel + 1, pq, updatedPQ =>
    match pqTop pq with
    | none => some updatedPQ
    | some top =>
      let nextPid := top.2
      let nextProc := lookupProcess processes nextPid
      let nextLaxity := nextProc.deadline - currentTime - nextProc.computationTime
      llfRefill processes currentTime fuel (pqPop pq) (pqPush updatedPQ (nextLaxity, nextPid))

/-- The outer `while (!pq.empty())` loop of `runLLFScheduling`.  The ids on which
`executeProcess` was called are recorded in `trace`; `fuel` bounds the number of
passes, and the result is `none` when it is used up with entries left or when
`executeProcess` throws. -/
def llfLoop (resources : List ResourceType) (processes : List Process) :
    Nat → List (Int × Int) → Int → List Int → Ledger → Option (List Int × Ledger)
  | 0, pq, _, trace, L => if pq.isEmpty then some (trace, L) else none
  | fuel + 1, pq, currentTime, trace, L =>
    match pqTop pq with
    | none => some (trace, L)
    | some top =>
      let pid := top.2
      let proc := lookupProcess processes pid
      match executeProcess resources proc.instructions (pid - 1).toNat L with
      | none => none
      | some L1 =>
        let currentTime1 := currentTime + proc.computationTime
        match llfRefill processes currentTime1 (pqPop pq).length (pqPop pq) [] with
        | none => none
        | some updatedPQ =>
          llfLoop resources processes fuel updatedPQ currentTime1 (trace ++ [pid]) L1

/-- The function `runLLFScheduling` with integers taken as unbounded: the ids in
the order in which `executeProcess` was called, and the final ledger. -/
def runLLFScheduling (resources : List ResourceType) (processes : List Process) (L : Ledger) :
    Option (List Int × Ledger) :=
  llfLoop resources processes processes.length (llfInit processes) 0 [] L

/-! ## `runLLFScheduling` on 32-bit `int` -/

/-- The value that a 32-bit `int` holds after an arithmetic result `x`: the
number between `-2^31` and `2^31 - 1` that differs from `x` by a multiple of
`2^32`. -/
def wrapInt (x : Int) : Int := (x + 2147483648) % 4294967296 - 2147483648

/-- The expression `proc.deadline - currentTime - proc.computationTime` in `int`
arithmetic, as both loops of `runLLFScheduling` compute it. -/
def laxity32 (processes : List Process) (currentTime : Int) (pid : Int) : Int :=
  wrapInt (wrapInt ((lookupProcess processes pid).deadline - currentTime)
    - (lookupProcess processes pid).computationTime)

/-- The queue after the loop "Initialize priority queue with processes and their
laxities", with `currentTime = 0`, in `int` arithmetic. -/
def llfInit32 (processes : List Process) : List (Int × Int) :=
  processes.foldl (fun pq proc =>
    pqPush pq (wrapInt (wrapInt (proc.deadline - 0) - proc.computationTime), proc.pid)) []

/-- The inner `while (!pq.empty())` loop of `runLLFScheduling` in `int`
arithmetic.  `fuel` bounds the number of passes; `none` when it is used up with
entries left. -/
def llfRefill32 (processes : List Process) (currentTime : Int) :
    Nat → List (Int × Int) → List (Int × Int) → Option (List (Int × Int))
  | 0, pq, updatedPQ => if pq.isEmpty then some updatedPQ else none
  | fuel + 1, pq, updatedPQ =>
    match pqTop pq with
    | none => some updatedPQ
    | some top =>
      let nextPid := top.2
      let nextProc := lookupProcess processes nextPid
      let nextLaxity :=
        wrapInt (wrapInt (nextProc.deadline - currentTime) - nextProc.computationTime)
      llfRefill32 processes currentTime fuel (pqPop pq) (pqPush updatedPQ (nextLaxity, nextPid))

/-- The outer `while (!pq.empty())` loop of `runLLFScheduling` in `int`
arithmetic.  The ids on which `executeProcess` was called are recorded in
`trace`; `fuel` bounds the number of passes, and the result is `none` when it is
used up with entries left or when `executeProcess` throws. -/
def llfLoop32 (resources : List ResourceType) (processes : List Process) :
    Nat → List (Int × Int) → Int → List Int → Ledger → Option (List Int × Ledger)
  | 0, pq, _, trace, L => if pq.isEmpty then some (trace, L) else none
  | fuel + 1, pq, currentTime, trace, L =>
    match pqTop pq with
    | none => some (trace, L)
    | some top =>
      let pid := top.2
      let proc := lookupProcess processes pid
      match executeProcess resources proc.instructions (pid - 1).toNat L with
      | none => none
      | some L1 =>
        let currentTime1 := wrapInt (currentTime + proc.computationTime)
        match llfRefill32 processes currentTime1 (pqPop pq).length (pqPop pq) [] with
        | none => none
        | some updatedPQ =>
          llfLoop32 resources processes fuel updatedPQ currentTime1 (trace ++ [pid]) L1

/-- The function `runLLFScheduling` with `currentTime` and the laxities held in
32-bit `int` variables, as the program declares them: the ids in the order in
which `executeProcess` was called, and the final ledger. -/
def runLLFScheduling32 (resources : List ResourceType) (processes : List Process)
    (L : Ledger) : Option (List Int × Ledger) :=
  llfLoop32 resources processes processes.length (llfInit32 processes) 0 [] L

/-! ## Vocabulary of the statements -/

/-- A loop `for k < n` that rewrites `W[k]` from its own old value. -/
def vecLoop (n : Nat) (g : Nat → Int → Int) (W : List Int) : List Int :=
  (List.range n).foldl (fun V k => V.set k (g k (V.getD k 0))) W

/-- The vector `W` with `r[k]` added at every index `k` below `r.size()`. -/
def addVec (r W : List Int) : List Int := vecLoop r.length (fun k a => a + r.getD k 0) W

/-- The vector `W` with `r[k]` subtracted at every index `k` below `r.size()`. -/
def subVec (r W : List Int) : List Int := vecLoop r.length (fun k a => a - r.getD k 0) W

/-- The ledger is rectangular: `nP` processes and `nR` resource types. -/
def Ledger.Rect (L : Ledger) (nP nR : Nat) : Prop :=
  L.Available.length = nR ∧ L.Max.length = nP ∧ L.Allocation.length = nP ∧ L.Need.length = nP ∧
  (∀ row ∈ L.Max, row.length = nR) ∧ (∀ row ∈ L.Allocation, row.length = nR) ∧
  (∀ row ∈ L.Need, row.length = nR)

instance (L : Ledger) (nP nR : Nat) : Decidable (L.Rect nP nR) := by
  unfold Ledger.Rect; infer_instance

/-- The tentatively committed state in the words of the specification:
`Available -= amounts; Allocation[processId] += amounts; Need[processId] -= amounts`,
every other row and `Max` as they were. -/
def committed (processId : Nat) (amounts : List Int) (L : Ledger) : Ledger :=
  { Available := List.zipWith (fun a r => a - r) L.Available amounts
    Max := L.Max
    Allocation := L.Allocation.set processId
      (List.zipWith (fun a r => a + r) (L.Allocation.getD processId []) amounts)
    Need := L.Need.set processId
      (List.zipWith (fun a r => a - r) (L.Need.getD processId []) amounts) }

/-- A step on the ledger: a call of `requestResources`, a call of
`releaseResources`, the `use_resources` branch of `executeProcess` (for a process
and its instruction stream) or the `end` branch. -/
inductive LedgerStep where
  | request (processId : Nat) (amounts : List Int)
  | release (processId : Nat) (amounts : List Int)
  | useResources (processId : Nat) (instructions : List String)
  | finish (processId : Nat)

/-- The ledger after a step. -/
def LedgerStep.run (resources : List ResourceType) : LedgerStep → Ledger → Ledger
  | .request p amounts, L => (requestResources p amounts L).2
  | .release p amounts, L => releaseResources p amounts L
  | .useResources p instructions, L => useResourcesStep resources instructions p L
  | .finish p, L => releaseAll p L

/-- The process index of a step is below `nP` and its amounts vector, if it has
one, is no longer than `nR`. -/
def LedgerStep.InRange (nP nR : Nat) : LedgerStep → Prop
  | .request p amounts => p < nP ∧ amounts.length ≤ nR
  | .release p amounts => p < nP ∧ amounts.length ≤ nR
  | .useResources p _ => p < nP
  | .finish p => p < nP

instance (nP nR : Nat) (s : LedgerStep) : Decidable (s.InRange nP nR) := by
  cases s <;> unfold LedgerStep.InRange <;> infer_instance

/-- The ledger after a finite sequence of steps. -/
def runSteps (resources : List ResourceType) (steps : List LedgerStep) (L : Ledger) : Ledger :=
  steps.foldl (fun L1 s => s.run resources L1) L

/-- The sum over all processes `i` of `M[i][j]`. -/
def colSum (M : List (List Int)) (j : Nat) : Int := (M.map (fun row => row.getD j 0)).sum

/-- The number of instances of resource type `j`. -/
def totalInstances (resources : List ResourceType) (j : Nat) : Int :=
  ((resources.map (fun r => (r.instances.length : Int))).getD j 0)

/-- Conservation: `Available[j] + Σ_i Allocation[i][j]` is the number of instances
of resource type `j`, for every `j`. -/
def Conserved (resources : List ResourceType) (L : Ledger) : Prop :=
  ∀ j, j < resources.length →
    L.Available.getD j 0 + colSum L.Allocation j = totalInstances resources j

/-- The part of the shape that conservation depends on: `Available` has `nR`
entries and `Allocation` has `nP` rows of `nR` entries. -/
def Ledger.AllocShape (L : Ledger) (nP nR : Nat) : Prop :=
  L.Available.length = nR ∧ L.Allocation.length = nP ∧ ∀ row ∈ L.Allocation, row.length = nR

/-- The amounts of a step are non-negative integers. -/
def LedgerStep.NonNeg : LedgerStep → Prop
  | .request _ amounts => ∀ x ∈ amounts, (0 : Int) ≤ x
  | .release _ amounts => ∀ x ∈ amounts, (0 : Int) ≤ x
  | .useResources _ _ => True
  | .finish _ => True

/-- A release gives back no more than the process holds in ledger `L`. -/
def LedgerStep.Held (L : Ledger) : LedgerStep → Prop
  | .release p amounts => ∀ j, j < amounts.length → amounts.getD j 0 ≤ getCell L.Allocation p j
  | _ => True

/-- Every step of the sequence is in range, has non-negative amounts and, when
it is a release, gives back no more than is held in the ledger it runs on. -/
def StepsHeld (resources : List ResourceType) (nP : Nat) : List LedgerStep → Ledger → Prop
  | [], _ => True
  | s :: rest, L =>
    s.InRange nP resources.length ∧ s.NonNeg ∧ s.Held L ∧
      StepsHeld resources nP rest (s.run resources L)

instance (s : LedgerStep) : Decidable s.NonNeg := by
  cases s <;> unfold LedgerStep.NonNeg <;> infer_instance

instance (L : Ledger) (s : LedgerStep) : Decidable (s.Held L) := by
  cases s <;> unfold LedgerStep.Held <;> infer_instance

/-- Decides `StepsHeld` by running the steps. -/
def StepsHeld.decide (resources : List ResourceType) (nP : Nat) :
    (steps : List LedgerStep) → (L : Ledger) → Decidable (StepsHeld resources nP steps L)
  | [], _ => isTrue trivial
  | s :: rest, L =>
    have := StepsHeld.decide resources nP rest (s.run resources L)
    inferInstanceAs (Decidable (s.InRange nP resources.length ∧ s.NonNeg ∧ s.Held L ∧
      StepsHeld resources nP rest (s.run resources L)))

instance (resources : List ResourceType) (nP : Nat) (steps : List LedgerStep) (L : Ledger) :
    Decidable (StepsHeld resources nP steps L) := StepsHeld.decide resources nP steps L

/-- Non-negativity: `Allocation[i][j] >= 0` for all `i`, `j` and `Available[j] >= 0`
for all `j`. -/
def NonNegative (L : Ledger) : Prop :=
  (∀ i j, 0 ≤ getCell L.Allocation i j) ∧ ∀ j, 0 ≤ L.Available.getD j 0

/-- The postcondition of `std::sort` with comparator `lt`: the result is a
permutation of the input, and no element is followed by one that the
comparator puts before it. -/
def SortsBy {α : Type} (lt : α → α → Bool) (sort : List α → List α) : Prop :=
  ∀ l, (sort l).Perm l ∧ (sort l).Pairwise (fun a b => lt b a = false)

/-- The order `a.second <= b.second` on the entries of `sortedProcesses`. -/
def edfLe (a b : Int × Int) : Prop := a.2 ≤ b.2

instance : DecidableRel edfLe := fun a b => inferInstanceAs (Decidable (a.2 ≤ b.2))

instance : IsTotal (Int × Int) edfLe := ⟨fun a b => Int.le_total a.2 b.2⟩

instance : IsTrans (Int × Int) edfLe := ⟨fun _ _ _ h1 h2 => Int.le_trans h1 h2⟩

/-- A sorting routine that meets the postcondition of `std::sort` for the
comparator of `runEDFScheduling`, used to run the scenarios. -/
def insertionSortByDeadline (l : List (Int × Int)) : List (Int × Int) :=
  l.insertionSort edfLe

/-- The vector `Work` after the processes of `order` have completed one after
the other from `Work`: each step is `Work := Work + Allocation[p]`. -/
def workAfter (L : Ledger) : List Nat → List Int → List Int
  | [], Work => Work
  | p :: rest, Work =>
    workAfter L rest (List.zipWith (fun a b => a + b) Work (L.Allocation.getD p []))

/-- The processes of `order` can complete one after the other from `Work`:
`Need[p][j] <= Work[j]` for every resource type `j` when the turn of `p` comes,
and then `Work := Work + Allocation[p]`. -/
def SafeSeq (L : Ledger) : List Nat → List Int → Prop
  | [], _ => True
  | p :: rest, Work =>
    (∀ j, j < L.Available.length → getCell L.Need p j ≤ Work.getD j 0) ∧
      SafeSeq L rest (List.zipWith (fun a b => a + b) Work (L.Allocation.getD p []))

instance (L : Ledger) : (order : List Nat) → (Work : List Int) →
    Decidable (SafeSeq L order Work)
  | [], _ => isTrue trivial
  | p :: rest, Work =>
    have := instDecidableSafeSeq L rest
      (List.zipWith (fun a b => a + b) Work (L.Allocation.getD p []))
    inferInstanceAs (Decidable
      ((∀ j, j < L.Available.length → getCell L.Need p j ≤ Work.getD j 0) ∧
        SafeSeq L rest (List.zipWith (fun a b => a + b) Work (L.Allocation.getD p []))))

/-- What the locals of `isSafe` satisfy between iterations, for the list `done`
of the processes marked so far, in the order in which they were marked. -/
def SafeInv (L : Ledger) (nP nR : Nat) (Work : List Int) (Finish : List Bool)
    (done : List Nat) : Prop :=
  Finish.length = nP ∧ Work.length = nR ∧ done.Nodup ∧
  (∀ i, i ∈ done ↔ i < nP ∧ Finish.getD i false = true) ∧
  SafeSeq L done L.Available ∧ Work = workAfter L done L.Available

/-! ## `isSafe` as a call on the global state -/

/-- The state a call of `isSafe()` runs on: the four global vectors together with
the locals `Work`, `Finish` and `found`. -/
structure SafeFrame where
  ledger : Ledger
  Work : List Int
  Finish : List Bool
  found : Bool

/-- One iteration of the `for i` loop of `isSafe` on the whole state.  The
assignments of the body are `Work[k] += ...`, `Finish[i] = true` and
`found = true`; `Work` is the copy made by `std::vector<int> Work = Available`. -/
def frameStep (f : SafeFrame) (i : Nat) : SafeFrame :=
  if !f.Finish.getD i false then
    if possible f.ledger f.Work i then
      { f with
        Work := addAllocation f.ledger i f.Work
        Finish := f.Finish.set i true
        found := true }
    else f
  else f

/-- The body of `while (true)` on the whole state. -/
def framePass (f : SafeFrame) : SafeFrame :=
  (List.range f.ledger.Max.length).foldl frameStep { f with found := false }

/-- The `while (true)` loop on the whole state, with a bound on the passes. -/
def frameLoop : Nat → SafeFrame → Option SafeFrame
  | 0, _ => none
  | fuel + 1, f =>
    let g := framePass f
    if g.found then frameLoop fuel g else some g

/-- The call `isSafe()` as a state transformer: the value it returns and the
global vectors it leaves. -/
def isSafeCall (L : Ledger) : Bool × Ledger :=
  match frameLoop (L.Max.length + 1)
      { ledger := L, Work := L.Available, Finish := List.replicate L.Max.length false,
        found := false } with
  | some f => (f.Finish.all id, f.ledger)
  | none => (false, L)

/-! ## Vocabulary for `executeProcess` -/

/-- The instruction loop of `executeProcess` over a prefix of the stream: the
ledger reached and whether the loop is still running (`false` after `break`). -/
def execPrefix (resources : List ResourceType) (instructions : List String) (processId : Nat) :
    List String → Ledger → Option (Ledger × Bool)
  | [], L => some (L, true)
  | instruction :: rest, L =>
    match execInstruction resources instructions processId instruction L with
    | none => none
    | some (L1, true) => execPrefix resources instructions processId rest L1
    | some (L1, false) => some (L1, false)

/-- The line is handled by the `request` branch of `executeProcess`. -/
def isRequestLine (instruction : String) : Bool :=
  !containsStr instruction "calculate" && containsStr instruction "request"

/-- The line is handled by the `end` branch of `executeProcess`. -/
def isEndLine (instruction : String) : Bool :=
  !containsStr instruction "calculate" && !containsStr instruction "request" &&
  !containsStr instruction "use_resources" && !containsStr instruction "release" &&
  !containsStr instruction "print_resources_used" && containsStr instruction "end"

/-- The line is handled by the `use_resources` branch of `executeProcess`. -/
def isUseLine (instruction : String) : Bool :=
  !containsStr instruction "calculate" && !containsStr instruction "request" &&
  containsStr instruction "use_resources"

/-- Ledger `L1` differs from `L` at most in `Available` and in the rows of
process `p` of `Allocation` and `Need`, and has the shape of `L`. -/
def Touches (p : Nat) (L L1 : Ledger) : Prop :=
  L1.Max = L.Max ∧ L1.Available.length = L.Available.length ∧
  L1.Allocation.length = L.Allocation.length ∧ L1.Need.length = L.Need.length ∧
  (∀ q, (L1.Allocation.getD q []).length = (L.Allocation.getD q []).length) ∧
  (∀ q, (L1.Need.getD q []).length = (L.Need.getD q []).length) ∧
  ∀ q, q ≠ p → L1.Allocation.getD q [] = L.Allocation.getD q [] ∧
    L1.Need.getD q [] = L.Need.getD q []

/-- The number `m_i` of instance identifiers of a resource type that occur as a
whole line of the instruction stream. -/
def matchCount (instructions : List String) (r : ResourceType) : Nat :=
  (r.instances.filter (fun x => instructions.contains x)).length

/-- The units that `use_resources` takes of a resource type with `avail` units
available and `m` matching identifiers: one per match while `Available > 0`. -/
def unitsTaken (avail : Int) (m : Nat) : Int := min (max avail 0) (m : Int)

/-- Ledger `L1` is `L` after `d j` units of every resource type `j` have moved
from `Available` to process `p`. -/
def Shift (p : Nat) (d : Nat → Int) (L L1 : Ledger) : Prop :=
  ∀ j, L1.Available.getD j 0 = L.Available.getD j 0 - d j ∧
    getCell L1.Allocation p j = getCell L.Allocation p j + d j ∧
    getCell L1.Need p j = getCell L.Need p j - d j

/-- The order `a <= b` of `std::pair<int, int>`: `b` is not less than `a`. -/
def pairLe (a b : Int × Int) : Prop := a.1 < b.1 ∨ (a.1 = b.1 ∧ a.2 ≤ b.2)

instance : DecidableRel pairLe :=
  fun a b => inferInstanceAs (Decidable (a.1 < b.1 ∨ (a.1 = b.1 ∧ a.2 ≤ b.2)))

instance : IsTotal (Int × Int) pairLe := ⟨fun a b => by unfold pairLe; omega⟩

instance : IsTrans (Int × Int) pairLe := ⟨fun a b c h1 h2 => by unfold pairLe at *; omega⟩

/-- The calls `executeProcess(processes[pid].instructions, pid - 1)` for the ids
of `order`, one after the other: the ids executed are recorded in `trace`. -/
def runInOrder (resources : List ResourceType) (processes : List Process) :
    List Int → List Int → Ledger → Option (List Int × Ledger)
  | [], trace, L => some (trace, L)
  | pid :: rest, trace, L =>
    match executeProcess resources (lookupProcess processes pid).instructions (pid - 1).toNat L with
    | none => none
    | some L1 => runInOrder resources processes rest (trace ++ [pid]) L1

/-- The laxity `deadline - currentTime - computationTime` of process `pid`. -/
def laxityAt (processes : List Process) (currentTime : Int) (pid : Int) : Int :=
  (lookupProcess processes pid).deadline - currentTime
    - (lookupProcess processes pid).computationTime

/-- The sum of the computation times of the processes of `done`. -/
def elapsed (processes : List Process) (done : List Int) : Int :=
  (done.map (fun pid => (lookupProcess processes pid).computationTime)).sum

/-- The pairs `(deadline - computationTime, pid)` of all processes in ascending
lexicographic order. -/
def staticKeys (processes : List Process) : List (Int × Int) :=
  (processes.map (fun q => (q.deadline - q.computationTime, q.pid))).insertionSort pairLe

/-- All process ids sorted in ascending lexicographic order of the pair
`(deadline - computationTime, pid)`. -/
def staticOrder (processes : List Process) : List Int :=
  (staticKeys processes).map Prod.snd

/-- The number `deadline - computationTime` of process `pid`. -/
def staticKey (processes : List Process) (pid : Int) : Int :=
  (lookupProcess processes pid).deadline - (lookupProcess processes pid).computationTime

/-- The number `x` is a value of a 32-bit `int`. -/
def IsInt32 (x : Int) : Prop := -2147483648 ≤ x ∧ x ≤ 2147483647

instance (x : Int) : Decidable (IsInt32 x) :=
  inferInstanceAs (Decidable (-2147483648 ≤ x ∧ x ≤ 2147483647))

/-- The laxity of every process of `pids` at `currentTime`, and the difference
`deadline - currentTime` it is computed from, are values of a 32-bit `int`. -/
def LaxitiesFit (processes : List Process) (currentTime : Int) (pids : List Int) : Prop :=
  ∀ y ∈ pids, IsInt32 ((lookupProcess processes y).deadline - currentTime) ∧
    IsInt32 (laxityAt processes currentTime y)

instance (processes : List Process) (currentTime : Int) (pids : List Int) :
    Decidable (LaxitiesFit processes currentTime pids) := by
  unfold LaxitiesFit; infer_instance

/-- No `int` computation overflows while the processes of `order` run one after
the other from `currentTime`: after each process the new `currentTime` is a
value of a 32-bit `int`, and so are the laxities of the processes still to run
that are computed from it. -/
def NoOverflow (processes : List Process) : Int → List Int → Prop
  | _, [] => True
  | currentTime, x :: rest =>
    IsInt32 (currentTime + (lookupProcess processes x).computationTime) ∧
    LaxitiesFit processes (currentTime + (lookupProcess processes x).computationTime) rest ∧
    NoOverflow processes (currentTime + (lookupProcess processes x).computationTime) rest

instance (processes : List Process) : (currentTime : Int) → (order : List Int) →
    Decidable (NoOverflow processes currentTime order)
  | _, [] => isTrue trivial
  | currentTime, x :: rest =>
    have := instDecidableNoOverflow processes
      (currentTime + (lookupProcess processes x).computationTime) rest
    inferInstanceAs (Decidable
      (IsInt32 (currentTime + (lookupProcess processes x).computationTime) ∧
      LaxitiesFit processes (currentTime + (lookupProcess processes x).computationTime) rest ∧
      NoOverflow processes (currentTime + (lookupProcess processes x).computationTime) rest))

/-! # Lemmas -/

/-! ## Loops over a vector and over a row of a matrix -/

theorem getD_set_int (l : List Int) (i j : Nat) (a : Int) :
    (l.set i a).getD j 0 = if i = j ∧ i < l.length then a else l.getD j 0 := by
  simp only [List.getD_eq_getElem?_getD, List.getElem?_set]
  by_cases hij : i = j
  · subst hij
    by_cases hi : i < l.length
    · simp [hi]
    · simp [hi, List.getElem?_eq_none (Nat.le_of_not_lt hi)]
  · simp [hij]

theorem getD_of_length_le (l : List Int) (j : Nat) (h : l.length ≤ j) : l.getD j 0 = 0 := by
  simp [List.getD_eq_getElem?_getD, List.getElem?_eq_none h]

theorem ext_getD {l1 l2 : List Int} (hlen : l1.length = l2.length)
    (h : ∀ j, j < l1.length → l1.getD j 0 = l2.getD j 0) : l1 = l2 := by
  apply List.ext_getElem hlen
  intro j h1 h2
  have := h j h1
  simpa [List.getD_eq_getElem?_getD, List.getElem?_eq_getElem h1,
    List.getElem?_eq_getElem h2] using this

theorem vecLoop_succ (n : Nat) (g : Nat → Int → Int) (W : List Int) :
    vecLoop (n + 1) g W = (vecLoop n g W).set n (g n ((vecLoop n g W).getD n 0)) := by
  simp [vecLoop, List.range_succ, List.foldl_append]

theorem length_vecLoop (n : Nat) (g : Nat → Int → Int) (W : List Int) :
    (vecLoop n g W).length = W.length := by
  induction n with
  | zero => simp [vecLoop]
  | succ n ih => rw [vecLoop_succ, List.length_set, ih]

theorem getD_vecLoop (n : Nat) (g : Nat → Int → Int) (W : List Int) (j : Nat) :
    (vecLoop n g W).getD j 0 = if j < n ∧ j < W.length then g j (W.getD j 0) else W.getD j 0 := by
  induction n with
  | zero => simp [vecLoop]
  | succ n ih =>
    rw [vecLoop_succ, getD_set_int, length_vecLoop]
    by_cases hj : n = j
    · subst hj
      by_cases hl : n < W.length
      · have e : (vecLoop n g W).getD n 0 = W.getD n 0 := by
          rw [ih, if_neg (by omega)]
        rw [e, if_pos ⟨rfl, hl⟩, if_pos ⟨by omega, hl⟩]
      · rw [if_neg (by omega), if_neg (by omega), ih, if_neg (by omega)]
    · rw [if_neg (by omega), ih]
      by_cases hjn : j < n ∧ j < W.length
      · rw [if_pos hjn, if_pos ⟨by omega, hjn.2⟩]
      · rw [if_neg hjn, if_neg (by omega)]

theorem set_getD_self (M : List (List Int)) (p : Nat) : M.set p (M.getD p []) = M := by
  apply List.ext_getElem?
  intro n
  rw [List.getElem?_set]
  by_cases hpn : p = n
  · subst hpn
    by_cases hp : p < M.length
    · simp [hp, List.getD_eq_getElem?_getD, List.getElem?_eq_getElem hp]
    · simp [hp, List.getElem?_eq_none (Nat.le_of_not_lt hp)]
  · simp [hpn]

theorem getD_set_row (M : List (List Int)) (p : Nat) (W : List Int) (hp : p < M.length) :
    (M.set p W).getD p [] = W := by
  simp [List.getD_eq_getElem?_getD, List.getElem?_set, hp]

theorem getD_set_row_ne (M : List (List Int)) (p q : Nat) (W : List Int) (hpq : p ≠ q) :
    (M.set p W).getD q [] = M.getD q [] := by
  simp [List.getD_eq_getElem?_getD, List.getElem?_set, hpq]

theorem setCell_set (M : List (List Int)) (p k : Nat) (W : List Int) (v : Int) :
    setCell (M.set p W) p k v = M.set p (((M.set p W).getD p []).set k v) := by
  simp [setCell, List.set_set]

/-- A loop that rewrites the cells of row `p` is a `vecLoop` on that row. -/
theorem rowLoop_eq (n p : Nat) (g : Nat → Int → Int) (M : List (List Int)) :
    (List.range n).foldl (fun N k => setCell N p k (g k (getCell N p k))) M
      = M.set p (vecLoop n g (M.getD p [])) := by
  induction n with
  | zero =>
    have e : vecLoop 0 g (M.getD p []) = M.getD p [] := rfl
    rw [e, set_getD_self]
    rfl
  | succ n ih =>
    rw [List.range_succ, List.foldl_append, ih, vecLoop_succ]
    simp only [List.foldl_cons, List.foldl_nil, getCell]
    by_cases hp : p < M.length
    · rw [setCell_set, getD_set_row M p _ hp]
    · have hle : M.length ≤ p := Nat.le_of_not_lt hp
      rw [setCell_set]
      simp [List.set_eq_of_length_le hle]

theorem getD_row_of_length_le (M : List (List Int)) (p : Nat) (h : M.length ≤ p) :
    M.getD p [] = [] := by
  simp [List.getD_eq_getElem?_getD, List.getElem?_eq_none h]

theorem setCell_getCell_self (M : List (List Int)) (p k : Nat) :
    setCell M p k (getCell M p k) = M := by
  have e : (M.getD p []).set k ((M.getD p []).getD k 0) = M.getD p [] := by
    apply ext_getD (List.length_set _ _ _)
    intro j _
    rw [getD_set_int]
    by_cases h : k = j ∧ k < (M.getD p []).length
    · rw [if_pos h, h.1]
    · rw [if_neg h]
  unfold setCell getCell
  rw [e, set_getD_self]

/-- A loop whose body rewrites `Available[i]`, `Allocation[p][i]` and
`Need[p][i]` each from its own old value acts on the three vectors separately. -/
theorem ledgerLoop_eq (p : Nat) (gA gB gC : Nat → Int → Int) (step : Ledger → Nat → Ledger)
    (hstep : ∀ L i, step L i =
      { Available := L.Available.set i (gA i (L.Available.getD i 0))
        Max := L.Max
        Allocation := setCell L.Allocation p i (gB i (getCell L.Allocation p i))
        Need := setCell L.Need p i (gC i (getCell L.Need p i)) })
    (n : Nat) (L : Ledger) :
    (List.range n).foldl step L =
      { Available := vecLoop n gA L.Available
        Max := L.Max
        Allocation := L.Allocation.set p (vecLoop n gB (L.Allocation.getD p []))
        Need := L.Need.set p (vecLoop n gC (L.Need.getD p [])) } := by
  have key : ∀ (l : List Nat) (L : Ledger), l.foldl step L =
      { Available := l.foldl (fun V k => V.set k (gA k (V.getD k 0))) L.Available
        Max := L.Max
        Allocation := l.foldl (fun N k => setCell N p k (gB k (getCell N p k))) L.Allocation
        Need := l.foldl (fun N k => setCell N p k (gC k (getCell N p k))) L.Need } := by
    intro l
    induction l with
    | nil => intro L; rfl
    | cons a l ih =>
      intro L
      rw [List.foldl_cons, ih, hstep]
      rfl
  rw [key, rowLoop_eq, rowLoop_eq]
  rfl

theorem allocate_eq (p : Nat) (r : List Int) (L : Ledger) :
    allocate p r L =
      { Available := subVec r L.Available
        Max := L.Max
        Allocation := L.Allocation.set p (addVec r (L.Allocation.getD p []))
        Need := L.Need.set p (subVec r (L.Need.getD p [])) } :=
  ledgerLoop_eq p (fun k a => a - r.getD k 0) (fun k a => a + r.getD k 0)
    (fun k a => a - r.getD k 0) (allocateStep p r) (fun _ _ => rfl) r.length L

theorem rollback_eq (p : Nat) (r : List Int) (L : Ledger) :
    rollback p r L =
      { Available := addVec r L.Available
        Max := L.Max
        Allocation := L.Allocation.set p (subVec r (L.Allocation.getD p []))
        Need := L.Need.set p (addVec r (L.Need.getD p [])) } :=
  ledgerLoop_eq p (fun k a => a + r.getD k 0) (fun k a => a - r.getD k 0)
    (fun k a => a + r.getD k 0) (rollbackStep p r) (fun _ _ => rfl) r.length L

theorem releaseResources_eq (p : Nat) (r : List Int) (L : Ledger) :
    releaseResources p r L =
      { Available := addVec r L.Available
        Max := L.Max
        Allocation := L.Allocation.set p (subVec r (L.Allocation.getD p []))
        Need := L.Need.set p (addVec r (L.Need.getD p [])) } :=
  ledgerLoop_eq p (fun k a => a + r.getD k 0) (fun k a => a - r.getD k 0)
    (fun k a => a + r.getD k 0) (releaseStep (fun _ i => r.getD i 0) p) (fun _ _ => rfl)
    r.length L

theorem length_addVec (r W : List Int) : (addVec r W).length = W.length :=
  length_vecLoop _ _ _

theorem length_subVec (r W : List Int) : (subVec r W).length = W.length :=
  length_vecLoop _ _ _

theorem getD_addVec (r W : List Int) (j : Nat) (h : r.length ≤ W.length) :
    (addVec r W).getD j 0 = W.getD j 0 + r.getD j 0 := by
  unfold addVec
  rw [getD_vecLoop]
  by_cases hj : j < r.length
  · rw [if_pos ⟨hj, by omega⟩]
  · rw [if_neg (by omega), getD_of_length_le r j (by omega), Int.add_zero]

theorem getD_subVec (r W : List Int) (j : Nat) (h : r.length ≤ W.length) :
    (subVec r W).getD j 0 = W.getD j 0 - r.getD j 0 := by
  unfold subVec
  rw [getD_vecLoop]
  by_cases hj : j < r.length
  · rw [if_pos ⟨hj, by omega⟩]
  · rw [if_neg (by omega), getD_of_length_le r j (by omega), Int.sub_zero]

theorem addVec_subVec (r W : List Int) : addVec r (subVec r W) = W := by
  apply ext_getD (by rw [length_addVec, length_subVec])
  intro j _
  unfold addVec subVec
  rw [getD_vecLoop, length_vecLoop, getD_vecLoop]
  by_cases hj : j < r.length ∧ j < W.length
  · rw [if_pos hj, if_pos hj]; omega
  · rw [if_neg hj, if_neg hj]

theorem subVec_addVec (r W : List Int) : subVec r (addVec r W) = W := by
  apply ext_getD (by rw [length_subVec, length_addVec])
  intro j _
  unfold addVec subVec
  rw [getD_vecLoop, length_vecLoop, getD_vecLoop]
  by_cases hj : j < r.length ∧ j < W.length
  · rw [if_pos hj, if_pos hj]; omega
  · rw [if_neg hj, if_neg hj]

/-- Rolling back the tentative allocation restores the ledger. -/
theorem rollback_allocate (p : Nat) (r : List Int) (L : Ledger) :
    rollback p r (allocate p r L) = L := by
  rw [rollback_eq, allocate_eq]
  have hrow : ∀ (M : List (List Int)) (f g : List Int → List Int),
      (∀ W, g (f W) = W) →
      (M.set p (f (M.getD p []))).set p (g ((M.set p (f (M.getD p []))).getD p [])) = M := by
    intro M f g hgf
    by_cases hp : p < M.length
    · rw [getD_set_row M p _ hp, List.set_set, hgf, set_getD_self]
    · have hle : M.length ≤ p := Nat.le_of_not_lt hp
      rw [List.set_eq_of_length_le hle, List.set_eq_of_length_le hle]
  cases L with
  | mk A Mx Al Nd =>
    simp only [addVec_subVec]
    rw [hrow Al (addVec r) (subVec r) (subVec_addVec r),
      hrow Nd (subVec r) (addVec r) (addVec_subVec r)]

/-! ## The request protocol -/

theorem requestCheck_iff (p : Nat) (r : List Int) (L : Ledger) :
    requestCheck p r L = true ↔
      ∀ j, j < r.length → r.getD j 0 ≤ getCell L.Need p j ∧ r.getD j 0 ≤ L.Available.getD j 0 := by
  unfold requestCheck
  rw [List.all_eq_true]
  constructor
  · intro h j hj
    have := h j (List.mem_range.mpr hj)
    simp only [Bool.not_eq_true', Bool.or_eq_false_iff, decide_eq_false_iff_not, not_lt] at this
    exact this
  · intro h j hj
    have := h j (List.mem_range.mp hj)
    simp only [Bool.not_eq_true', Bool.or_eq_false_iff, decide_eq_false_iff_not, not_lt]
    exact this

theorem row_length_of_mem (M : List (List Int)) (n p : Nat) (h : ∀ row ∈ M, row.length = n)
    (hp : p < M.length) : (M.getD p []).length = n := by
  rw [List.getD_eq_getElem M [] hp]
  exact h _ (List.getElem_mem hp)

theorem subVec_eq_zipWith (r W : List Int) (h : W.length = r.length) :
    subVec r W = List.zipWith (fun a b => a - b) W r := by
  apply List.ext_getElem
  · rw [length_subVec, List.length_zipWith, h, Nat.min_self]
  · intro j h1 h2
    rw [length_subVec] at h1
    rw [List.getElem_zipWith, ← List.getD_eq_getElem _ 0 h1,
      ← List.getD_eq_getElem r 0 (h ▸ h1), ← getD_subVec r W j (Nat.le_of_eq h.symm)]
    exact (List.getD_eq_getElem _ 0 _).symm

theorem addVec_eq_zipWith (r W : List Int) (h : W.length = r.length) :
    addVec r W = List.zipWith (fun a b => a + b) W r := by
  apply List.ext_getElem
  · rw [length_addVec, List.length_zipWith, h, Nat.min_self]
  · intro j h1 h2
    rw [length_addVec] at h1
    rw [List.getElem_zipWith, ← List.getD_eq_getElem _ 0 h1,
      ← List.getD_eq_getElem r 0 (h ▸ h1), ← getD_addVec r W j (Nat.le_of_eq h.symm)]
    exact (List.getD_eq_getElem _ 0 _).symm

/-- The allocation loop of the source produces the committed state of the
specification on a rectangular ledger. -/
theorem allocate_eq_committed (L : Ledger) (nP nR p : Nat) (amounts : List Int)
    (hL : L.Rect nP nR) (hp : p < nP) (hlen : amounts.length = nR) :
    allocate p amounts L = committed p amounts L := by
  obtain ⟨hA, _, hAl, hNd, _, hAlr, hNdr⟩ := hL
  rw [allocate_eq]
  unfold committed
  rw [subVec_eq_zipWith amounts L.Available (by omega),
    addVec_eq_zipWith amounts _
      (by rw [row_length_of_mem L.Allocation nR p hAlr (by omega)]; omega),
    subVec_eq_zipWith amounts (L.Need.getD p [])
      (by rw [row_length_of_mem L.Need nR p hNdr (by omega)]; omega)]

theorem requestResources_fst (p : Nat) (r : List Int) (L : Ledger) :
    (requestResources p r L).1 = (requestCheck p r L && isSafe (allocate p r L)) := by
  unfold requestResources
  cases hc : requestCheck p r L <;> cases hs : isSafe (allocate p r L) <;> simp [hs]

theorem requestResources_snd_of_granted (p : Nat) (r : List Int) (L : Ledger)
    (h : (requestResources p r L).1 = true) : (requestResources p r L).2 = allocate p r L := by
  rw [requestResources_fst] at h
  simp only [Bool.and_eq_true] at h
  unfold requestResources
  simp [h.1, h.2]

theorem requestResources_of_denied (p : Nat) (r : List Int) (L : Ledger)
    (h : (requestResources p r L).1 = false) : (requestResources p r L).2 = L := by
  rw [requestResources_fst] at h
  unfold requestResources
  cases hc : requestCheck p r L
  · simp
  · rw [hc] at h
    simp only [Bool.true_and] at h
    simp [h, rollback_allocate]

/-- C3. Grant characterisation: on a rectangular ledger, for an in-range process and
an amounts vector with one entry per resource type, `requestResources` returns true
exactly when every amount is at most the need of the process and at most what is
available and `isSafe` holds in the committed state; and when it returns true the
ledger it leaves is the committed state, which is safe. -/
theorem requestResources_grant_iff (L : Ledger) (nP nR p : Nat) (amounts : List Int)
    (hL : L.Rect nP nR) (hp : p < nP) (hlen : amounts.length = nR) :
    ((requestResources p amounts L).1 = true ↔
      (∀ j, j < nR → amounts.getD j 0 ≤ getCell L.Need p j ∧
        amounts.getD j 0 ≤ L.Available.getD j 0) ∧
      isSafe (committed p amounts L) = true) ∧
    ((requestResources p amounts L).1 = true →
      (requestResources p amounts L).2 = committed p amounts L ∧
      isSafe (requestResources p amounts L).2 = true) := by
  have hc := allocate_eq_committed L nP nR p amounts hL hp hlen
  have hiff : (requestResources p amounts L).1 = true ↔
      (∀ j, j < nR → amounts.getD j 0 ≤ getCell L.Need p j ∧
        amounts.getD j 0 ≤ L.Available.getD j 0) ∧
      isSafe (committed p amounts L) = true := by
    rw [requestResources_fst, Bool.and_eq_true, requestCheck_iff, hc, hlen]
  refine ⟨hiff, fun h => ?_⟩
  rw [requestResources_snd_of_granted p amounts L h, hc]
  exact ⟨rfl, (hiff.mp h).2⟩

/-- C3, the scenario of the specification: one resource type with two instances and one
process with `Max = [2]`; `request([2])` is granted and `Available` goes from 2 to 0. -/
theorem requestResources_grant_iff_witness :
    ((requestResources 0 [2] ⟨[2], [[2]], [[0]], [[2]]⟩).1 = true ↔
      (∀ j, j < 1 → ([2] : List Int).getD j 0 ≤ getCell [[2]] 0 j ∧
        ([2] : List Int).getD j 0 ≤ ([2] : List Int).getD j 0) ∧
      isSafe (committed 0 [2] ⟨[2], [[2]], [[0]], [[2]]⟩) = true) ∧
    requestResources 0 [2] ⟨[2], [[2]], [[0]], [[2]]⟩ = (true, ⟨[0], [[2]], [[2]], [[0]]⟩) :=
  ⟨(requestResources_grant_iff ⟨[2], [[2]], [[0]], [[2]]⟩ 1 1 0 [2]
      (by decide) (by decide) (by decide)).1, by decide⟩

/-- C4. Claim violation: when some amount exceeds the need of the process,
`requestResources` returns false and leaves the ledger as it was, whatever
`Available` holds. -/
theorem requestResources_claim_violation (L : Ledger) (p : Nat) (amounts : List Int) (j : Nat)
    (hj : j < amounts.length) (hviol : amounts.getD j 0 > getCell L.Need p j) :
    requestResources p amounts L = (false, L) := by
  have hc : requestCheck p amounts L = false := by
    cases h : requestCheck p amounts L
    · rfl
    · have := ((requestCheck_iff p amounts L).mp h j hj).1
      omega
  unfold requestResources
  simp [hc]

/-- C4, the scenario of the specification: after the single process with `Max = [2]` has
been granted `request([2])`, its `request([1])` is denied and changes nothing. -/
theorem requestResources_claim_violation_witness :
    requestResources 0 [2] ⟨[2], [[2]], [[0]], [[2]]⟩ = (true, ⟨[0], [[2]], [[2]], [[0]]⟩) ∧
    requestResources 0 [1] ⟨[0], [[2]], [[2]], [[0]]⟩ = (false, ⟨[0], [[2]], [[2]], [[0]]⟩) :=
  ⟨by decide,
    requestResources_claim_violation ⟨[0], [[2]], [[2]], [[0]]⟩ 0 [1] 0 (by decide) (by decide)⟩

/-- C5. Exact rollback: a request that passes the claim check and the availability
check but whose tentatively allocated state is not safe is denied, and the ledger
after the call equals the ledger before it. -/
theorem requestResources_unsafe_rollback (L : Ledger) (p : Nat) (amounts : List Int)
    (hcheck : ∀ j, j < amounts.length →
      amounts.getD j 0 ≤ getCell L.Need p j ∧ amounts.getD j 0 ≤ L.Available.getD j 0)
    (hnotSafe : isSafe (allocate p amounts L) = false) :
    requestResources p amounts L = (false, L) := by
  have hc : requestCheck p amounts L = true := (requestCheck_iff p amounts L).mpr hcheck
  unfold requestResources
  simp [hc, hnotSafe, rollback_allocate]

/-- C5 on two processes that each claim both instances of one resource type: the
second unit would leave no process able to finish, so it is denied and undone. -/
theorem requestResources_unsafe_rollback_witness :
    isSafe (allocate 1 [1] ⟨[1], [[2], [2]], [[1], [0]], [[1], [2]]⟩) = false ∧
    requestResources 1 [1] ⟨[1], [[2], [2]], [[1], [0]], [[1], [2]]⟩
      = (false, ⟨[1], [[2], [2]], [[1], [0]], [[1], [2]]⟩) :=
  ⟨by decide,
    requestResources_unsafe_rollback ⟨[1], [[2], [2]], [[1], [0]], [[1], [2]]⟩ 1 [1]
      (by decide) (by decide)⟩

/-! ## `releaseResources` -/

theorem getCell_set_row (M : List (List Int)) (p j : Nat) (W : List Int) (hp : p < M.length) :
    getCell (M.set p W) p j = W.getD j 0 := by
  unfold getCell
  rw [getD_set_row M p W hp]

theorem mem_set_row (M : List (List Int)) (p n : Nat) (W : List Int)
    (h : ∀ row ∈ M, row.length = n) (hW : W.length = n) :
    ∀ row ∈ M.set p W, row.length = n := by
  intro row hrow
  rcases List.mem_or_eq_of_mem_set hrow with h1 | h1
  · exact h row h1
  · rw [h1]; exact hW

/-- C7. Effect of `releaseResources` on a rectangular ledger, for an in-range process
and an amounts vector with one entry per resource type that is not part of the
ledger: every `Available[j]` grows by `amounts[j]`, every `Allocation[processId][j]`
shrinks by it, every `Need[processId][j]` grows by it, `Max` and the rows of all
other processes are as before, and the ledger keeps its shape.  The function has
no failing path: it is total. -/
theorem releaseResources_effect (L : Ledger) (nP nR p : Nat) (amounts : List Int)
    (hL : L.Rect nP nR) (hp : p < nP) (hlen : amounts.length = nR) :
    (releaseResources p amounts L).Rect nP nR ∧
    (∀ j, j < nR →
      (releaseResources p amounts L).Available.getD j 0
        = L.Available.getD j 0 + amounts.getD j 0 ∧
      getCell (releaseResources p amounts L).Allocation p j
        = getCell L.Allocation p j - amounts.getD j 0 ∧
      getCell (releaseResources p amounts L).Need p j
        = getCell L.Need p j + amounts.getD j 0) ∧
    (releaseResources p amounts L).Max = L.Max ∧
    (∀ q, q ≠ p →
      (releaseResources p amounts L).Allocation.getD q [] = L.Allocation.getD q [] ∧
      (releaseResources p amounts L).Need.getD q [] = L.Need.getD q []) := by
  obtain ⟨hA, hMx, hAl, hNd, hMxr, hAlr, hNdr⟩ := hL
  have hrA := row_length_of_mem L.Allocation nR p hAlr (by omega)
  have hrN := row_length_of_mem L.Need nR p hNdr (by omega)
  rw [releaseResources_eq]
  refine ⟨⟨?_, hMx, ?_, ?_, hMxr, ?_, ?_⟩, ?_, rfl, ?_⟩
  · rw [length_addVec]; exact hA
  · rw [List.length_set]; exact hAl
  · rw [List.length_set]; exact hNd
  · exact mem_set_row _ _ _ _ hAlr (by rw [length_subVec]; exact hrA)
  · exact mem_set_row _ _ _ _ hNdr (by rw [length_addVec]; exact hrN)
  · intro j _
    refine ⟨getD_addVec _ _ _ (by omega), ?_, ?_⟩
    · rw [getCell_set_row _ _ _ _ (by omega), getD_subVec _ _ _ (by omega)]; rfl
    · rw [getCell_set_row _ _ _ _ (by omega), getD_addVec _ _ _ (by omega)]; rfl
  · intro q hq
    exact ⟨getD_set_row_ne _ _ _ _ (Ne.symm hq), getD_set_row_ne _ _ _ _ (Ne.symm hq)⟩

/-- C7 on a ledger with two processes and two resource types: process 0 gives back
`[1, 2]`. -/
theorem releaseResources_effect_witness :
    releaseResources 0 [1, 2] ⟨[0, 1], [[3, 3], [1, 1]], [[2, 2], [1, 0]], [[1, 1], [0, 1]]⟩
      = ⟨[1, 3], [[3, 3], [1, 1]], [[1, 0], [1, 0]], [[2, 3], [0, 1]]⟩ ∧
    (releaseResources 0 [1, 2]
      ⟨[0, 1], [[3, 3], [1, 1]], [[2, 2], [1, 0]], [[1, 1], [0, 1]]⟩).Rect 2 2 :=
  ⟨by decide,
    (releaseResources_effect ⟨[0, 1], [[3, 3], [1, 1]], [[2, 2], [1, 0]], [[1, 1], [0, 1]]⟩
      2 2 0 [1, 2] (by decide) (by decide) (by decide)).1⟩

/-! ## Conservation -/

theorem colSum_set (M : List (List Int)) (p j : Nat) (W : List Int) (hp : p < M.length) :
    colSum (M.set p W) j = colSum M j - (M.getD p []).getD j 0 + W.getD j 0 := by
  induction M generalizing p with
  | nil => simp at hp
  | cons row M ih =>
    cases p with
    | zero =>
      simp only [colSum, List.set_cons_zero, List.map_cons, List.sum_cons, List.getD_cons_zero]
      omega
    | succ p =>
      have hp1 : p < M.length := by simpa using hp
      have := ih p hp1
      simp only [colSum, List.set_cons_succ, List.map_cons, List.sum_cons,
        List.getD_cons_succ] at this ⊢
      omega

/-- Moving units between `Available` and row `p` of `Allocation` keeps the shape
and the column totals. -/
theorem conserved_move (resources : List ResourceType) (nP : Nat) (L L1 : Ledger) (p : Nat)
    (W : List Int) (hS : L.AllocShape nP resources.length) (hC : Conserved resources L)
    (hp : p < nP) (hAl : L1.Allocation = L.Allocation.set p W)
    (hlenA : L1.Available.length = L.Available.length)
    (hlenW : W.length = (L.Allocation.getD p []).length)
    (hmove : ∀ j, L1.Available.getD j 0 + W.getD j 0
      = L.Available.getD j 0 + (L.Allocation.getD p []).getD j 0) :
    L1.AllocShape nP resources.length ∧ Conserved resources L1 := by
  obtain ⟨hA, hN, hrows⟩ := hS
  have hrow := row_length_of_mem L.Allocation resources.length p hrows (by omega)
  refine ⟨⟨by omega, ?_, ?_⟩, ?_⟩
  · rw [hAl, List.length_set]; exact hN
  · rw [hAl]; exact mem_set_row _ _ _ _ hrows (by omega)
  · intro j hj
    rw [hAl, colSum_set _ _ _ _ (by omega), ← hC j hj]
    have := hmove j
    omega

theorem getCell_set_row_gen (M : List (List Int)) (p j : Nat) (W : List Int) :
    getCell (M.set p W) p j = if p < M.length then W.getD j 0 else 0 := by
  by_cases hp : p < M.length
  · rw [if_pos hp, getCell_set_row M p j W hp]
  · have hle : M.length ≤ p := Nat.le_of_not_lt hp
    rw [if_neg hp, List.set_eq_of_length_le hle]
    unfold getCell
    rw [getD_row_of_length_le M p hle]
    rfl

/-- The loop of the `end` branch in closed form: `Available` gains the row of the
process, the row becomes zero wherever the loop has passed, `Need` is not
changed because `release[i]` is read after the row entry was zeroed. -/
theorem releaseLoop_alias_eq (p : Nat) (L : Ledger) (m : Nat) :
    releaseLoop m (fun L1 i => getCell L1.Allocation p i) p L =
      { Available := vecLoop m (fun k a => a + (L.Allocation.getD p []).getD k 0) L.Available
        Max := L.Max
        Allocation := L.Allocation.set p (vecLoop m (fun _ _ => 0) (L.Allocation.getD p []))
        Need := L.Need } := by
  induction m with
  | zero =>
    unfold releaseLoop
    simp only [List.range_zero, List.foldl_nil]
    have e : vecLoop 0 (fun _ _ => (0 : Int)) (L.Allocation.getD p []) = L.Allocation.getD p [] :=
      rfl
    rw [e, set_getD_self]
    rfl
  | succ m ih =>
    unfold releaseLoop at ih ⊢
    rw [List.range_succ, List.foldl_append, ih]
    simp only [List.foldl_cons, List.foldl_nil, releaseStep]
    have hread : getCell (L.Allocation.set p
        (vecLoop m (fun _ _ => 0) (L.Allocation.getD p []))) p m
        = (L.Allocation.getD p []).getD m 0 := by
      rw [getCell_set_row_gen]
      by_cases hp : p < L.Allocation.length
      · rw [if_pos hp, getD_vecLoop, if_neg (by omega)]
      · rw [if_neg hp, getD_row_of_length_le _ _ (Nat.le_of_not_lt hp)]; rfl
    have hAl : setCell (L.Allocation.set p (vecLoop m (fun _ _ => 0) (L.Allocation.getD p [])))
        p m 0 = L.Allocation.set p (vecLoop (m + 1) (fun _ _ => 0) (L.Allocation.getD p [])) := by
      rw [setCell_set, vecLoop_succ]
      by_cases hp : p < L.Allocation.length
      · rw [getD_set_row _ _ _ hp]
      · have hle := Nat.le_of_not_lt hp
        rw [List.set_eq_of_length_le hle, List.set_eq_of_length_le hle]
    have hzero : getCell (L.Allocation.set p
        (vecLoop (m + 1) (fun _ _ => 0) (L.Allocation.getD p []))) p m = 0 := by
      rw [getCell_set_row_gen]
      by_cases hp : p < L.Allocation.length
      · rw [if_pos hp, getD_vecLoop]
        by_cases hm : m < (L.Allocation.getD p []).length
        · rw [if_pos ⟨by omega, hm⟩]
        · rw [if_neg (by omega), getD_of_length_le _ _ (Nat.le_of_not_lt hm)]
      · rw [if_neg hp]
    rw [hread, Int.sub_self, hAl, hzero, Int.add_zero, setCell_getCell_self,
      vecLoop_succ m (fun k a => a + (L.Allocation.getD p []).getD k 0) L.Available]

theorem releaseAll_eq (p : Nat) (L : Ledger) :
    releaseAll p L =
      { Available := addVec (L.Allocation.getD p []) L.Available
        Max := L.Max
        Allocation := L.Allocation.set p
          (vecLoop (L.Allocation.getD p []).length (fun _ _ => 0) (L.Allocation.getD p []))
        Need := L.Need } := by
  unfold releaseAll
  rw [releaseLoop_alias_eq]
  rfl

theorem allocate_conserved (resources : List ResourceType) (nP : Nat) (L : Ledger) (p : Nat)
    (r : List Int) (hS : L.AllocShape nP resources.length) (hC : Conserved resources L)
    (hp : p < nP) (hr : r.length ≤ resources.length) :
    (allocate p r L).AllocShape nP resources.length ∧ Conserved resources (allocate p r L) := by
  have hrow := row_length_of_mem L.Allocation resources.length p hS.2.2 (by rw [hS.2.1]; exact hp)
  have hA := hS.1
  apply conserved_move resources nP L (allocate p r L) p (addVec r (L.Allocation.getD p [])) hS hC hp
  · rw [allocate_eq]
  · rw [allocate_eq]; exact length_subVec _ _
  · exact length_addVec _ _
  · intro j
    rw [allocate_eq]
    show (subVec r L.Available).getD j 0 + _ = _
    rw [getD_subVec r _ j (by omega), getD_addVec r _ j (by omega)]
    omega

theorem releaseResources_conserved (resources : List ResourceType) (nP : Nat) (L : Ledger)
    (p : Nat) (r : List Int) (hS : L.AllocShape nP resources.length) (hC : Conserved resources L)
    (hp : p < nP) (hr : r.length ≤ resources.length) :
    (releaseResources p r L).AllocShape nP resources.length ∧
      Conserved resources (releaseResources p r L) := by
  have hrow := row_length_of_mem L.Allocation resources.length p hS.2.2 (by rw [hS.2.1]; exact hp)
  have hA := hS.1
  apply conserved_move resources nP L (releaseResources p r L) p
    (subVec r (L.Allocation.getD p [])) hS hC hp
  · rw [releaseResources_eq]
  · rw [releaseResources_eq]; exact length_addVec _ _
  · exact length_subVec _ _
  · intro j
    rw [releaseResources_eq]
    show (addVec r L.Available).getD j 0 + _ = _
    rw [getD_subVec r _ j (by omega), getD_addVec r _ j (by omega)]
    omega

theorem releaseAll_conserved (resources : List ResourceType) (nP : Nat) (L : Ledger)
    (p : Nat) (hS : L.AllocShape nP resources.length) (hC : Conserved resources L)
    (hp : p < nP) :
    (releaseAll p L).AllocShape nP resources.length ∧ Conserved resources (releaseAll p L) := by
  have hrow := row_length_of_mem L.Allocation resources.length p hS.2.2 (by rw [hS.2.1]; exact hp)
  have hA := hS.1
  apply conserved_move resources nP L (releaseAll p L) p
    (vecLoop (L.Allocation.getD p []).length (fun _ _ => 0) (L.Allocation.getD p [])) hS hC hp
  · rw [releaseAll_eq]
  · rw [releaseAll_eq]; exact length_addVec _ _
  · exact length_vecLoop _ _ _
  · intro j
    rw [releaseAll_eq]
    show (addVec (L.Allocation.getD p []) L.Available).getD j 0 + _ = _
    rw [getD_addVec _ _ j (by omega), getD_vecLoop]
    by_cases hj : j < (L.Allocation.getD p []).length
    · rw [if_pos ⟨hj, hj⟩]; omega
    · rw [if_neg (by omega), getD_of_length_le _ j (Nat.le_of_not_lt hj)]; omega

theorem useInstance_conserved (resources : List ResourceType) (nP : Nat) (L : Ledger)
    (instructions : List String) (p i : Nat) (inst : String)
    (hS : L.AllocShape nP resources.length) (hC : Conserved resources L) (hp : p < nP) :
    (useInstance instructions p i L inst).AllocShape nP resources.length ∧
      Conserved resources (useInstance instructions p i L inst) := by
  unfold useInstance
  split
  · have hrow := row_length_of_mem L.Allocation resources.length p hS.2.2
      (by rw [hS.2.1]; exact hp)
    have hA := hS.1
    apply conserved_move resources nP L _ p
      ((L.Allocation.getD p []).set i (getCell L.Allocation p i + 1)) hS hC hp
    · rfl
    · exact List.length_set _ _ _
    · exact List.length_set _ _ _
    · intro j
      show (L.Available.set i (L.Available.getD i 0 - 1)).getD j 0 + _ = _
      rw [getD_set_int, getD_set_int]
      by_cases hij : i = j ∧ i < resources.length
      · rw [if_pos (by rw [hA]; exact hij), if_pos (by rw [hrow]; exact hij)]
        unfold getCell
        rw [hij.1]
        omega
      · rw [if_neg (by rw [hA]; exact hij), if_neg (by rw [hrow]; exact hij)]
  · exact ⟨hS, hC⟩

theorem useFrom_conserved (resources : List ResourceType) (nP : Nat)
    (instructions : List String) (p : Nat) (hp : p < nP) (rs : List ResourceType) :
    ∀ (i : Nat) (L : Ledger), L.AllocShape nP resources.length → Conserved resources L →
      (useFrom instructions p rs i L).AllocShape nP resources.length ∧
        Conserved resources (useFrom instructions p rs i L) := by
  induction rs with
  | nil => intro i L hS hC; exact ⟨hS, hC⟩
  | cons r rs ih =>
    intro i L hS hC
    have inner : ∀ (insts : List String) (L1 : Ledger), L1.AllocShape nP resources.length →
        Conserved resources L1 →
        (insts.foldl (useInstance instructions p i) L1).AllocShape nP resources.length ∧
          Conserved resources (insts.foldl (useInstance instructions p i) L1) := by
      intro insts
      induction insts with
      | nil => intro L1 h1 h2; exact ⟨h1, h2⟩
      | cons a insts ih2 =>
        intro L1 h1 h2
        have := useInstance_conserved resources nP L1 instructions p i a h1 h2 hp
        exact ih2 _ this.1 this.2
    have h := inner r.instances L hS hC
    exact ih (i + 1) _ h.1 h.2

/-- Every step keeps the shape of `Available` and `Allocation` and conservation. -/
theorem step_conserved (resources : List ResourceType) (nP : Nat) (L : Ledger) (s : LedgerStep)
    (hS : L.AllocShape nP resources.length) (hC : Conserved resources L)
    (hs : s.InRange nP resources.length) :
    (s.run resources L).AllocShape nP resources.length ∧
      Conserved resources (s.run resources L) := by
  cases s with
  | request p amounts =>
    show ((requestResources p amounts L).2).AllocShape nP resources.length ∧
      Conserved resources (requestResources p amounts L).2
    cases h : (requestResources p amounts L).1
    · rw [requestResources_of_denied p amounts L h]; exact ⟨hS, hC⟩
    · rw [requestResources_snd_of_granted p amounts L h]
      exact allocate_conserved resources nP L p amounts hS hC hs.1 hs.2
  | release p amounts => exact releaseResources_conserved resources nP L p amounts hS hC hs.1 hs.2
  | useResources p instructions =>
    exact useFrom_conserved resources nP instructions p hs resources 0 L hS hC
  | finish p => exact releaseAll_conserved resources nP L p hS hC hs

theorem runSteps_conserved (resources : List ResourceType) (nP : Nat) (steps : List LedgerStep) :
    ∀ (L : Ledger), L.AllocShape nP resources.length → Conserved resources L →
      (∀ s ∈ steps, s.InRange nP resources.length) →
      (runSteps resources steps L).AllocShape nP resources.length ∧
        Conserved resources (runSteps resources steps L) := by
  induction steps with
  | nil => intro L hS hC _; exact ⟨hS, hC⟩
  | cons s steps ih =>
    intro L hS hC hs
    have h := step_conserved resources nP L s hS hC (hs s (List.mem_cons_self _ _))
    exact ih _ h.1 h.2 (fun t ht => hs t (List.mem_cons_of_mem _ ht))

/-! ## The initial ledger -/

theorem initializeDataStructures_eq (resources : List ResourceType) (processes : List Process)
    (L0 : Ledger) (h : initializeDataStructures resources processes = some L0) :
    ∃ Mx, scanProcesses processes
        (List.replicate processes.length (List.replicate resources.length 0)) = some Mx ∧
      L0 =
        { Available := resources.map (fun r => (r.instances.length : Int))
          Max := Mx
          Allocation := List.replicate processes.length (List.replicate resources.length 0)
          Need := (List.range processes.length).map (fun i =>
            (List.range resources.length).map (fun j =>
              getCell Mx i j
                - getCell (List.replicate processes.length (List.replicate resources.length 0))
                    i j)) } := by
  unfold initializeDataStructures at h
  cases hM : scanProcesses processes
      (List.replicate processes.length (List.replicate resources.length 0)) with
  | none => simp [hM] at h
  | some Mx =>
    refine ⟨Mx, rfl, ?_⟩
    simp only [hM, Option.some.injEq] at h
    exact h.symm

theorem getD_replicate_zero (n j : Nat) : (List.replicate n (0 : Int)).getD j 0 = 0 := by
  rw [List.getD_eq_getElem?_getD, List.getElem?_replicate]
  split <;> rfl

theorem getCell_replicate_zero (nP nR i j : Nat) :
    getCell (List.replicate nP (List.replicate nR (0 : Int))) i j = 0 := by
  unfold getCell
  rw [List.getD_eq_getElem?_getD (List.replicate nP (List.replicate nR (0 : Int))),
    List.getElem?_replicate]
  split
  · exact getD_replicate_zero nR j
  · rfl

theorem colSum_replicate_zero (nP nR j : Nat) :
    colSum (List.replicate nP (List.replicate nR (0 : Int))) j = 0 := by
  induction nP with
  | zero => rfl
  | succ nP ih =>
    unfold colSum at ih ⊢
    rw [List.replicate_succ, List.map_cons, List.sum_cons, ih, getD_replicate_zero]
    rfl

theorem initial_conserved (resources : List ResourceType) (processes : List Process)
    (L0 : Ledger) (h : initializeDataStructures resources processes = some L0) :
    L0.AllocShape processes.length resources.length ∧ Conserved resources L0 := by
  obtain ⟨Mx, _, rfl⟩ := initializeDataStructures_eq resources processes L0 h
  refine ⟨⟨?_, ?_, ?_⟩, ?_⟩
  · simp
  · simp
  · intro row hrow
    rw [List.eq_of_mem_replicate hrow]
    simp
  · intro j _
    show _ + colSum (List.replicate processes.length (List.replicate resources.length 0)) j = _
    rw [colSum_replicate_zero, Int.add_zero]
    rfl

/-- C1. Conservation: from the ledger that `initializeDataStructures` produces, after
every finite sequence of steps (calls of `requestResources` whether granted or
denied, calls of `releaseResources`, `use_resources` steps and `end` steps) whose
process indices are in range and whose amount vectors are no longer than the
number of resource types, `Available[j]` plus the sum over all processes of
`Allocation[i][j]` is the number of instances of resource type `j`, for every `j`. -/
theorem conservation (resources : List ResourceType) (processes : List Process)
    (L0 : Ledger) (steps : List LedgerStep)
    (hinit : initializeDataStructures resources processes = some L0)
    (hsteps : ∀ s ∈ steps, s.InRange processes.length resources.length) :
    ∀ j, j < resources.length →
      (runSteps resources steps L0).Available.getD j 0
        + colSum (runSteps resources steps L0).Allocation j
        = totalInstances resources j := by
  have h0 := initial_conserved resources processes L0 hinit
  exact (runSteps_conserved resources processes.length steps L0 h0.1 h0.2 hsteps).2

/-- C1 on two resource types and two processes: a granted request, a `use_resources`
step, a release of more than is held, a denied request and an `end` step; the
totals of both resource types are as at the start. -/
theorem conservation_witness :
    (runSteps [⟨"1", ["a", "b"]⟩, ⟨"2", ["c"]⟩]
        [.request 0 [1, 1], .useResources 1 ["use_resources", "b"], .release 1 [2],
          .request 1 [5, 0], .finish 0]
        ⟨[2, 1], [[1, 1], [2, 0]], [[0, 0], [0, 0]], [[1, 1], [2, 0]]⟩).Available.getD 0 0
      + colSum (runSteps [⟨"1", ["a", "b"]⟩, ⟨"2", ["c"]⟩]
        [.request 0 [1, 1], .useResources 1 ["use_resources", "b"], .release 1 [2],
          .request 1 [5, 0], .finish 0]
        ⟨[2, 1], [[1, 1], [2, 0]], [[0, 0], [0, 0]], [[1, 1], [2, 0]]⟩).Allocation 0
      = totalInstances [⟨"1", ["a", "b"]⟩, ⟨"2", ["c"]⟩] 0 ∧
    runSteps [⟨"1", ["a", "b"]⟩, ⟨"2", ["c"]⟩]
        [.request 0 [1, 1], .useResources 1 ["use_resources", "b"], .release 1 [2],
          .request 1 [5, 0], .finish 0]
        ⟨[2, 1], [[1, 1], [2, 0]], [[0, 0], [0, 0]], [[1, 1], [2, 0]]⟩
      = ⟨[3, 1], [[1, 1], [2, 0]], [[0, 0], [-1, 0]], [[0, 0], [3, 0]]⟩ :=
  ⟨conservation [⟨"1", ["a", "b"]⟩, ⟨"2", ["c"]⟩]
    [⟨1, 0, 0, ["request(1,1)", "end"]⟩, ⟨2, 0, 0, ["request(2,0)", "use_resources", "b"]⟩]
    ⟨[2, 1], [[1, 1], [2, 0]], [[0, 0], [0, 0]], [[1, 1], [2, 0]]⟩
    [.request 0 [1, 1], .useResources 1 ["use_resources", "b"], .release 1 [2],
      .request 1 [5, 0], .finish 0]
    (by decide) (by decide) 0 (by decide), by decide⟩

/-! ## Non-negativity -/

theorem getCell_set (M : List (List Int)) (p i j : Nat) (W : List Int) :
    getCell (M.set p W) i j = if i = p ∧ p < M.length then W.getD j 0 else getCell M i j := by
  by_cases hip : i = p
  · subst hip
    rw [getCell_set_row_gen]
    by_cases hp : i < M.length
    · rw [if_pos hp, if_pos ⟨rfl, hp⟩]
    · rw [if_neg hp, if_neg (fun h => hp h.2)]
      unfold getCell
      rw [getD_row_of_length_le M i (Nat.le_of_not_lt hp)]
      rfl
  · rw [if_neg (fun h => hip h.1)]
    unfold getCell
    rw [getD_set_row_ne M p i W (Ne.symm hip)]

theorem getD_nonneg_of_mem (r : List Int) (h : ∀ x ∈ r, (0 : Int) ≤ x) (j : Nat) :
    0 ≤ r.getD j 0 := by
  by_cases hj : j < r.length
  · rw [List.getD_eq_getElem r 0 hj]
    exact h _ (List.getElem_mem hj)
  · rw [getD_of_length_le r j (Nat.le_of_not_lt hj)]

/-- Rewriting row `p` of `Allocation` with non-negative entries, and `Available`
with non-negative entries, keeps the ledger non-negative. -/
theorem nonNegative_move (L L1 : Ledger) (p : Nat) (W : List Int) (hN : NonNegative L)
    (hAl : L1.Allocation = L.Allocation.set p W) (hW : ∀ j, 0 ≤ W.getD j 0)
    (hA : ∀ j, 0 ≤ L1.Available.getD j 0) : NonNegative L1 := by
  refine ⟨fun i j => ?_, hA⟩
  rw [hAl, getCell_set]
  split
  · exact hW j
  · exact hN.1 i j

theorem allocate_nonNegative (nP nR : Nat) (L : Ledger) (p : Nat) (r : List Int)
    (hS : L.AllocShape nP nR) (hN : NonNegative L) (hp : p < nP) (hr : r.length ≤ nR)
    (hpos : ∀ x ∈ r, (0 : Int) ≤ x) (hcheck : requestCheck p r L = true) :
    NonNegative (allocate p r L) := by
  have hrow := row_length_of_mem L.Allocation nR p hS.2.2 (by rw [hS.2.1]; exact hp)
  have hA := hS.1
  apply nonNegative_move L (allocate p r L) p (addVec r (L.Allocation.getD p [])) hN
  · rw [allocate_eq]
  · intro j
    rw [getD_addVec r _ j (by omega)]
    have h1 := hN.1 p j
    have h2 := getD_nonneg_of_mem r hpos j
    unfold getCell at h1
    omega
  · intro j
    rw [allocate_eq]
    show 0 ≤ (subVec r L.Available).getD j 0
    rw [getD_subVec r _ j (by omega)]
    by_cases hj : j < r.length
    · have := ((requestCheck_iff p r L).mp hcheck j hj).2
      omega
    · rw [getD_of_length_le r j (Nat.le_of_not_lt hj)]
      have := hN.2 j
      omega

theorem releaseResources_nonNegative (nP nR : Nat) (L : Ledger) (p : Nat) (r : List Int)
    (hS : L.AllocShape nP nR) (hN : NonNegative L) (hp : p < nP) (hr : r.length ≤ nR)
    (hpos : ∀ x ∈ r, (0 : Int) ≤ x)
    (hheld : ∀ j, j < r.length → r.getD j 0 ≤ getCell L.Allocation p j) :
    NonNegative (releaseResources p r L) := by
  have hrow := row_length_of_mem L.Allocation nR p hS.2.2 (by rw [hS.2.1]; exact hp)
  have hA := hS.1
  apply nonNegative_move L (releaseResources p r L) p (subVec r (L.Allocation.getD p [])) hN
  · rw [releaseResources_eq]
  · intro j
    rw [getD_subVec r _ j (by omega)]
    by_cases hj : j < r.length
    · have := hheld j hj
      unfold getCell at this
      omega
    · rw [getD_of_length_le r j (Nat.le_of_not_lt hj)]
      have := hN.1 p j
      unfold getCell at this
      omega
  · intro j
    rw [releaseResources_eq]
    show 0 ≤ (addVec r L.Available).getD j 0
    rw [getD_addVec r _ j (by omega)]
    have h1 := hN.2 j
    have h2 := getD_nonneg_of_mem r hpos j
    omega

theorem releaseAll_nonNegative (nP nR : Nat) (L : Ledger) (p : Nat)
    (hS : L.AllocShape nP nR) (hN : NonNegative L) (hp : p < nP) :
    NonNegative (releaseAll p L) := by
  have hrow := row_length_of_mem L.Allocation nR p hS.2.2 (by rw [hS.2.1]; exact hp)
  have hA := hS.1
  apply nonNegative_move L (releaseAll p L) p
    (vecLoop (L.Allocation.getD p []).length (fun _ _ => 0) (L.Allocation.getD p [])) hN
  · rw [releaseAll_eq]
  · intro j
    rw [getD_vecLoop]
    split
    · exact Int.le_refl 0
    · have := hN.1 p j
      unfold getCell at this
      exact this
  · intro j
    rw [releaseAll_eq]
    show 0 ≤ (addVec (L.Allocation.getD p []) L.Available).getD j 0
    rw [getD_addVec _ _ j (by omega)]
    have h1 := hN.2 j
    have h2 := hN.1 p j
    unfold getCell at h2
    omega

theorem useInstance_nonNegative (L : Ledger) (instructions : List String) (p i : Nat)
    (inst : String) (hN : NonNegative L) : NonNegative (useInstance instructions p i L inst) := by
  unfold useInstance
  split
  · rename_i hcond
    have hpos : 0 < L.Available.getD i 0 := by
      simp only [Bool.and_eq_true, decide_eq_true_eq] at hcond
      exact hcond.1
    apply nonNegative_move L _ p ((L.Allocation.getD p []).set i (getCell L.Allocation p i + 1)) hN
    · rfl
    · intro j
      rw [getD_set_int]
      have h1 := hN.1 p j
      have h2 := hN.1 p i
      unfold getCell at h1
      split
      · omega
      · exact h1
    · intro j
      show 0 ≤ (L.Available.set i (L.Available.getD i 0 - 1)).getD j 0
      rw [getD_set_int]
      have h1 := hN.2 j
      split
      · omega
      · exact h1
  · exact hN

theorem useFrom_nonNegative (instructions : List String) (p : Nat) (rs : List ResourceType) :
    ∀ (i : Nat) (L : Ledger), NonNegative L → NonNegative (useFrom instructions p rs i L) := by
  induction rs with
  | nil => intro i L hN; exact hN
  | cons r rs ih =>
    intro i L hN
    have inner : ∀ (insts : List String) (L1 : Ledger), NonNegative L1 →
        NonNegative (insts.foldl (useInstance instructions p i) L1) := by
      intro insts
      induction insts with
      | nil => intro L1 h1; exact h1
      | cons a insts ih2 =>
        intro L1 h1
        exact ih2 _ (useInstance_nonNegative L1 instructions p i a h1)
    exact ih (i + 1) _ (inner r.instances L hN)

theorem step_nonNegative (resources : List ResourceType) (nP : Nat) (L : Ledger)
    (s : LedgerStep) (hS : L.AllocShape nP resources.length) (hN : NonNegative L)
    (hs : s.InRange nP resources.length) (hpos : s.NonNeg) (hheld : s.Held L) :
    NonNegative (s.run resources L) := by
  cases s with
  | request p amounts =>
    show NonNegative (requestResources p amounts L).2
    cases h : (requestResources p amounts L).1
    · rw [requestResources_of_denied p amounts L h]; exact hN
    · rw [requestResources_snd_of_granted p amounts L h]
      rw [requestResources_fst, Bool.and_eq_true] at h
      exact allocate_nonNegative nP resources.length L p amounts hS hN hs.1 hs.2 hpos h.1
  | release p amounts =>
    exact releaseResources_nonNegative nP resources.length L p amounts hS hN hs.1 hs.2 hpos hheld
  | useResources p instructions => exact useFrom_nonNegative instructions p resources 0 L hN
  | finish p => exact releaseAll_nonNegative nP resources.length L p hS hN hs

theorem runSteps_nonNegative (resources : List ResourceType) (nP : Nat)
    (steps : List LedgerStep) :
    ∀ (L : Ledger), L.AllocShape nP resources.length → Conserved resources L → NonNegative L →
      StepsHeld resources nP steps L → NonNegative (runSteps resources steps L) := by
  induction steps with
  | nil => intro L _ _ hN _; exact hN
  | cons s steps ih =>
    intro L hS hC hN hs
    obtain ⟨h1, h2, h3, h4⟩ := hs
    have hc := step_conserved resources nP L s hS hC h1
    exact ih _ hc.1 hc.2 (step_nonNegative resources nP L s hS hN h1 h2 h3) h4

theorem initial_nonNegative (resources : List ResourceType) (processes : List Process)
    (L0 : Ledger) (h : initializeDataStructures resources processes = some L0) :
    NonNegative L0 := by
  obtain ⟨Mx, _, rfl⟩ := initializeDataStructures_eq resources processes L0 h
  refine ⟨fun i j => ?_, fun j => ?_⟩
  · show 0 ≤ getCell (List.replicate processes.length (List.replicate resources.length 0)) i j
    rw [getCell_replicate_zero]
  · show 0 ≤ (resources.map (fun r => (r.instances.length : Int))).getD j 0
    by_cases hj : j < resources.length
    · rw [List.getD_eq_getElem _ _ (by simpa using hj), List.getElem_map]
      exact Int.ofNat_nonneg _
    · rw [getD_of_length_le _ _ (by simpa using hj)]

/-- C8 as stated fails: from the initial ledger of one process and one resource
type that has a single instance, the in-range step `releaseResources(0, [1])`,
whose amount is non-negative, leaves `Allocation[0][0] = -1`. -/
theorem nonNegativity_counterexample :
    initializeDataStructures [⟨"1", ["a"]⟩] [⟨1, 0, 0, ["request(1)"]⟩]
      = some ⟨[1], [[1]], [[0]], [[1]]⟩ ∧
    (LedgerStep.release 0 [1]).InRange 1 1 ∧ (LedgerStep.release 0 [1]).NonNeg ∧
    getCell (runSteps [⟨"1", ["a"]⟩] [.release 0 [1]] ⟨[1], [[1]], [[0]], [[1]]⟩).Allocation 0 0
      = -1 ∧
    ¬ NonNegative (runSteps [⟨"1", ["a"]⟩] [.release 0 [1]] ⟨[1], [[1]], [[0]], [[1]]⟩) := by
  refine ⟨by decide, by decide, by decide, by decide, fun h => ?_⟩
  have h00 := h.1 0 0
  revert h00
  decide

/-- C8, amended. From the ledger that `initializeDataStructures` produces, after every
finite sequence of in-range steps with non-negative amounts in which every release
gives back no more than the process holds at that moment, `Allocation[i][j] >= 0`
for all `i`, `j` and `Available[j] >= 0` for all `j`. -/
theorem nonNegativity_of_held (resources : List ResourceType) (processes : List Process)
    (L0 : Ledger) (steps : List LedgerStep)
    (hinit : initializeDataStructures resources processes = some L0)
    (hsteps : StepsHeld resources processes.length steps L0) :
    (∀ i j, 0 ≤ getCell (runSteps resources steps L0).Allocation i j) ∧
    ∀ j, 0 ≤ (runSteps resources steps L0).Available.getD j 0 := by
  have h0 := initial_conserved resources processes L0 hinit
  exact runSteps_nonNegative resources processes.length steps L0 h0.1 h0.2
    (initial_nonNegative resources processes L0 hinit) hsteps

/-- C8 amended, on two resource types and two processes: a granted request, a
`use_resources` step, a release of what is held, a denied request and an `end`
step. -/
theorem nonNegativity_of_held_witness :
    (∀ i j, 0 ≤ getCell (runSteps [⟨"1", ["a", "b"]⟩, ⟨"2", ["c"]⟩]
        [.request 0 [1, 1], .useResources 1 ["use_resources", "b"], .release 1 [1],
          .request 1 [5, 0], .finish 0]
        ⟨[2, 1], [[1, 1], [2, 0]], [[0, 0], [0, 0]], [[1, 1], [2, 0]]⟩).Allocation i j) ∧
    ∀ j, 0 ≤ (runSteps [⟨"1", ["a", "b"]⟩, ⟨"2", ["c"]⟩]
        [.request 0 [1, 1], .useResources 1 ["use_resources", "b"], .release 1 [1],
          .request 1 [5, 0], .finish 0]
        ⟨[2, 1], [[1, 1], [2, 0]], [[0, 0], [0, 0]], [[1, 1], [2, 0]]⟩).Available.getD j 0 :=
  nonNegativity_of_held [⟨"1", ["a", "b"]⟩, ⟨"2", ["c"]⟩]
    [⟨1, 0, 0, ["request(1,1)", "end"]⟩, ⟨2, 0, 0, ["request(2,0)", "use_resources", "b"]⟩]
    ⟨[2, 1], [[1, 1], [2, 0]], [[0, 0], [0, 0]], [[1, 1], [2, 0]]⟩
    [.request 0 [1, 1], .useResources 1 ["use_resources", "b"], .release 1 [1],
      .request 1 [5, 0], .finish 0]
    (by decide) (by decide)

/-! ## The `release` branch of `executeProcess` -/

/-- C6 fails on the code. One resource type with one instance, one process with the
stream `request(1)`, `release(1)`, `print_resources_used`: the initial ledger has
`Need = Max - Allocation`, and so has the ledger after `request(1)`, but after
the second instruction `Need[0][0]` is 2 while `Max[0][0] - Allocation[0][0]` is
1, because the `release` branch adds the amounts to `Need` once inside
`releaseResources` and once more in the loop that follows the call. -/
theorem need_after_release_instruction :
    initializeDataStructures [⟨"1", ["a"]⟩]
        [⟨1, 0, 0, ["request(1)", "release(1)", "print_resources_used"]⟩]
      = some ⟨[1], [[1]], [[0]], [[1]]⟩ ∧
    execLoop [⟨"1", ["a"]⟩] ["request(1)", "release(1)", "print_resources_used"] 0
        ["request(1)"] ⟨[1], [[1]], [[0]], [[1]]⟩
      = some ⟨[0], [[1]], [[1]], [[0]]⟩ ∧
    execLoop [⟨"1", ["a"]⟩] ["request(1)", "release(1)", "print_resources_used"] 0
        ["request(1)", "release(1)"] ⟨[1], [[1]], [[0]], [[1]]⟩
      = some ⟨[1], [[1]], [[0]], [[2]]⟩ ∧
    getCell [[2]] 0 0 ≠ getCell [[1]] 0 0 - getCell [[0]] 0 0 := by
  decide

/-! ## How `initializeDataStructures` derives `Max` -/

theorem getD_setCell_row (M : List (List Int)) (p k : Nat) (v : Int) :
    (setCell M p k v).getD p [] = (M.getD p []).set k v := by
  unfold setCell
  by_cases hp : p < M.length
  · rw [getD_set_row M p _ hp]
  · have hle := Nat.le_of_not_lt hp
    rw [List.set_eq_of_length_le hle, getD_row_of_length_le M p hle]
    rfl

theorem getD_setCell_row_ne (M : List (List Int)) (p q k : Nat) (v : Int) (hq : q ≠ p) :
    (setCell M p k v).getD q [] = M.getD q [] := by
  unfold setCell
  exact getD_set_row_ne M p q _ (Ne.symm hq)

theorem length_setCell (M : List (List Int)) (p k : Nat) (v : Int) :
    (setCell M p k v).length = M.length := by
  unfold setCell
  exact List.length_set _ _ _

/-- The effect of one `request` line on `Max`: the tokens are all numbers, the
cells of the row from column `j` on receive them, nothing else changes. -/
theorem writeMax_spec (row : Nat) (ts : List (List Char)) :
    ∀ (j : Nat) (M M1 : List (List Int)), writeMax row ts j M = some M1 →
      ∃ vs, stoiAll ts = some vs ∧ M1.length = M.length ∧
        (∀ q, q ≠ row → M1.getD q [] = M.getD q []) ∧
        (M1.getD row []).length = (M.getD row []).length ∧
        ∀ c, (M1.getD row []).getD c 0 =
          if j ≤ c ∧ c < j + vs.length ∧ c < (M.getD row []).length then vs.getD (c - j) 0
          else (M.getD row []).getD c 0 := by
  induction ts with
  | nil =>
    intro j M M1 h
    simp only [writeMax, Option.some.injEq] at h
    subst h
    refine ⟨[], rfl, rfl, fun _ _ => rfl, rfl, fun c => ?_⟩
    rw [if_neg (by simp only [List.length_nil]; omega)]
  | cons t ts ih =>
    intro j M M1 h
    unfold writeMax at h
    cases ht : stoi t with
    | none => simp [ht] at h
    | some v =>
      simp only [ht] at h
      obtain ⟨vs, hvs, hlen, hother, hrow, hcell⟩ := ih (j + 1) _ M1 h
      refine ⟨v :: vs, ?_, ?_, ?_, ?_, ?_⟩
      · simp [stoiAll, ht, hvs]
      · rw [hlen, length_setCell]
      · intro q hq
        rw [hother q hq, getD_setCell_row_ne M row q j v hq]
      · rw [hrow, getD_setCell_row, List.length_set]
      · intro c
        rw [hcell c, getD_setCell_row, List.length_set, getD_set_int]
        by_cases hc1 : j + 1 ≤ c ∧ c < j + 1 + vs.length ∧ c < (M.getD row []).length
        · rw [if_pos hc1, if_pos ⟨by omega, by simp only [List.length_cons]; omega, hc1.2.2⟩]
          have e : c - j = (c - (j + 1)) + 1 := by omega
          rw [e, List.getD_cons_succ]
        · rw [if_neg hc1]
          by_cases hcj : j = c ∧ j < (M.getD row []).length
          · rw [if_pos hcj, if_pos ⟨by omega, by simp only [List.length_cons]; omega,
              by omega⟩]
            have e : c - j = 0 := by omega
            rw [e, List.getD_cons_zero]
          · rw [if_neg hcj, if_neg (by simp only [List.length_cons]; omega)]

/-- Scanning the instructions of a process keeps the shape of `Max` and every
row but that of the process. -/
theorem scanInstructions_shape (row : Nat) (ins : List String) :
    ∀ (M M1 : List (List Int)), scanInstructions row ins M = some M1 →
      M1.length = M.length ∧ (∀ q, q ≠ row → M1.getD q [] = M.getD q []) ∧
      (M1.getD row []).length = (M.getD row []).length := by
  induction ins with
  | nil =>
    intro M M1 h
    simp only [scanInstructions, Option.some.injEq] at h
    subst h
    exact ⟨rfl, fun _ _ => rfl, rfl⟩
  | cons a ins ih =>
    intro M M1 h
    unfold scanInstructions at h
    by_cases ha : containsStr a "request" = true
    · simp only [ha, if_true] at h
      cases hw : writeMax row (getlines ',' (afterParen a)) 0 M with
      | none => simp [hw] at h
      | some M2 =>
        simp only [hw] at h
        obtain ⟨_, _, hlen, hother, hrow, _⟩ := writeMax_spec row _ 0 M M2 hw
        obtain ⟨h1, h2, h3⟩ := ih M2 M1 h
        exact ⟨by rw [h1, hlen], fun q hq => by rw [h2 q hq, hother q hq], by rw [h3, hrow]⟩
    · simp only [ha] at h
      exact ih M M1 h

theorem scanInstructions_no_request (row : Nat) (ins : List String)
    (hins : ∀ x ∈ ins, containsStr x "request" = false) (M : List (List Int)) :
    scanInstructions row ins M = some M := by
  induction ins with
  | nil => rfl
  | cons a ins ih =>
    unfold scanInstructions
    rw [hins a (List.mem_cons_self _ _)]
    simp only [Bool.false_eq_true, if_false]
    exact ih (fun x hx => hins x (List.mem_cons_of_mem _ hx))

/-- After the scan, the row of the process holds the arguments of its last
`request` line when that line has one argument per column. -/
theorem scanInstructions_last (row : Nat) (instr : String) (post : List String)
    (args : List Int) (hreq : containsStr instr "request" = true)
    (hpost : ∀ x ∈ post, containsStr x "request" = false)
    (hargs : parseArgs instr = some args) (pre : List String) :
    ∀ (M M1 : List (List Int)), args.length = (M.getD row []).length →
      scanInstructions row (pre ++ instr :: post) M = some M1 → M1.getD row [] = args := by
  induction pre with
  | nil =>
    intro M M1 hlen h
    simp only [List.nil_append] at h
    unfold scanInstructions at h
    simp only [hreq, if_true] at h
    cases hw : writeMax row (getlines ',' (afterParen instr)) 0 M with
    | none => simp [hw] at h
    | some M2 =>
      simp only [hw] at h
      rw [scanInstructions_no_request row post hpost M2] at h
      simp only [Option.some.injEq] at h
      subst h
      obtain ⟨vs, hvs, _, _, hrow, hcell⟩ := writeMax_spec row _ 0 M M2 hw
      unfold parseArgs at hargs
      rw [hvs] at hargs
      simp only [Option.some.injEq] at hargs
      subst hargs
      apply ext_getD (by rw [hrow, hlen])
      intro c hc
      rw [hcell c, if_pos ⟨Nat.zero_le c, by omega, by omega⟩]
      rfl
  | cons a pre ih =>
    intro M M1 hlen h
    simp only [List.cons_append] at h
    unfold scanInstructions at h
    by_cases ha : containsStr a "request" = true
    · simp only [ha, if_true] at h
      cases hw : writeMax row (getlines ',' (afterParen a)) 0 M with
      | none => simp [hw] at h
      | some M2 =>
        simp only [hw] at h
        obtain ⟨_, _, _, _, hrow, _⟩ := writeMax_spec row _ 0 M M2 hw
        exact ih M2 M1 (by rw [hrow]; exact hlen) h
    · simp only [ha] at h
      exact ih M M1 hlen h

/-- Scanning processes keeps the shape of `Max` and the rows of the processes
that are not scanned. -/
theorem scanProcesses_shape (ps : List Process) :
    ∀ (M M1 : List (List Int)), scanProcesses ps M = some M1 →
      M1.length = M.length ∧
      (∀ q, (∀ x ∈ ps, (x.pid - 1).toNat ≠ q) → M1.getD q [] = M.getD q []) ∧
      ∀ q, (M1.getD q []).length = (M.getD q []).length := by
  induction ps with
  | nil =>
    intro M M1 h
    simp only [scanProcesses, Option.some.injEq] at h
    subst h
    exact ⟨rfl, fun _ _ => rfl, fun _ => rfl⟩
  | cons a ps ih =>
    intro M M1 h
    unfold scanProcesses at h
    cases hs : scanInstructions (a.pid - 1).toNat a.instructions M with
    | none => rw [hs] at h; cases h
    | some M2 =>
      simp only [hs] at h
      obtain ⟨hlen, hother, hrow⟩ := scanInstructions_shape _ _ M M2 hs
      obtain ⟨h1, h2, h3⟩ := ih M2 M1 h
      refine ⟨by rw [h1, hlen], fun q hq => ?_, fun q => ?_⟩
      · rw [h2 q (fun x hx => hq x (List.mem_cons_of_mem _ hx)),
          hother q (Ne.symm (hq a (List.mem_cons_self _ _)))]
      · rw [h3 q]
        by_cases hqa : q = (a.pid - 1).toNat
        · rw [hqa, hrow]
        · rw [hother q hqa]

theorem scanProcesses_last (proc : Process) (pre : List String) (instr : String)
    (post : List String) (args : List Int) (hsplit : proc.instructions = pre ++ instr :: post)
    (hreq : containsStr instr "request" = true)
    (hpost : ∀ x ∈ post, containsStr x "request" = false)
    (hargs : parseArgs instr = some args) (ps : List Process) :
    ∀ (M M1 : List (List Int)), proc ∈ ps →
      (ps.map (fun q => (q.pid - 1).toNat)).Nodup →
      args.length = (M.getD (proc.pid - 1).toNat []).length →
      scanProcesses ps M = some M1 → M1.getD (proc.pid - 1).toNat [] = args := by
  induction ps with
  | nil => intro M M1 hmem; simp at hmem
  | cons a ps ih =>
    intro M M1 hmem hnd hlen h
    unfold scanProcesses at h
    cases hs : scanInstructions (a.pid - 1).toNat a.instructions M with
    | none => rw [hs] at h; cases h
    | some M2 =>
      simp only [hs] at h
      rw [List.map_cons, List.nodup_cons] at hnd
      rcases List.mem_cons.mp hmem with heq | hin
      · subst heq
        rw [hsplit] at hs
        have hrow := scanInstructions_last _ instr post args hreq hpost hargs pre M M2 hlen hs
        obtain ⟨_, h2, _⟩ := scanProcesses_shape ps M2 M1 h
        rw [h2 _ (fun x hx heq => hnd.1 (List.mem_map.mpr ⟨x, hx, heq⟩)), hrow]
      · obtain ⟨_, hother, hrow⟩ := scanInstructions_shape _ _ M M2 hs
        have hlen2 : args.length = (M2.getD (proc.pid - 1).toNat []).length := by
          by_cases hqa : (proc.pid - 1).toNat = (a.pid - 1).toNat
          · rw [hqa, hrow, ← hqa]; exact hlen
          · rw [hother _ hqa]; exact hlen
        exact ih M2 M1 hin hnd.2 hlen2 h

/-- The scan leaves a cell alone when no `request` line of the stream has an
argument for its column. -/
theorem scanInstructions_keep (row c : Nat) (ins : List String) :
    ∀ (M M1 : List (List Int)), scanInstructions row ins M = some M1 →
      (∀ x ∈ ins, containsStr x "request" = true →
        ∀ a, parseArgs x = some a → a.length ≤ c) →
      getCell M1 row c = getCell M row c := by
  induction ins with
  | nil =>
    intro M M1 h _
    simp only [scanInstructions, Option.some.injEq] at h
    rw [h]
  | cons a ins ih =>
    intro M M1 h hle
    unfold scanInstructions at h
    by_cases ha : containsStr a "request" = true
    · simp only [ha, if_true] at h
      cases hw : writeMax row (getlines ',' (afterParen a)) 0 M with
      | none => simp [hw] at h
      | some M2 =>
        simp only [hw] at h
        obtain ⟨vs, hvs, _, _, _, hcell⟩ := writeMax_spec row _ 0 M M2 hw
        have hlen := hle a (List.mem_cons_self _ _) ha vs hvs
        rw [ih M2 M1 h (fun x hx => hle x (List.mem_cons_of_mem _ hx))]
        unfold getCell
        rw [hcell c, if_neg (by omega)]
    · simp only [ha] at h
      exact ih M M1 h (fun x hx => hle x (List.mem_cons_of_mem _ hx))

/-- After the scan, a cell holds the argument of the last `request` line of the
stream that has an argument for its column. -/
theorem scanInstructions_cell (row c : Nat) (instr : String) (post : List String)
    (args : List Int) (hreq : containsStr instr "request" = true)
    (hargs : parseArgs instr = some args) (hc : c < args.length)
    (hpost : ∀ x ∈ post, containsStr x "request" = true →
      ∀ a, parseArgs x = some a → a.length ≤ c) (pre : List String) :
    ∀ (M M1 : List (List Int)), c < (M.getD row []).length →
      scanInstructions row (pre ++ instr :: post) M = some M1 →
      getCell M1 row c = args.getD c 0 := by
  induction pre with
  | nil =>
    intro M M1 hlt h
    simp only [List.nil_append] at h
    unfold scanInstructions at h
    simp only [hreq, if_true] at h
    cases hw : writeMax row (getlines ',' (afterParen instr)) 0 M with
    | none => simp [hw] at h
    | some M2 =>
      simp only [hw] at h
      obtain ⟨vs, hvs, _, _, _, hcell⟩ := writeMax_spec row _ 0 M M2 hw
      unfold parseArgs at hargs
      rw [hvs] at hargs
      simp only [Option.some.injEq] at hargs
      subst hargs
      rw [scanInstructions_keep row c post M2 M1 h hpost]
      unfold getCell
      rw [hcell c, if_pos ⟨Nat.zero_le c, by omega, hlt⟩]
      rfl
  | cons a pre ih =>
    intro M M1 hlt h
    simp only [List.cons_append] at h
    unfold scanInstructions at h
    by_cases ha : containsStr a "request" = true
    · simp only [ha, if_true] at h
      cases hw : writeMax row (getlines ',' (afterParen a)) 0 M with
      | none => simp [hw] at h
      | some M2 =>
        simp only [hw] at h
        obtain ⟨_, _, _, _, hrow, _⟩ := writeMax_spec row _ 0 M M2 hw
        exact ih M2 M1 (by rw [hrow]; exact hlt) h
    · simp only [ha] at h
      exact ih M M1 hlt h

/-- The row of a process after the scan of all processes is the row that the
scan of its own stream leaves, started from the row it had. -/
theorem scanProcesses_row (proc : Process) (ps : List Process) :
    ∀ (M M1 : List (List Int)), proc ∈ ps →
      (ps.map (fun q => (q.pid - 1).toNat)).Nodup →
      scanProcesses ps M = some M1 →
      ∃ Ma Mb, Ma.getD (proc.pid - 1).toNat [] = M.getD (proc.pid - 1).toNat [] ∧
        scanInstructions (proc.pid - 1).toNat proc.instructions Ma = some Mb ∧
        M1.getD (proc.pid - 1).toNat [] = Mb.getD (proc.pid - 1).toNat [] := by
  induction ps with
  | nil => intro M M1 hmem; simp at hmem
  | cons a ps ih =>
    intro M M1 hmem hnd h
    unfold scanProcesses at h
    cases hs : scanInstructions (a.pid - 1).toNat a.instructions M with
    | none => rw [hs] at h; cases h
    | some M2 =>
      simp only [hs] at h
      rw [List.map_cons, List.nodup_cons] at hnd
      rcases List.mem_cons.mp hmem with heq | hin
      · subst heq
        obtain ⟨_, h2, _⟩ := scanProcesses_shape ps M2 M1 h
        exact ⟨M, M2, rfl, hs,
          h2 _ (fun x hx heq => hnd.1 (List.mem_map.mpr ⟨x, hx, heq⟩))⟩
      · obtain ⟨_, hother, _⟩ := scanInstructions_shape _ _ M M2 hs
        obtain ⟨Ma, Mb, h1, h2, h3⟩ := ih M2 M1 hin hnd.2 h
        have hne : (proc.pid - 1).toNat ≠ (a.pid - 1).toNat := by
          intro heq
          exact hnd.1 (List.mem_map.mpr ⟨proc, hin, heq⟩)
        exact ⟨Ma, Mb, by rw [h1, hother _ hne], h2, h3⟩

theorem getD_replicate_row (nP nR q : Nat) (hq : q < nP) :
    (List.replicate nP (List.replicate nR (0 : Int))).getD q [] = List.replicate nR 0 := by
  rw [List.getD_eq_getElem?_getD, List.getElem?_replicate, if_pos hq]
  rfl

/-- The initial `Need`, computed cell by cell as `Max - Allocation` with
`Allocation` zero, is `Max` itself when `Max` is rectangular. -/
theorem need_init_eq (nP nR : Nat) (Mx : List (List Int)) (hlen : Mx.length = nP)
    (hrows : ∀ q, q < nP → (Mx.getD q []).length = nR) :
    (List.range nP).map (fun i => (List.range nR).map (fun j =>
      getCell Mx i j - getCell (List.replicate nP (List.replicate nR 0)) i j)) = Mx := by
  apply List.ext_getElem (by simp [hlen])
  intro i h1 h2
  have hi : i < nP := by simpa using h1
  rw [List.getElem_map, List.getElem_range]
  have hrow := hrows i hi
  rw [List.getD_eq_getElem Mx [] h2] at hrow
  apply List.ext_getElem (by simp [hrow])
  intro j h3 h4
  rw [List.getElem_map, List.getElem_range, getCell_replicate_zero, Int.sub_zero]
  unfold getCell
  rw [List.getD_eq_getElem Mx [] h2, List.getD_eq_getElem _ 0 h4]

/-- C9 as stated fails: with the stream `request(1)`, `request(2)` the first
`request` line has the argument list `[1]`, but `initializeDataStructures`
leaves `Max[0] = [2]`. -/
theorem max_first_request_counterexample :
    initializeDataStructures [⟨"1", ["a", "b"]⟩] [⟨1, 0, 0, ["request(1)", "request(2)"]⟩]
      = some ⟨[2], [[2]], [[0]], [[2]]⟩ ∧
    (["request(1)", "request(2)"].filter (fun x => containsStr x "request")).head?
      = some "request(1)" ∧
    parseArgs "request(1)" = some [1] ∧
    ([[2]] : List (List Int)).getD 0 [] ≠ [1] := by
  decide

/-- C9, amended. Let the process ids be distinct and between 1 and the number of
processes, and let no `request` line have more arguments than there are
resource types.  After `initializeDataStructures`, for every process and every
column `c`: `Max[pid - 1][c]` is the argument at position `c` of the LAST
`request` line of the stream that has an argument at that position (every
`request` line overwrites the columns it has arguments for), and it is 0 when
no `request` line has one.  In particular, if the last `request` line has one
argument per resource type, the row `Max[pid - 1]` is its argument list.
Initially `Allocation` is all zeros, `Need = Max` and `Available[j]` is the
number of instances of resource type `j`. -/
theorem max_row_is_last_request (resources : List ResourceType) (processes : List Process)
    (L0 : Ledger) (proc : Process)
    (hinit : initializeDataStructures resources processes = some L0)
    (hnodup : (processes.map (fun q => q.pid)).Nodup)
    (hpid : ∀ q ∈ processes, 1 ≤ q.pid ∧ q.pid ≤ processes.length)
    (hmem : proc ∈ processes)
    (hfit : ∀ q ∈ processes, ∀ x ∈ q.instructions, containsStr x "request" = true →
      ∀ a ∈ parseArgs x, a.length ≤ resources.length) :
    (L0.Max.getD (proc.pid - 1).toNat []).length = resources.length ∧
    (∀ (c : Nat) (pre : List String) (instr : String) (post : List String) (args : List Int),
      proc.instructions = pre ++ instr :: post →
      containsStr instr "request" = true →
      parseArgs instr = some args →
      c < args.length →
      (∀ x ∈ post, containsStr x "request" = true → ∀ a ∈ parseArgs x, a.length ≤ c) →
      getCell L0.Max (proc.pid - 1).toNat c = args.getD c 0) ∧
    (∀ c, c < resources.length →
      (∀ x ∈ proc.instructions, containsStr x "request" = true →
        ∀ a ∈ parseArgs x, a.length ≤ c) →
      getCell L0.Max (proc.pid - 1).toNat c = 0) ∧
    (∀ (pre : List String) (instr : String) (post : List String) (args : List Int),
      proc.instructions = pre ++ instr :: post →
      containsStr instr "request" = true →
      (∀ x ∈ post, containsStr x "request" = false) →
      parseArgs instr = some args →
      args.length = resources.length →
      L0.Max.getD (proc.pid - 1).toNat [] = args) ∧
    L0.Allocation = List.replicate processes.length (List.replicate resources.length 0) ∧
    L0.Need = L0.Max ∧
    L0.Available = resources.map (fun r => (r.instances.length : Int)) := by
  obtain ⟨Mx, hscan, rfl⟩ := initializeDataStructures_eq resources processes L0 hinit
  have hrows : (processes.map (fun q => (q.pid - 1).toNat)).Nodup := by
    have e : processes.map (fun q => (q.pid - 1).toNat)
        = (processes.map (fun q => q.pid)).map (fun z => (z - 1).toNat) := by
      rw [List.map_map]; rfl
    rw [e]
    apply List.Nodup.map_on _ hnodup
    intro x hx y hy hxy
    obtain ⟨q1, hq1, rfl⟩ := List.mem_map.mp hx
    obtain ⟨q2, hq2, rfl⟩ := List.mem_map.mp hy
    have h1 := (hpid q1 hq1).1
    have h2 := (hpid q2 hq2).1
    omega
  have hprow : (proc.pid - 1).toNat < processes.length := by
    have := hpid proc hmem
    omega
  obtain ⟨hMlen, _, hMrows⟩ := scanProcesses_shape processes _ Mx hscan
  obtain ⟨Ma, Mb, hMa, hown, hMb⟩ := scanProcesses_row proc processes _ Mx hmem hrows hscan
  have hMalen : (Ma.getD (proc.pid - 1).toNat []).length = resources.length := by
    rw [hMa, getD_replicate_row _ _ _ hprow, List.length_replicate]
  refine ⟨?_, ?_, ?_, ?_, rfl, ?_, rfl⟩
  · rw [hMrows, getD_replicate_row _ _ _ hprow, List.length_replicate]
  · intro c pre instr post args hsplit hreq hargs hc hpost
    have hle : args.length ≤ resources.length :=
      hfit proc hmem instr (by rw [hsplit]; simp) hreq args hargs
    rw [hsplit] at hown
    have := scanInstructions_cell _ c instr post args hreq hargs hc
      (fun x hx hr a ha => hpost x hx hr a ha) pre Ma Mb (by omega) hown
    unfold getCell at this ⊢
    show (Mx.getD _ []).getD c 0 = _
    rw [hMb]
    exact this
  · intro c hc hnone
    have := scanInstructions_keep _ c _ Ma Mb hown (fun x hx hr a ha => hnone x hx hr a ha)
    unfold getCell at this ⊢
    show (Mx.getD _ []).getD c 0 = _
    rw [hMb, this, hMa, getD_replicate_row _ _ _ hprow]
    exact getD_replicate_zero _ _
  · intro pre instr post args hsplit hreq hpost hargs hlen
    apply scanProcesses_last proc pre instr post args hsplit hreq hpost hargs processes _ Mx
      hmem hrows _ hscan
    rw [getD_replicate_row _ _ _ hprow, List.length_replicate, hlen]
  · apply need_init_eq processes.length resources.length Mx
    · rw [hMlen, List.length_replicate]
    · intro q hq
      rw [hMrows q, getD_replicate_row _ _ _ hq, List.length_replicate]

/-- C9 amended, on one process and two resource types with the stream
`request(1,1)`, `request(5)`, `end`: column 0 of its row of `Max` is the 5 of the
last line, column 1 is the 1 of the line before, which is the last with a
second argument. -/
theorem max_row_is_last_request_witness :
    initializeDataStructures [⟨"1", ["a", "b"]⟩, ⟨"2", ["c"]⟩]
        [⟨1, 0, 0, ["request(1,1)", "request(5)", "end"]⟩]
      = some ⟨[2, 1], [[5, 1]], [[0, 0]], [[5, 1]]⟩ ∧
    getCell [[5, 1]] ((1 : Int) - 1).toNat 0 = ([5] : List Int).getD 0 0 ∧
    getCell [[5, 1]] ((1 : Int) - 1).toNat 1 = ([1, 1] : List Int).getD 1 0 :=
  ⟨by decide,
    (max_row_is_last_request [⟨"1", ["a", "b"]⟩, ⟨"2", ["c"]⟩]
      [⟨1, 0, 0, ["request(1,1)", "request(5)", "end"]⟩]
      ⟨[2, 1], [[5, 1]], [[0, 0]], [[5, 1]]⟩
      ⟨1, 0, 0, ["request(1,1)", "request(5)", "end"]⟩
      (by decide) (by decide) (by decide) (by decide) (by decide)).2.1
      0 ["request(1,1)"] "request(5)" ["end"] [5]
      (by decide) (by decide) (by decide) (by decide) (by decide),
    (max_row_is_last_request [⟨"1", ["a", "b"]⟩, ⟨"2", ["c"]⟩]
      [⟨1, 0, 0, ["request(1,1)", "request(5)", "end"]⟩]
      ⟨[2, 1], [[5, 1]], [[0, 0]], [[5, 1]]⟩
      ⟨1, 0, 0, ["request(1,1)", "request(5)", "end"]⟩
      (by decide) (by decide) (by decide) (by decide) (by decide)).2.1
      1 [] "request(1,1)" ["request(5)", "end"] [1, 1]
      (by decide) (by decide) (by decide) (by decide) (by decide)⟩

/-! ## `runEDFScheduling` -/

theorem insertionSortByDeadline_sortsBy : SortsBy edfLess insertionSortByDeadline := by
  intro l
  refine ⟨List.perm_insertionSort edfLe l, ?_⟩
  have h := List.sorted_insertionSort edfLe l
  refine List.Pairwise.imp ?_ h
  intro a b hab
  unfold edfLess
  unfold edfLe at hab
  simp only [decide_eq_false_iff_not, not_lt]
  exact hab

theorem lookupProcess_of_mem (processes : List Process)
    (hnodup : (processes.map (fun q => q.pid)).Nodup) (q : Process) (hq : q ∈ processes) :
    lookupProcess processes q.pid = q := by
  unfold lookupProcess
  induction processes with
  | nil => simp at hq
  | cons a ps ih =>
    rw [List.map_cons, List.nodup_cons] at hnodup
    rw [List.find?_cons]
    by_cases ha : a.pid = q.pid
    · simp only [ha, decide_True]
      rcases List.mem_cons.mp hq with h | h
      · rw [h]; rfl
      · exact absurd (List.mem_map.mpr ⟨q, h, ha.symm⟩) hnodup.1
    · simp only [ha, decide_False]
      rcases List.mem_cons.mp hq with h | h
      · exact absurd (by rw [h]) ha
      · exact ih hnodup.2 h

theorem edfLoop_trace (resources : List ResourceType) (processes : List Process)
    (entries : List (Int × Int)) :
    ∀ (trace : List Int) (L : Ledger) (t : List Int) (L1 : Ledger),
      edfLoop resources processes entries trace L = some (t, L1) →
      t = trace ++ entries.map Prod.fst := by
  induction entries with
  | nil =>
    intro trace L t L1 h
    simp only [edfLoop, Option.some.injEq, Prod.mk.injEq] at h
    rw [← h.1]; simp
  | cons e entries ih =>
    intro trace L t L1 h
    obtain ⟨pid, d⟩ := e
    unfold edfLoop at h
    cases hx : executeProcess resources (lookupProcess processes pid).instructions
        (pid - 1).toNat L with
    | none => rw [hx] at h; cases h
    | some L2 =>
      rw [hx] at h
      have := ih _ _ _ _ h
      rw [this]; simp

/-- C10. EDF order.  Let `sort` be any routine with the postcondition of `std::sort`
for the comparator `a.second < b.second`, and let the process ids be distinct.
The ids in the order of `sortedProcesses` are a permutation of all process ids,
each process in that order has a deadline no later than every process after it,
and whenever `runEDFScheduling` runs to its end the ids on which it called
`executeProcess`, in order, are exactly that sequence. -/
theorem runEDFScheduling_order (sort : List (Int × Int) → List (Int × Int))
    (resources : List ResourceType) (processes : List Process)
    (hsort : SortsBy edfLess sort)
    (hnodup : (processes.map (fun q => q.pid)).Nodup) :
    ((sortedProcesses sort processes).map Prod.fst).Perm (processes.map (fun q => q.pid)) ∧
    ((sortedProcesses sort processes).map Prod.fst).Pairwise (fun x y =>
      (lookupProcess processes x).deadline ≤ (lookupProcess processes y).deadline) ∧
    ∀ (L : Ledger) (trace : List Int) (L1 : Ledger),
      runEDFScheduling sort resources processes L = some (trace, L1) →
      trace = (sortedProcesses sort processes).map Prod.fst := by
  obtain ⟨hperm, hsorted⟩ := hsort (processes.map (fun q => (q.pid, q.deadline)))
  refine ⟨?_, ?_, ?_⟩
  · have := hperm.map Prod.fst
    rw [List.map_map] at this
    exact this
  · unfold sortedProcesses
    rw [List.pairwise_map]
    have hentry : ∀ e ∈ sort (processes.map (fun q => (q.pid, q.deadline))),
        (lookupProcess processes e.1).deadline = e.2 := by
      intro e he
      obtain ⟨q, hq, rfl⟩ := List.mem_map.mp (hperm.subset he)
      show (lookupProcess processes q.pid).deadline = q.deadline
      rw [lookupProcess_of_mem processes hnodup q hq]
    refine List.Pairwise.imp_of_mem ?_ hsorted
    intro a b ha hb hab
    rw [hentry a ha, hentry b hb]
    unfold edfLess at hab
    simp only [decide_eq_false_iff_not, not_lt] at hab
    exact hab
  · intro L trace L1 h
    unfold runEDFScheduling at h
    have := edfLoop_trace resources processes _ [] L trace L1 h
    rw [this]; simp

/-- C10, the scenario of the specification: the deadlines `[5, 1, 3]` of the ids 1, 2, 3
give the execution order `[2, 3, 1]`. -/
theorem runEDFScheduling_order_witness :
    (runEDFScheduling insertionSortByDeadline [⟨"1", ["a"]⟩]
      [⟨1, 5, 0, ["request(1)", "end"]⟩, ⟨2, 1, 0, ["request(1)", "end"]⟩,
        ⟨3, 3, 0, ["request(1)", "end"]⟩]
      ⟨[1], [[1], [1], [1]], [[0], [0], [0]], [[1], [1], [1]]⟩).map Prod.fst
        = some [2, 3, 1] ∧
    (sortedProcesses insertionSortByDeadline
      [⟨1, 5, 0, ["request(1)", "end"]⟩, ⟨2, 1, 0, ["request(1)", "end"]⟩,
        ⟨3, 3, 0, ["request(1)", "end"]⟩]).map Prod.fst = [2, 3, 1] ∧
    ([2, 3, 1] : List Int).Perm [1, 2, 3] :=
  ⟨by decide, by decide,
    (by decide : (sortedProcesses insertionSortByDeadline
      [⟨1, 5, 0, ["request(1)", "end"]⟩, ⟨2, 1, 0, ["request(1)", "end"]⟩,
        ⟨3, 3, 0, ["request(1)", "end"]⟩]).map Prod.fst = [2, 3, 1]) ▸
    (runEDFScheduling_order insertionSortByDeadline [⟨"1", ["a"]⟩]
      [⟨1, 5, 0, ["request(1)", "end"]⟩, ⟨2, 1, 0, ["request(1)", "end"]⟩,
        ⟨3, 3, 0, ["request(1)", "end"]⟩]
      insertionSortByDeadline_sortsBy (by decide)).1⟩

/-! ## `isSafe` decides safety -/

theorem possible_iff (L : Ledger) (W : List Int) (i : Nat) :
    possible L W i = true ↔
      ∀ j, j < L.Available.length → getCell L.Need i j ≤ W.getD j 0 := by
  unfold possible
  rw [List.all_eq_true]
  constructor
  · intro h j hj
    have := h j (List.mem_range.mpr hj)
    simp only [Bool.not_eq_true', decide_eq_false_iff_not, not_lt] at this
    exact this
  · intro h j hj
    have := h j (List.mem_range.mp hj)
    simp only [Bool.not_eq_true', decide_eq_false_iff_not, not_lt]
    exact this

theorem addAllocation_eq (L : Ledger) (nP nR i : Nat) (W : List Int) (hL : L.Rect nP nR)
    (hi : i < nP) (hW : W.length = nR) :
    addAllocation L i W = List.zipWith (fun a b => a + b) W (L.Allocation.getD i []) := by
  obtain ⟨hA, _, hAl, _, _, hAlr, _⟩ := hL
  have hrow := row_length_of_mem L.Allocation nR i hAlr (by omega)
  rw [← addVec_eq_zipWith _ W (by omega)]
  unfold addAllocation addVec vecLoop
  rw [hrow, hA]
  rfl

theorem workAfter_append (L : Ledger) (a b : List Nat) :
    ∀ W, workAfter L (a ++ b) W = workAfter L b (workAfter L a W) := by
  induction a with
  | nil => intro W; rfl
  | cons p a ih => intro W; exact ih _

theorem safeSeq_append (L : Ledger) (a b : List Nat) :
    ∀ W, SafeSeq L (a ++ b) W ↔ SafeSeq L a W ∧ SafeSeq L b (workAfter L a W) := by
  induction a with
  | nil => intro W; simp [SafeSeq, workAfter]
  | cons p a ih =>
    intro W
    show (_ ∧ SafeSeq L (a ++ b) _) ↔ (_ ∧ SafeSeq L a _) ∧ SafeSeq L b (workAfter L a _)
    rw [ih, and_assoc]

theorem length_workAfter (L : Ledger) (nP nR : Nat) (hL : L.Rect nP nR) (order : List Nat) :
    ∀ W, W.length = nR → (∀ p ∈ order, p < nP) → (workAfter L order W).length = nR := by
  obtain ⟨_, _, hAl, _, _, hAlr, _⟩ := hL
  induction order with
  | nil => intro W hW _; exact hW
  | cons p order ih =>
    intro W hW hp
    apply ih _ _ (fun q hq => hp q (List.mem_cons_of_mem _ hq))
    have hrow := row_length_of_mem L.Allocation nR p hAlr
      (by have := hp p (List.mem_cons_self _ _); omega)
    rw [List.length_zipWith, hW, hrow, Nat.min_self]

/-- The entry `j` of `workAfter` is the entry of the start vector plus the
holdings of the processes of the order. -/
theorem getD_workAfter (L : Ledger) (nP nR : Nat) (hL : L.Rect nP nR) (j : Nat)
    (order : List Nat) :
    ∀ W, W.length = nR → (∀ p ∈ order, p < nP) →
      (workAfter L order W).getD j 0
        = W.getD j 0 + (order.map (fun i => getCell L.Allocation i j)).sum := by
  have hL2 := hL
  obtain ⟨_, _, hAl, _, _, hAlr, _⟩ := hL
  induction order with
  | nil => intro W _ _; simp [workAfter]
  | cons p order ih =>
    intro W hW hp
    have hrow := row_length_of_mem L.Allocation nR p hAlr
      (by have := hp p (List.mem_cons_self _ _); omega)
    have hz : List.zipWith (fun a b => a + b) W (L.Allocation.getD p [])
        = addVec (L.Allocation.getD p []) W := (addVec_eq_zipWith _ W (by omega)).symm
    show (workAfter L order _).getD j 0 = _
    rw [ih _ (by rw [List.length_zipWith, hW, hrow, Nat.min_self])
      (fun q hq => hp q (List.mem_cons_of_mem _ hq)), hz, getD_addVec _ _ _ (by omega),
      List.map_cons, List.sum_cons]
    unfold getCell
    omega

theorem sum_le_of_subset (f : Nat → Int) (hf : ∀ i, 0 ≤ f i) (a b : List Nat)
    (ha : a.Nodup) (hab : ∀ x ∈ a, x ∈ b) : (a.map f).sum ≤ (b.map f).sum := by
  obtain ⟨l, hl, hs⟩ := List.subperm_of_subset ha hab
  rw [← (hl.map f).sum_eq]
  apply (hs.map f).sum_le_sum
  intro x hx
  obtain ⟨i, _, rfl⟩ := List.mem_map.mp hx
  exact hf i

theorem getD_set_bool (l : List Bool) (i j : Nat) :
    (l.set i true).getD j false = if i = j ∧ i < l.length then true else l.getD j false := by
  simp only [List.getD_eq_getElem?_getD, List.getElem?_set]
  by_cases hij : i = j
  · subst hij
    by_cases hi : i < l.length
    · simp [hi]
    · simp [hi, List.getElem?_eq_none (Nat.le_of_not_lt hi)]
  · simp [hij]

/-- Marking process `m`, which is not finished and whose need fits into `Work`,
keeps the invariant with `m` appended to the processes done. -/
theorem safeInv_mark (L : Ledger) (nP nR : Nat) (hL : L.Rect nP nR) (W : List Int)
    (F : List Bool) (done : List Nat) (m : Nat) (hm : m < nP)
    (hinv : SafeInv L nP nR W F done) (hF : F.getD m false = false)
    (hposs : possible L W m = true) :
    SafeInv L nP nR (addAllocation L m W) (F.set m true) (done ++ [m]) := by
  obtain ⟨hFlen, hWlen, hnd, hmem, hseq, hW⟩ := hinv
  have hnotin : m ∉ done := by
    intro h
    have := ((hmem m).mp h).2
    rw [hF] at this
    cases this
  have hall : ∀ p ∈ done ++ [m], p < nP := by
    intro p hp
    rcases List.mem_append.mp hp with h | h
    · exact ((hmem p).mp h).1
    · rw [List.mem_singleton.mp h]; exact hm
  have hWeq : addAllocation L m W = workAfter L (done ++ [m]) L.Available := by
    rw [addAllocation_eq L nP nR m W hL hm hWlen, workAfter_append, ← hW]
    rfl
  refine ⟨?_, ?_, ?_, ?_, ?_, hWeq⟩
  · rw [List.length_set]; exact hFlen
  · rw [hWeq]
    exact length_workAfter L nP nR hL _ _ hL.1 hall
  · rw [List.nodup_append]
    refine ⟨hnd, List.nodup_singleton m, ?_⟩
    intro x hx hx2
    rw [List.mem_singleton.mp hx2] at hx
    exact hnotin hx
  · intro i
    rw [List.mem_append, List.mem_singleton, getD_set_bool, hmem i]
    by_cases him : m = i
    · subst him
      rw [if_pos ⟨rfl, by omega⟩]
      constructor
      · intro _; exact ⟨hm, rfl⟩
      · intro _; exact Or.inr rfl
    · rw [if_neg (fun h => him h.1)]
      constructor
      · intro h
        rcases h with h | h
        · exact h
        · exact absurd h.symm him
      · intro h; exact Or.inl h
  · rw [safeSeq_append, ← hW]
    exact ⟨hseq, (possible_iff L W m).mp hposs, trivial⟩

/-- The state of a pass after the first `m` processes have been looked at. -/
theorem pass_prefix (L : Ledger) (nP nR : Nat) (hL : L.Rect nP nR) (W : List Int)
    (F : List Bool) (done : List Nat) (hinv : SafeInv L nP nR W F done) (m : Nat)
    (hm : m ≤ nP) :
    ∃ done1,
      SafeInv L nP nR ((List.range m).foldl (passStep L) ⟨W, F, false⟩).Work
        ((List.range m).foldl (passStep L) ⟨W, F, false⟩).Finish done1 ∧
      done.length ≤ done1.length ∧
      (((List.range m).foldl (passStep L) ⟨W, F, false⟩).found = true →
        done.length < done1.length) ∧
      (((List.range m).foldl (passStep L) ⟨W, F, false⟩).found = false →
        ((List.range m).foldl (passStep L) ⟨W, F, false⟩).Work = W ∧
        ((List.range m).foldl (passStep L) ⟨W, F, false⟩).Finish = F ∧
        ∀ i, i < m → F.getD i false = false → possible L W i = false) := by
  induction m with
  | zero =>
    refine ⟨done, hinv, Nat.le_refl _, ?_, ?_⟩
    · intro h; cases h
    · intro _
      exact ⟨rfl, rfl, fun i hi => absurd hi (Nat.not_lt_zero i)⟩
  | succ m ih =>
    obtain ⟨done1, hinv1, hle, hfound, hnot⟩ := ih (by omega)
    rw [List.range_succ, List.foldl_append]
    simp only [List.foldl_cons, List.foldl_nil]
    generalize (List.range m).foldl (passStep L) ⟨W, F, false⟩ = s at hinv1 hfound hnot
    by_cases hc : s.Finish.getD m false = false ∧ possible L s.Work m = true
    · have hstep : passStep L s m
          = ⟨addAllocation L m s.Work, s.Finish.set m true, true⟩ := by
        unfold passStep
        rw [hc.1, hc.2]
        rfl
      rw [hstep]
      refine ⟨done1 ++ [m], safeInv_mark L nP nR hL _ _ done1 m (by omega) hinv1 hc.1 hc.2,
        ?_, ?_, ?_⟩
      · rw [List.length_append]; simp only [List.length_singleton]; omega
      · intro _
        rw [List.length_append]; simp only [List.length_singleton]; omega
      · intro h; cases h
    · have hstep : passStep L s m = s := by
        unfold passStep
        by_cases h1 : s.Finish.getD m false = false
        · have h2 : possible L s.Work m = false := by
            cases hp : possible L s.Work m
            · rfl
            · exact absurd ⟨h1, hp⟩ hc
          rw [h1, h2]
          rfl
        · have h2 : s.Finish.getD m false = true := by
            cases hb : s.Finish.getD m false
            · exact absurd hb h1
            · rfl
          rw [h2]
          rfl
      rw [hstep]
      refine ⟨done1, hinv1, hle, hfound, ?_⟩
      intro hf
      obtain ⟨hW, hF, hfix⟩ := hnot hf
      refine ⟨hW, hF, ?_⟩
      intro i hi hFi
      by_cases him : i = m
      · subst him
        rw [hW, hF] at hc
        cases hp : possible L W i
        · rfl
        · exact absurd ⟨hFi, hp⟩ hc
      · exact hfix i (by omega) hFi

theorem length_le_of_safeInv (L : Ledger) (nP nR : Nat) (W : List Int) (F : List Bool)
    (done : List Nat) (hinv : SafeInv L nP nR W F done) : done.length ≤ nP := by
  obtain ⟨_, _, hnd, hmem, _, _⟩ := hinv
  have h := (List.subperm_of_subset hnd
    (fun x hx => List.mem_range.mpr ((hmem x).mp hx).1)).length_le
  rw [List.length_range] at h
  exact h

/-- The `while` loop ends within the passes it is given, in a state that
satisfies the invariant and in which no unfinished process fits. -/
theorem isSafeLoop_spec (L : Ledger) (nP nR : Nat) (hL : L.Rect nP nR) (fuel : Nat) :
    ∀ (W : List Int) (F : List Bool) (done : List Nat), SafeInv L nP nR W F done →
      nP - done.length < fuel →
      ∃ Fin W1 done1, isSafeLoop L fuel W F = some Fin ∧ SafeInv L nP nR W1 Fin done1 ∧
        ∀ i, i < nP → Fin.getD i false = false → possible L W1 i = false := by
  induction fuel with
  | zero => intro W F done _ h; exact absurd h (Nat.not_lt_zero _)
  | succ fuel ih =>
    intro W F done hinv hfuel
    obtain ⟨done1, hinv1, hle, hfound, hnot⟩ := pass_prefix L nP nR hL W F done hinv nP
      (Nat.le_refl _)
    unfold isSafeLoop
    simp only
    unfold isSafePass
    rw [hL.2.1]
    cases hf : ((List.range nP).foldl (passStep L) ⟨W, F, false⟩).found
    · simp only [Bool.false_eq_true, if_false]
      obtain ⟨hW, hF, hfix⟩ := hnot hf
      rw [hW, hF] at hinv1
      rw [hF]
      exact ⟨F, W, done1, rfl, hinv1, hfix⟩
    · simp only [if_true]
      have h1 := hfound hf
      have h2 := length_le_of_safeInv L nP nR _ _ done1 hinv1
      exact ih _ _ done1 hinv1 (by omega)

theorem getD_replicate_false (n i : Nat) : (List.replicate n false).getD i false = false := by
  rw [List.getD_eq_getElem?_getD, List.getElem?_replicate]
  split <;> rfl

theorem safeInv_init (L : Ledger) (nP nR : Nat) (hL : L.Rect nP nR) :
    SafeInv L nP nR L.Available (List.replicate nP false) [] := by
  refine ⟨List.length_replicate _ _, hL.1, List.nodup_nil, ?_, trivial, rfl⟩
  intro i
  rw [getD_replicate_false]
  constructor
  · intro h; cases h
  · intro h; cases h.2

theorem all_id_iff (F : List Bool) :
    F.all id = true ↔ ∀ i, i < F.length → F.getD i false = true := by
  rw [List.all_eq_true]
  constructor
  · intro h i hi
    rw [List.getD_eq_getElem F false hi]
    exact h _ (List.getElem_mem hi)
  · intro h x hx
    obtain ⟨i, hi, rfl⟩ := List.mem_iff_getElem.mp hx
    have := h i hi
    rw [List.getD_eq_getElem F false hi] at this
    exact this

/-- A list with an element outside `done` splits at its first such element. -/
theorem exists_first_not_mem (done : List Nat) (l : List Nat) (h : ∃ x ∈ l, x ∉ done) :
    ∃ pre p post, l = pre ++ p :: post ∧ (∀ x ∈ pre, x ∈ done) ∧ p ∉ done := by
  induction l with
  | nil => obtain ⟨x, hx, _⟩ := h; cases hx
  | cons a l ih =>
    by_cases ha : a ∈ done
    · obtain ⟨x, hx, hxd⟩ := h
      have hxl : x ∈ l := by
        rcases List.mem_cons.mp hx with h1 | h1
        · rw [h1] at hxd; exact absurd ha hxd
        · exact h1
      obtain ⟨pre, p, post, hsplit, hpre, hp⟩ := ih ⟨x, hxl, hxd⟩
      refine ⟨a :: pre, p, post, by rw [hsplit]; rfl, ?_, hp⟩
      intro y hy
      rcases List.mem_cons.mp hy with h1 | h1
      · rw [h1]; exact ha
      · exact hpre y h1
    · exact ⟨[], a, l, rfl, fun _ hx => absurd hx (List.not_mem_nil _), ha⟩

theorem getCell_nonneg_of_bounded (L : Ledger) (nP nR : Nat) (hL : L.Rect nP nR)
    (hpos : ∀ i, i < nP → ∀ j, j < nR → 0 ≤ getCell L.Allocation i j) :
    ∀ i j, 0 ≤ getCell L.Allocation i j := by
  obtain ⟨_, _, hAl, _, _, hAlr, _⟩ := hL
  intro i j
  by_cases hi : i < nP
  · by_cases hj : j < nR
    · exact hpos i hi j hj
    · have hrow := row_length_of_mem L.Allocation nR i hAlr (by omega)
      unfold getCell
      rw [getD_of_length_le _ j (by omega)]
  · unfold getCell
    rw [getD_row_of_length_le _ i (by omega)]
    exact Int.le_refl 0

/-- On a rectangular ledger whose `Allocation` entries are non-negative, `isSafe`
returns true exactly when a safe ordering of all processes exists. -/
theorem isSafe_eq_true_iff (L : Ledger) (nP nR : Nat) (hL : L.Rect nP nR)
    (hnn : ∀ i j, 0 ≤ getCell L.Allocation i j) :
    isSafe L = true ↔
      ∃ order : List Nat, order.Perm (List.range nP) ∧ SafeSeq L order L.Available := by
  obtain ⟨Fin, W1, done1, hloop, hinv, hfix⟩ :=
    isSafeLoop_spec L nP nR hL (nP + 1) L.Available (List.replicate nP false) []
      (safeInv_init L nP nR hL) (by simp)
  have hsafe : isSafe L = Fin.all id := by
    unfold isSafe
    rw [hL.2.1, hloop]
  obtain ⟨hFlen, hWlen, hnd, hmem, hseq, hW⟩ := hinv
  rw [hsafe, all_id_iff, hFlen]
  constructor
  · intro hall
    refine ⟨done1, ?_, hseq⟩
    rw [List.perm_ext_iff_of_nodup hnd (List.nodup_range nP)]
    intro a
    rw [hmem a, List.mem_range]
    exact ⟨fun h => h.1, fun h => ⟨h, hall a h⟩⟩
  · rintro ⟨order, hperm, horder⟩
    by_contra hcon
    have hex : ∃ x ∈ order, x ∉ done1 := by
      by_contra hno
      apply hcon
      intro i hi
      have hio : i ∈ order := hperm.mem_iff.mpr (List.mem_range.mpr hi)
      have : i ∈ done1 := by
        by_contra h
        exact hno ⟨i, hio, h⟩
      exact ((hmem i).mp this).2
    obtain ⟨pre, p, post, hsplit, hpre, hp⟩ := exists_first_not_mem done1 order hex
    have hpn : p < nP := by
      have : p ∈ order := by rw [hsplit]; simp
      exact List.mem_range.mp (hperm.mem_iff.mp this)
    have hFp : Fin.getD p false = false := by
      cases hb : Fin.getD p false
      · rfl
      · exact absurd ((hmem p).mpr ⟨hpn, hb⟩) hp
    have hnot := hfix p hpn hFp
    have hyes : possible L W1 p = true := by
      rw [possible_iff]
      intro j hj
      rw [hsplit, safeSeq_append] at horder
      have hneed := horder.2.1 j hj
      have hprenodup : pre.Nodup := by
        have hon : order.Nodup := hperm.nodup_iff.mpr (List.nodup_range nP)
        rw [hsplit] at hon
        exact (List.nodup_append.mp hon).1
      have hprelt : ∀ x ∈ pre, x < nP := fun x hx => ((hmem x).mp (hpre x hx)).1
      have hdonelt : ∀ x ∈ done1, x < nP := fun x hx => ((hmem x).mp hx).1
      rw [getD_workAfter L nP nR hL j pre _ hL.1 hprelt] at hneed
      rw [hW, getD_workAfter L nP nR hL j done1 _ hL.1 hdonelt]
      have := sum_le_of_subset (fun i => getCell L.Allocation i j) (fun i => hnn i j)
        pre done1 hprenodup hpre
      omega
    rw [hnot] at hyes
    cases hyes

/-- C2. `isSafe` decides safety: on a rectangular ledger with `nP` processes whose
`Allocation` entries are all non-negative, `isSafe()` returns true exactly when
there is an ordering of all processes (a permutation of `0 .. nP - 1`) in which,
starting from `Work = Available`, every process in its turn has
`Need[p][j] <= Work[j]` for every resource type `j`, after which
`Work := Work + Allocation[p]`. -/
theorem isSafe_iff_safe_sequence (L : Ledger) (nP nR : Nat) (hL : L.Rect nP nR)
    (hpos : ∀ i, i < nP → ∀ j, j < nR → 0 ≤ getCell L.Allocation i j) :
    isSafe L = true ↔
      ∃ order : List Nat, order.Perm (List.range nP) ∧ SafeSeq L order L.Available := by
  have hnn := getCell_nonneg_of_bounded L nP nR hL hpos
  exact isSafe_eq_true_iff L nP nR hL hnn

/-- C2 on two processes and one resource type: with one unit available the
ordering `[0, 1]` lets both finish, and `isSafe` returns true. -/
theorem isSafe_iff_safe_sequence_witness :
    isSafe ⟨[1], [[2], [2]], [[1], [0]], [[1], [2]]⟩ = true ∧
    SafeSeq ⟨[1], [[2], [2]], [[1], [0]], [[1], [2]]⟩ [0, 1] [1] ∧
    (isSafe ⟨[1], [[2], [2]], [[1], [0]], [[1], [2]]⟩ = true ↔
      ∃ order : List Nat, order.Perm (List.range 2) ∧
        SafeSeq ⟨[1], [[2], [2]], [[1], [0]], [[1], [2]]⟩ order [1]) :=
  ⟨by decide, by decide,
    isSafe_iff_safe_sequence ⟨[1], [[2], [2]], [[1], [0]], [[1], [2]]⟩ 2 1 (by decide)
      (by decide)⟩

/-! ## The loop of `isSafe` ends on every ledger -/

theorem count_false_set_true (F : List Bool) (i : Nat) (hi : i < F.length)
    (h : F.getD i false = false) : (F.set i true).count false + 1 = F.count false := by
  rw [List.getD_eq_getElem F false hi] at h
  rw [List.count_set true false F i hi, h]
  have : 0 < F.count false := by
    rw [List.count_pos_iff]
    exact h ▸ List.getElem_mem hi
  simp
  omega

/-- A pass never resets an entry of `Finish`, and a pass that sets `found` has
turned at least one entry from false to true. -/
theorem pass_count (L : Ledger) (W : List Int) (F : List Bool) (m : Nat) (hm : m ≤ F.length) :
    ((List.range m).foldl (passStep L) ⟨W, F, false⟩).Finish.length = F.length ∧
    ((List.range m).foldl (passStep L) ⟨W, F, false⟩).Finish.count false ≤ F.count false ∧
    (((List.range m).foldl (passStep L) ⟨W, F, false⟩).found = true →
      ((List.range m).foldl (passStep L) ⟨W, F, false⟩).Finish.count false < F.count false) := by
  induction m with
  | zero => exact ⟨rfl, Nat.le_refl _, fun h => by cases h⟩
  | succ m ih =>
    obtain ⟨hlen, hle, hfound⟩ := ih (by omega)
    rw [List.range_succ, List.foldl_append]
    simp only [List.foldl_cons, List.foldl_nil]
    generalize (List.range m).foldl (passStep L) ⟨W, F, false⟩ = s at hlen hle hfound
    by_cases hc : s.Finish.getD m false = false ∧ possible L s.Work m = true
    · have hstep : passStep L s m
          = ⟨addAllocation L m s.Work, s.Finish.set m true, true⟩ := by
        unfold passStep
        rw [hc.1, hc.2]
        rfl
      rw [hstep]
      have hcount := count_false_set_true s.Finish m (by omega) hc.1
      refine ⟨by rw [List.length_set]; exact hlen, ?_, fun _ => ?_⟩
      · show (s.Finish.set m true).count false ≤ _
        omega
      · show (s.Finish.set m true).count false < _
        omega
    · have hstep : passStep L s m = s := by
        unfold passStep
        by_cases h1 : s.Finish.getD m false = false
        · have h2 : possible L s.Work m = false := by
            cases hp : possible L s.Work m
            · rfl
            · exact absurd ⟨h1, hp⟩ hc
          rw [h1, h2]
          rfl
        · have h2 : s.Finish.getD m false = true := by
            cases hb : s.Finish.getD m false
            · exact absurd hb h1
            · rfl
          rw [h2]
          rfl
      rw [hstep]
      exact ⟨hlen, hle, hfound⟩

theorem isSafeLoop_of_count (L : Ledger) (fuel : Nat) :
    ∀ (W : List Int) (F : List Bool), F.length = L.Max.length → F.count false < fuel →
      ∃ Fin, isSafeLoop L fuel W F = some Fin := by
  induction fuel with
  | zero => intro W F _ h; exact absurd h (Nat.not_lt_zero _)
  | succ fuel ih =>
    intro W F hlen hfuel
    obtain ⟨h1, h2, h3⟩ := pass_count L W F L.Max.length (by omega)
    unfold isSafeLoop
    simp only
    unfold isSafePass
    cases hf : ((List.range L.Max.length).foldl (passStep L) ⟨W, F, false⟩).found
    · exact ⟨_, rfl⟩
    · simp only [if_true]
      exact ih _ _ (by rw [h1, hlen]) (by have := h3 hf; omega)

/-- On every ledger, whatever its entries, the `while (true)` loop of `isSafe`
ends within `Max.size() + 1` passes. -/
theorem isSafeLoop_terminates (L : Ledger) :
    ∃ Fin, isSafeLoop L (L.Max.length + 1) L.Available (List.replicate L.Max.length false)
      = some Fin := by
  apply isSafeLoop_of_count L _ _ _ (List.length_replicate _ _)
  rw [List.count_replicate]
  simp

/-- Within a pass no entry of `Finish` goes back to false, and when `found` is
set some entry that was false before the pass is true now. -/
theorem pass_marks (L : Ledger) (W : List Int) (F : List Bool) (m : Nat) (hm : m ≤ F.length) :
    (∀ i, F.getD i false = true →
      ((List.range m).foldl (passStep L) ⟨W, F, false⟩).Finish.getD i false = true) ∧
    (((List.range m).foldl (passStep L) ⟨W, F, false⟩).found = true →
      ∃ i, i < m ∧ F.getD i false = false ∧
        ((List.range m).foldl (passStep L) ⟨W, F, false⟩).Finish.getD i false = true) := by
  induction m with
  | zero => exact ⟨fun i h => h, fun h => by cases h⟩
  | succ m ih =>
    obtain ⟨hmono, hex⟩ := ih (by omega)
    have hlen := (pass_count L W F m (by omega)).1
    rw [List.range_succ, List.foldl_append]
    simp only [List.foldl_cons, List.foldl_nil]
    generalize (List.range m).foldl (passStep L) ⟨W, F, false⟩ = s at hmono hex hlen
    by_cases hc : s.Finish.getD m false = false ∧ possible L s.Work m = true
    · have hstep : passStep L s m
          = ⟨addAllocation L m s.Work, s.Finish.set m true, true⟩ := by
        unfold passStep
        rw [hc.1, hc.2]
        rfl
      rw [hstep]
      refine ⟨fun i hi => ?_, fun _ => ⟨m, Nat.lt_succ_self m, ?_, ?_⟩⟩
      · show (s.Finish.set m true).getD i false = true
        rw [getD_set_bool]
        split
        · rfl
        · exact hmono i hi
      · cases hb : F.getD m false
        · rfl
        · have := hmono m hb
          rw [hc.1] at this
          cases this
      · show (s.Finish.set m true).getD m false = true
        rw [getD_set_bool, if_pos ⟨rfl, by omega⟩]
    · have hstep : passStep L s m = s := by
        unfold passStep
        by_cases h1 : s.Finish.getD m false = false
        · have h2 : possible L s.Work m = false := by
            cases hp : possible L s.Work m
            · rfl
            · exact absurd ⟨h1, hp⟩ hc
          rw [h1, h2]
          rfl
        · have h2 : s.Finish.getD m false = true := by
            cases hb : s.Finish.getD m false
            · exact absurd hb h1
            · rfl
          rw [h2]
          rfl
      rw [hstep]
      refine ⟨hmono, fun hf => ?_⟩
      obtain ⟨i, hi, h1, h2⟩ := hex hf
      exact ⟨i, by omega, h1, h2⟩

/-- C18. `isSafe` terminates: on every ledger with `n = Max.size()` processes,
whatever its entries, the `while (true)` loop exits within `n + 1` full passes;
a pass that does not exit (it sets `found`) turns at least one `Finish[i]` from
false to true, so it lowers the number of false entries, and no pass turns an
entry of `Finish` from true to false. -/
theorem isSafe_terminates_within (L : Ledger) :
    (∃ Fin, isSafeLoop L (L.Max.length + 1) L.Available
      (List.replicate L.Max.length false) = some Fin) ∧
    ∀ (W : List Int) (F : List Bool), F.length = L.Max.length →
      ((isSafePass L W F).found = true →
        (∃ i, i < L.Max.length ∧ F.getD i false = false ∧
          (isSafePass L W F).Finish.getD i false = true) ∧
        (isSafePass L W F).Finish.count false < F.count false) ∧
      ∀ i, F.getD i false = true → (isSafePass L W F).Finish.getD i false = true := by
  refine ⟨isSafeLoop_terminates L, fun W F hlen => ?_⟩
  have h1 := pass_marks L W F L.Max.length (by omega)
  have h2 := pass_count L W F L.Max.length (by omega)
  unfold isSafePass
  exact ⟨fun hf => ⟨h1.2 hf, h2.2.2 hf⟩, h1.1⟩

/-! ## `isSafe` leaves the ledger alone -/

theorem frameStep_eq (f : SafeFrame) (i : Nat) :
    frameStep f i =
      { ledger := f.ledger
        Work := (passStep f.ledger ⟨f.Work, f.Finish, f.found⟩ i).Work
        Finish := (passStep f.ledger ⟨f.Work, f.Finish, f.found⟩ i).Finish
        found := (passStep f.ledger ⟨f.Work, f.Finish, f.found⟩ i).found } := by
  unfold frameStep passStep
  cases h1 : f.Finish.getD i false
  · cases h2 : possible f.ledger f.Work i <;> rfl
  · rfl

theorem frameFold_eq (l : List Nat) :
    ∀ f : SafeFrame, l.foldl frameStep f =
      { ledger := f.ledger
        Work := (l.foldl (passStep f.ledger) ⟨f.Work, f.Finish, f.found⟩).Work
        Finish := (l.foldl (passStep f.ledger) ⟨f.Work, f.Finish, f.found⟩).Finish
        found := (l.foldl (passStep f.ledger) ⟨f.Work, f.Finish, f.found⟩).found } := by
  induction l with
  | nil => intro f; rfl
  | cons a l ih =>
    intro f
    rw [List.foldl_cons, frameStep_eq, ih]
    rfl

theorem framePass_eq (f : SafeFrame) :
    framePass f =
      { ledger := f.ledger
        Work := (isSafePass f.ledger f.Work f.Finish).Work
        Finish := (isSafePass f.ledger f.Work f.Finish).Finish
        found := (isSafePass f.ledger f.Work f.Finish).found } := by
  unfold framePass isSafePass
  rw [frameFold_eq]

theorem frameLoop_eq (fuel : Nat) :
    ∀ f : SafeFrame,
      (frameLoop fuel f).map (fun g => (g.ledger, g.Finish))
        = (isSafeLoop f.ledger fuel f.Work f.Finish).map (fun Fin => (f.ledger, Fin)) := by
  induction fuel with
  | zero => intro f; rfl
  | succ fuel ih =>
    intro f
    unfold frameLoop isSafeLoop
    simp only
    rw [framePass_eq]
    cases hf : (isSafePass f.ledger f.Work f.Finish).found
    · rfl
    · simp only [if_true]
      exact ih _

/-- C13. `isSafe` is free of side effects and idempotent: run as a call on the global
state it returns what the function `isSafe` computes and leaves `Available`,
`Max`, `Allocation` and `Need` as they were, and a second call made at once
returns the same value. -/
theorem isSafeCall_frame (L : Ledger) :
    isSafeCall L = (isSafe L, L) ∧
    (isSafeCall (isSafeCall L).2).1 = (isSafeCall L).1 ∧
    (isSafeCall (isSafeCall L).2).2 = L := by
  have h : isSafeCall L = (isSafe L, L) := by
    have hloop := frameLoop_eq (L.Max.length + 1)
      ⟨L, L.Available, List.replicate L.Max.length false, false⟩
    unfold isSafeCall isSafe
    simp only at hloop
    cases hf : frameLoop (L.Max.length + 1)
        ⟨L, L.Available, List.replicate L.Max.length false, false⟩ with
    | none =>
      rw [hf] at hloop
      cases hs : isSafeLoop L (L.Max.length + 1) L.Available
          (List.replicate L.Max.length false) with
      | none => rfl
      | some Fin => rw [hs] at hloop; cases hloop
    | some g =>
      rw [hf] at hloop
      cases hs : isSafeLoop L (L.Max.length + 1) L.Available
          (List.replicate L.Max.length false) with
      | none => rw [hs] at hloop; cases hloop
      | some Fin =>
        rw [hs] at hloop
        simp only [Option.map_some', Option.some.injEq, Prod.mk.injEq] at hloop
        simp only [hloop.1, hloop.2]
  refine ⟨h, ?_, ?_⟩
  · rw [h]
    show (isSafeCall L).1 = isSafe L
    rw [h]
  · rw [h]
    show (isSafeCall L).2 = L
    rw [h]

/-! ## What `executeProcess` can change -/

theorem touches_refl (p : Nat) (L : Ledger) : Touches p L L :=
  ⟨rfl, rfl, rfl, rfl, fun _ => rfl, fun _ => rfl, fun _ _ => ⟨rfl, rfl⟩⟩

theorem touches_trans (p : Nat) (L L1 L2 : Ledger) (h1 : Touches p L L1)
    (h2 : Touches p L1 L2) : Touches p L L2 := by
  obtain ⟨a1, a2, a3, a4, a5, a6, a7⟩ := h1
  obtain ⟨b1, b2, b3, b4, b5, b6, b7⟩ := h2
  refine ⟨b1.trans a1, b2.trans a2, b3.trans a3, b4.trans a4, fun q => (b5 q).trans (a5 q),
    fun q => (b6 q).trans (a6 q), fun q hq => ?_⟩
  exact ⟨(b7 q hq).1.trans (a7 q hq).1, (b7 q hq).2.trans (a7 q hq).2⟩

theorem length_getD_set (M : List (List Int)) (p q : Nat) (W : List Int)
    (hW : W.length = (M.getD p []).length) :
    ((M.set p W).getD q []).length = (M.getD q []).length := by
  by_cases hqp : q = p
  · subst hqp
    by_cases hq : q < M.length
    · rw [getD_set_row M q W hq, hW]
    · rw [List.set_eq_of_length_le (Nat.le_of_not_lt hq)]
  · rw [getD_set_row_ne M p q W (Ne.symm hqp)]

/-- A ledger that rewrites `Available` and the rows of `p` without changing
any length touches only those. -/
theorem touches_of_rows (p : Nat) (L : Ledger) (A WA WN : List Int)
    (hA : A.length = L.Available.length)
    (hWA : WA.length = (L.Allocation.getD p []).length)
    (hWN : WN.length = (L.Need.getD p []).length) :
    Touches p L
      { Available := A, Max := L.Max, Allocation := L.Allocation.set p WA,
        Need := L.Need.set p WN } := by
  refine ⟨rfl, hA, List.length_set _ _ _, List.length_set _ _ _,
    fun q => length_getD_set _ p q WA hWA, fun q => length_getD_set _ p q WN hWN,
    fun q hq => ⟨getD_set_row_ne _ p q WA (Ne.symm hq), getD_set_row_ne _ p q WN (Ne.symm hq)⟩⟩

theorem allocate_touches (p : Nat) (r : List Int) (L : Ledger) : Touches p L (allocate p r L) := by
  rw [allocate_eq]
  exact touches_of_rows p L _ _ _ (length_subVec _ _) (length_addVec _ _) (length_subVec _ _)

theorem releaseResources_touches (p : Nat) (r : List Int) (L : Ledger) :
    Touches p L (releaseResources p r L) := by
  rw [releaseResources_eq]
  exact touches_of_rows p L _ _ _ (length_addVec _ _) (length_subVec _ _) (length_addVec _ _)

theorem releaseAll_touches (p : Nat) (L : Ledger) : Touches p L (releaseAll p L) := by
  rw [releaseAll_eq]
  have h := touches_of_rows p L (addVec (L.Allocation.getD p []) L.Available)
    (vecLoop (L.Allocation.getD p []).length (fun _ _ => 0) (L.Allocation.getD p []))
    (L.Need.getD p []) (length_addVec _ _) (length_vecLoop _ _ _) rfl
  rw [set_getD_self] at h
  exact h

theorem requestResources_touches (p : Nat) (r : List Int) (L : Ledger) :
    Touches p L (requestResources p r L).2 := by
  cases h : (requestResources p r L).1
  · rw [requestResources_of_denied p r L h]; exact touches_refl p L
  · rw [requestResources_snd_of_granted p r L h]; exact allocate_touches p r L

theorem useInstance_touches (instructions : List String) (p i : Nat) (L : Ledger)
    (inst : String) : Touches p L (useInstance instructions p i L inst) := by
  unfold useInstance
  split
  · exact touches_of_rows p L _ _ _ (List.length_set _ _ _) (List.length_set _ _ _)
      (List.length_set _ _ _)
  · exact touches_refl p L

theorem useFrom_touches (instructions : List String) (p : Nat) (rs : List ResourceType) :
    ∀ (i : Nat) (L : Ledger), Touches p L (useFrom instructions p rs i L) := by
  induction rs with
  | nil => intro i L; exact touches_refl p L
  | cons r rs ih =>
    intro i L
    have inner : ∀ (insts : List String) (L1 : Ledger),
        Touches p L1 (insts.foldl (useInstance instructions p i) L1) := by
      intro insts
      induction insts with
      | nil => intro L1; exact touches_refl p L1
      | cons a insts ih2 =>
        intro L1
        exact touches_trans p _ _ _ (useInstance_touches instructions p i L1 a) (ih2 _)
    exact touches_trans p _ _ _ (inner r.instances L) (ih (i + 1) _)

/-- A loop that rewrites only cells of row `p` of `Need`, each from values that
the loop does not change, is a `vecLoop` on that row. -/
theorem needLoop_eq (p : Nat) (g : Nat → Int → Int) (step : Ledger → Nat → Ledger)
    (hstep : ∀ L i, step L i =
      { L with Need := setCell L.Need p i (g i (getCell L.Need p i)) })
    (n : Nat) (L : Ledger) :
    (List.range n).foldl step L =
      { L with Need := L.Need.set p (vecLoop n g (L.Need.getD p [])) } := by
  have key : ∀ (l : List Nat) (L : Ledger), l.foldl step L =
      { L with Need := l.foldl (fun N k => setCell N p k (g k (getCell N p k))) L.Need } := by
    intro l
    induction l with
    | nil => intro L; rfl
    | cons a l ih =>
      intro L
      rw [List.foldl_cons, ih, hstep]
      rfl
  rw [key, rowLoop_eq]

theorem needAfterRelease_eq (n p : Nat) (r : List Int) (L : Ledger) :
    needAfterRelease n p r L =
      { L with Need := L.Need.set p (vecLoop n (fun k a => a + r.getD k 0) (L.Need.getD p [])) } :=
  needLoop_eq p (fun k a => a + r.getD k 0) _ (fun _ _ => rfl) n L

theorem touches_of_need (p : Nat) (L : Ledger) (WN : List Int)
    (hWN : WN.length = (L.Need.getD p []).length) :
    Touches p L { L with Need := L.Need.set p WN } := by
  have h := touches_of_rows p L L.Available (L.Allocation.getD p []) WN rfl rfl hWN
  rw [set_getD_self] at h
  exact h

theorem needAfterRelease_touches (n p : Nat) (r : List Int) (L : Ledger) :
    Touches p L (needAfterRelease n p r L) := by
  rw [needAfterRelease_eq]
  exact touches_of_need p L _ (length_vecLoop _ _ _)

/-- The reconciliation loop in closed form. -/
theorem updateNeed_eq (n p : Nat) (L : Ledger) :
    updateNeed n p L =
      { L with
        Need := L.Need.set p
          (vecLoop n (fun k _ => getCell L.Max p k - getCell L.Allocation p k)
            (L.Need.getD p [])) } := by
  have key : ∀ (l : List Nat) (L1 : Ledger), L1.Max = L.Max → L1.Allocation = L.Allocation →
      l.foldl (fun L2 i =>
        { L2 with
          Need := setCell L2.Need p i (getCell L2.Max p i - getCell L2.Allocation p i) }) L1 =
      { L1 with
        Need := l.foldl (fun N k => setCell N p k
          (getCell L.Max p k - getCell L.Allocation p k)) L1.Need } := by
    intro l
    induction l with
    | nil => intro L1 _ _; rfl
    | cons a l ih =>
      intro L1 h1 h2
      rw [List.foldl_cons, List.foldl_cons]
      have e := ih { L1 with
        Need := setCell L1.Need p a (getCell L1.Max p a - getCell L1.Allocation p a) } h1 h2
      rw [e, h1, h2]
  have hrow := rowLoop_eq n p (fun k _ => getCell L.Max p k - getCell L.Allocation p k) L.Need
  simp only at hrow
  unfold updateNeed
  rw [key _ L rfl rfl, hrow]

theorem updateNeed_touches (n p : Nat) (L : Ledger) : Touches p L (updateNeed n p L) := by
  rw [updateNeed_eq]
  exact touches_of_need p L _ (length_vecLoop _ _ _)

theorem execInstruction_touches (resources : List ResourceType) (instructions : List String)
    (p : Nat) (instruction : String) (L L1 : Ledger) (b : Bool)
    (h : execInstruction resources instructions p instruction L = some (L1, b)) :
    Touches p L L1 := by
  unfold execInstruction at h
  split at h
  · split at h
    · cases h
    · simp only [Option.some.injEq, Prod.mk.injEq] at h
      rw [← h.1]; exact touches_refl p L
  · split at h
    · split at h
      · cases h
      · rename_i request _
        have ht := requestResources_touches p request L
        simp only at h
        split at h <;>
          (simp only [Option.some.injEq, Prod.mk.injEq] at h; rw [← h.1]; exact ht)
    · split at h
      · simp only [Option.some.injEq, Prod.mk.injEq] at h
        rw [← h.1]
        exact useFrom_touches instructions p resources 0 L
      · split at h
        · split at h
          · cases h
          · rename_i release _
            simp only [Option.some.injEq, Prod.mk.injEq] at h
            rw [← h.1]
            exact touches_trans p _ _ _ (releaseResources_touches p release L)
              (needAfterRelease_touches _ p release _)
        · split at h
          · simp only [Option.some.injEq, Prod.mk.injEq] at h
            rw [← h.1]; exact touches_refl p L
          · split at h
            · simp only [Option.some.injEq, Prod.mk.injEq] at h
              rw [← h.1]; exact releaseAll_touches p L
            · simp only [Option.some.injEq, Prod.mk.injEq] at h
              rw [← h.1]; exact touches_refl p L

theorem execPrefix_touches (resources : List ResourceType) (instructions : List String)
    (p : Nat) (l : List String) :
    ∀ (L L1 : Ledger) (b : Bool), execPrefix resources instructions p l L = some (L1, b) →
      Touches p L L1 := by
  induction l with
  | nil =>
    intro L L1 b h
    simp only [execPrefix, Option.some.injEq, Prod.mk.injEq] at h
    rw [← h.1]; exact touches_refl p L
  | cons a l ih =>
    intro L L1 b h
    unfold execPrefix at h
    cases hx : execInstruction resources instructions p a L with
    | none => rw [hx] at h; cases h
    | some r =>
      obtain ⟨L2, c⟩ := r
      rw [hx] at h
      have ht := execInstruction_touches resources instructions p a L L2 c hx
      cases c
      · simp only [Option.some.injEq, Prod.mk.injEq] at h
        rw [← h.1]; exact ht
      · exact touches_trans p _ _ _ ht (ih L2 L1 b h)

theorem execLoop_eq_running (resources : List ResourceType) (instructions : List String)
    (p : Nat) (l : List String) :
    ∀ L, execLoop resources instructions p l L
      = (execPrefix resources instructions p l L).map Prod.fst := by
  induction l with
  | nil => intro L; rfl
  | cons a l ih =>
    intro L
    unfold execLoop execPrefix
    cases hx : execInstruction resources instructions p a L with
    | none => rfl
    | some r =>
      obtain ⟨L2, c⟩ := r
      cases c
      · rfl
      · exact ih L2

theorem execLoop_touches (resources : List ResourceType) (instructions : List String)
    (p : Nat) (l : List String) (L L1 : Ledger)
    (h : execLoop resources instructions p l L = some L1) : Touches p L L1 := by
  rw [execLoop_eq_running] at h
  cases hx : execPrefix resources instructions p l L with
  | none => rw [hx] at h; cases h
  | some r =>
    obtain ⟨L2, b⟩ := r
    rw [hx] at h
    simp only [Option.map_some', Option.some.injEq] at h
    rw [← h]
    exact execPrefix_touches resources instructions p l L L2 b hx

/-- After the reconciliation loop the row of the process in `Need` is
`Max - Allocation` on the first `n` columns. -/
theorem getCell_updateNeed (n p j : Nat) (L : Ledger) (hp : p < L.Need.length)
    (hj : j < n) (hrow : j < (L.Need.getD p []).length) :
    getCell (updateNeed n p L).Need p j
      = getCell (updateNeed n p L).Max p j - getCell (updateNeed n p L).Allocation p j := by
  rw [updateNeed_eq]
  show getCell (L.Need.set p _) p j = getCell L.Max p j - getCell L.Allocation p j
  rw [getCell_set_row _ _ _ _ hp, getD_vecLoop, if_pos ⟨hj, hrow⟩]

/-- C14. Need reconciliation: on a rectangular ledger, for an in-range process and any
instruction stream, when `executeProcess` returns (the stream ran out, an `end`
was reached or a request was denied) `Need[processId][j]` equals
`Max[processId][j] - Allocation[processId][j]` for every resource type `j`, and
the rows of `Need` of all other processes are as before the call. -/
theorem executeProcess_reconciles (resources : List ResourceType) (instructions : List String)
    (nP p : Nat) (L L1 : Ledger) (hL : L.Rect nP resources.length) (hp : p < nP)
    (hrun : executeProcess resources instructions p L = some L1) :
    (∀ j, j < resources.length →
      getCell L1.Need p j = getCell L1.Max p j - getCell L1.Allocation p j) ∧
    ∀ q, q ≠ p → L1.Need.getD q [] = L.Need.getD q [] := by
  unfold executeProcess at hrun
  cases hx : execLoop resources instructions p instructions L with
  | none => rw [hx] at hrun; cases hrun
  | some Lm =>
    rw [hx] at hrun
    simp only [Option.some.injEq] at hrun
    have ht := execLoop_touches resources instructions p instructions L Lm hx
    obtain ⟨_, _, _, hNlen, _, hNrow, hother⟩ := ht
    obtain ⟨_, _, _, hNd, _, _, hNdr⟩ := hL
    have hrow := row_length_of_mem L.Need resources.length p hNdr (by omega)
    rw [← hrun]
    refine ⟨fun j hj => ?_, fun q hq => ?_⟩
    · exact getCell_updateNeed _ p j Lm (by omega) hj (by rw [hNrow p, hrow]; exact hj)
    · rw [((updateNeed_touches resources.length p Lm).2.2.2.2.2.2 q hq).2]
      exact (hother q hq).2

/-- C14 on a stream with a `release` line, after which `Need` is off by the released
amount until the reconciliation: at return `Need[0] = Max[0] - Allocation[0]`. -/
theorem executeProcess_reconciles_witness :
    executeProcess [⟨"1", ["a"]⟩] ["request(1)", "release(1)", "calculate(1)"] 0
        ⟨[1], [[1], [1]], [[0], [0]], [[1], [1]]⟩
      = some ⟨[1], [[1], [1]], [[0], [0]], [[1], [1]]⟩ ∧
    ((∀ j, j < 1 → getCell [[1], [1]] 0 j = getCell [[1], [1]] 0 j - getCell [[0], [0]] 0 j) ∧
      ∀ q, q ≠ 0 → ([[1], [1]] : List (List Int)).getD q [] = [[1], [1]].getD q []) :=
  ⟨by decide,
    executeProcess_reconciles [⟨"1", ["a"]⟩] ["request(1)", "release(1)", "calculate(1)"] 2 0
      ⟨[1], [[1], [1]], [[0], [0]], [[1], [1]]⟩ ⟨[1], [[1], [1]], [[0], [0]], [[1], [1]]⟩
      (by decide) (by decide) (by decide)⟩

/-! ## The `end` branch and a denied request -/

theorem execPrefix_cons (resources : List ResourceType) (instructions : List String)
    (p : Nat) (x : String) (rest : List String) (L : Ledger) :
    execPrefix resources instructions p (x :: rest) L =
      match execInstruction resources instructions p x L with
      | none => none
      | some (L1, true) => execPrefix resources instructions p rest L1
      | some (L1, false) => some (L1, false) := rfl

theorem execPrefix_append (resources : List ResourceType) (instructions : List String)
    (p : Nat) (a b : List String) :
    ∀ (L Lm : Ledger), execPrefix resources instructions p a L = some (Lm, true) →
      execPrefix resources instructions p (a ++ b) L
        = execPrefix resources instructions p b Lm := by
  induction a with
  | nil =>
    intro L Lm h
    simp only [execPrefix, Option.some.injEq, Prod.mk.injEq, and_true] at h
    rw [h]; rfl
  | cons x a ih =>
    intro L Lm h
    rw [List.cons_append, execPrefix_cons]
    rw [execPrefix_cons] at h
    cases hx : execInstruction resources instructions p x L with
    | none => rw [hx] at h; cases h
    | some r =>
      obtain ⟨L2, c⟩ := r
      rw [hx] at h
      cases c
      · simp only [Option.some.injEq, Prod.mk.injEq] at h
        cases h.2
      · exact ih L2 Lm h

theorem execInstruction_end (resources : List ResourceType) (instructions : List String)
    (p : Nat) (e : String) (L : Ledger) (he : isEndLine e = true) :
    execInstruction resources instructions p e L = some (releaseAll p L, false) := by
  unfold isEndLine at he
  simp only [Bool.and_eq_true, Bool.not_eq_true'] at he
  obtain ⟨⟨⟨⟨⟨h1, h2⟩, h3⟩, h4⟩, h5⟩, h6⟩ := he
  unfold execInstruction
  rw [h1, h2, h3, h4, h5, h6]
  rfl

theorem execInstruction_request (resources : List ResourceType) (instructions : List String)
    (p : Nat) (r : String) (args : List Int) (L : Ledger) (hr : isRequestLine r = true)
    (hargs : parseArgs r = some args) :
    execInstruction resources instructions p r L
      = some ((requestResources p args L).2, (requestResources p args L).1) := by
  unfold isRequestLine at hr
  simp only [Bool.and_eq_true, Bool.not_eq_true'] at hr
  unfold execInstruction
  rw [hr.1, hr.2, hargs]
  simp only [Bool.false_eq_true, if_false, if_true]
  cases (requestResources p args L).1 <;> rfl

/-- The shape that a ledger reached from a rectangular one by `executeProcess`
steps still has. -/
theorem rect_of_touches (p nP nR : Nat) (L L1 : Ledger) (hL : L.Rect nP nR)
    (ht : Touches p L L1) (hp : p < nP) :
    L1.Available.length = nR ∧ L1.Allocation.length = nP ∧ L1.Need.length = nP ∧
    (L1.Allocation.getD p []).length = nR ∧ (L1.Need.getD p []).length = nR := by
  obtain ⟨hA, _, hAl, hNd, _, hAlr, hNdr⟩ := hL
  obtain ⟨_, t2, t3, t4, t5, t6, _⟩ := ht
  refine ⟨by omega, by omega, by omega, ?_, ?_⟩
  · rw [t5 p]; exact row_length_of_mem L.Allocation nR p hAlr (by omega)
  · rw [t6 p]; exact row_length_of_mem L.Need nR p hNdr (by omega)

/-- C15. `end` releases everything.  On a rectangular ledger, let the instruction loop
of `executeProcess` reach an `end` line with the ledger `Lm`, in which the process
holds the row `A = Allocation[p]`.  Then the loop stops at that line, so no
later instruction runs, and `executeProcess` returns the ledger in which, for
every resource type `j`, `Allocation[p][j] = 0`,
`Available[j]` is its value in `Lm` plus `A[j]`, and `Need[p][j] = Max[p][j]`;
the rows of `Allocation` of all other processes are those of `Lm`.  The call
passes the row `Allocation[p]` itself to `releaseResources`. -/
theorem executeProcess_end (resources : List ResourceType) (pre : List String) (e : String)
    (post : List String) (nP p : Nat) (L Lm : Ledger) (hL : L.Rect nP resources.length)
    (hp : p < nP) (he : isEndLine e = true)
    (hreach : execPrefix resources (pre ++ e :: post) p pre L = some (Lm, true)) :
    execPrefix resources (pre ++ e :: post) p (pre ++ [e]) L = some (releaseAll p Lm, false) ∧
    ∃ L1, executeProcess resources (pre ++ e :: post) p L = some L1 ∧
      L1 = updateNeed resources.length p (releaseAll p Lm) ∧
      (∀ j, j < resources.length →
        getCell L1.Allocation p j = 0 ∧
        L1.Available.getD j 0 = Lm.Available.getD j 0 + getCell Lm.Allocation p j ∧
        getCell L1.Need p j = getCell L1.Max p j) ∧
      ∀ q, q ≠ p → L1.Allocation.getD q [] = Lm.Allocation.getD q [] := by
  have hend := execInstruction_end resources (pre ++ e :: post) p e Lm he
  have h1 : execPrefix resources (pre ++ e :: post) p (pre ++ [e]) L
      = some (releaseAll p Lm, false) := by
    rw [execPrefix_append resources _ p pre [e] L Lm hreach, execPrefix_cons, hend]
  have h2 : execPrefix resources (pre ++ e :: post) p (pre ++ e :: post) L
      = some (releaseAll p Lm, false) := by
    rw [execPrefix_append resources _ p pre (e :: post) L Lm hreach, execPrefix_cons, hend]
  refine ⟨h1, updateNeed resources.length p (releaseAll p Lm), ?_, rfl, ?_, ?_⟩
  · unfold executeProcess
    rw [execLoop_eq_running, h2]
    rfl
  · have htm := execPrefix_touches resources _ p pre L Lm true hreach
    obtain ⟨hA, hAl, hNd, hrA, hrN⟩ := rect_of_touches p nP _ L Lm hL htm hp
    have htr := releaseAll_touches p Lm
    have hR := rect_of_touches p nP _ L (releaseAll p Lm) hL
      (touches_trans p _ _ _ htm htr) hp
    intro j hj
    have hneed := getCell_updateNeed resources.length p j (releaseAll p Lm)
      (by rw [hR.2.2.1]; exact hp) hj (by rw [hR.2.2.2.2]; exact hj)
    have hzero : getCell (updateNeed resources.length p (releaseAll p Lm)).Allocation p j = 0 := by
      rw [updateNeed_eq, releaseAll_eq]
      show getCell (Lm.Allocation.set p _) p j = 0
      rw [getCell_set_row _ _ _ _ (by omega), getD_vecLoop, if_pos ⟨by omega, by omega⟩]
    refine ⟨hzero, ?_, ?_⟩
    · rw [updateNeed_eq, releaseAll_eq]
      show (addVec (Lm.Allocation.getD p []) Lm.Available).getD j 0 = _
      rw [getD_addVec _ _ _ (by omega)]
      rfl
    · rw [hneed, hzero, Int.sub_zero]
  · intro q hq
    rw [((updateNeed_touches resources.length p (releaseAll p Lm)).2.2.2.2.2.2 q hq).1]
    exact ((releaseAll_touches p Lm).2.2.2.2.2.2 q hq).1

/-- C15 on a stream `request(2,1)`, `end`, `request(1,0)`: the process holds `[2, 1]`
at the `end` line, everything goes back to `Available` and the last line does
not run. -/
theorem executeProcess_end_witness :
    execPrefix [⟨"1", ["a", "b"]⟩, ⟨"2", ["c"]⟩] (["request(2,1)"] ++ "end" :: ["request(1,0)"]) 0
        (["request(2,1)"] ++ ["end"]) ⟨[2, 1], [[2, 1]], [[0, 0]], [[2, 1]]⟩
      = some (releaseAll 0 ⟨[0, 0], [[2, 1]], [[2, 1]], [[0, 0]]⟩, false) ∧
    executeProcess [⟨"1", ["a", "b"]⟩, ⟨"2", ["c"]⟩]
        (["request(2,1)"] ++ "end" :: ["request(1,0)"]) 0 ⟨[2, 1], [[2, 1]], [[0, 0]], [[2, 1]]⟩
      = some ⟨[2, 1], [[2, 1]], [[0, 0]], [[2, 1]]⟩ :=
  ⟨(executeProcess_end [⟨"1", ["a", "b"]⟩, ⟨"2", ["c"]⟩] ["request(2,1)"] "end"
      ["request(1,0)"] 1 0 ⟨[2, 1], [[2, 1]], [[0, 0]], [[2, 1]]⟩
      ⟨[0, 0], [[2, 1]], [[2, 1]], [[0, 0]]⟩ (by decide) (by decide) (by decide)
      (by decide)).1, by decide⟩

/-- C16. Denial is terminal and keeps holdings.  Let the instruction loop of
`executeProcess` reach a `request` line with the ledger `Lm`, and let
`requestResources` deny that request.  Then the loop stops at that line, so no
later instruction (an `end` included) has any effect, and when `executeProcess`
returns `Available` and every row of `Allocation` are as in `Lm`: what the process
holds is not released. -/
theorem executeProcess_denied (resources : List ResourceType) (pre : List String) (r : String)
    (post : List String) (args : List Int) (p : Nat) (L Lm : Ledger)
    (hr : isRequestLine r = true) (hargs : parseArgs r = some args)
    (hreach : execPrefix resources (pre ++ r :: post) p pre L = some (Lm, true))
    (hdenied : (requestResources p args Lm).1 = false) :
    execPrefix resources (pre ++ r :: post) p (pre ++ [r]) L = some (Lm, false) ∧
    ∃ L1, executeProcess resources (pre ++ r :: post) p L = some L1 ∧
      L1 = updateNeed resources.length p Lm ∧
      L1.Available = Lm.Available ∧ L1.Allocation = Lm.Allocation := by
  have hreq : execInstruction resources (pre ++ r :: post) p r Lm = some (Lm, false) := by
    rw [execInstruction_request resources _ p r args Lm hr hargs, hdenied,
      requestResources_of_denied p args Lm hdenied]
  have h1 : execPrefix resources (pre ++ r :: post) p (pre ++ [r]) L = some (Lm, false) := by
    rw [execPrefix_append resources _ p pre [r] L Lm hreach, execPrefix_cons, hreq]
  have h2 : execPrefix resources (pre ++ r :: post) p (pre ++ r :: post) L
      = some (Lm, false) := by
    rw [execPrefix_append resources _ p pre (r :: post) L Lm hreach, execPrefix_cons, hreq]
  refine ⟨h1, updateNeed resources.length p Lm, ?_, rfl, ?_, ?_⟩
  · unfold executeProcess
    rw [execLoop_eq_running, h2]
    rfl
  · rw [updateNeed_eq]
  · rw [updateNeed_eq]

/-- C16 on the stream `request(1)`, `request(2)`, `end`: the first request is
granted, the second exceeds the need and is denied, and the unit held stays
allocated. -/
theorem executeProcess_denied_witness :
    execPrefix [⟨"1", ["a", "b"]⟩] (["request(1)"] ++ "request(2)" :: ["end"]) 0
        (["request(1)"] ++ ["request(2)"]) ⟨[2], [[2]], [[0]], [[2]]⟩
      = some (⟨[1], [[2]], [[1]], [[1]]⟩, false) ∧
    executeProcess [⟨"1", ["a", "b"]⟩] (["request(1)"] ++ "request(2)" :: ["end"]) 0
        ⟨[2], [[2]], [[0]], [[2]]⟩
      = some ⟨[1], [[2]], [[1]], [[1]]⟩ :=
  ⟨(executeProcess_denied [⟨"1", ["a", "b"]⟩] ["request(1)"] "request(2)" ["end"] [2] 0
      ⟨[2], [[2]], [[0]], [[2]]⟩ ⟨[1], [[2]], [[1]], [[1]]⟩ (by decide) (by decide)
      (by decide) (by decide)).1, by decide⟩

/-! ## The `use_resources` branch -/

theorem shift_refl (p : Nat) (L : Ledger) : Shift p (fun _ => 0) L L := by
  intro j
  simp only [Int.sub_zero, Int.add_zero, and_self]

theorem shift_trans (p : Nat) (d1 d2 : Nat → Int) (L L1 L2 : Ledger)
    (h1 : Shift p d1 L L1) (h2 : Shift p d2 L1 L2) :
    Shift p (fun j => d1 j + d2 j) L L2 := by
  intro j
  obtain ⟨a1, a2, a3⟩ := h1 j
  obtain ⟨b1, b2, b3⟩ := h2 j
  dsimp only
  refine ⟨?_, ?_, ?_⟩ <;> omega

theorem shift_congr (p : Nat) (d1 d2 : Nat → Int) (L L1 : Ledger) (h : Shift p d1 L L1)
    (hd : ∀ j, d1 j = d2 j) : Shift p d2 L L1 := by
  intro j
  rw [← hd j]
  exact h j

theorem getD_set_of_lt (l : List Int) (i j : Nat) (v : Int) (hi : i < l.length) :
    (l.set i v).getD j 0 = if j = i then v else l.getD j 0 := by
  rw [getD_set_int]
  by_cases hji : j = i
  · rw [if_pos ⟨hji.symm, hi⟩, if_pos hji]
  · rw [if_neg (fun h => hji h.1.symm), if_neg hji]

theorem getCell_setCell (M : List (List Int)) (p i j : Nat) (v : Int) (hp : p < M.length)
    (hi : i < (M.getD p []).length) :
    getCell (setCell M p i v) p j = if j = i then v else getCell M p j := by
  unfold setCell
  rw [getCell_set_row _ _ _ _ hp, getD_set_of_lt _ _ _ _ hi]
  rfl

/-- One iteration of the innermost loop of `use_resources`, with process `p` and
resource type `i` in range: one unit moves when the guard holds. -/
theorem useInstance_shift (instructions : List String) (p i : Nat) (L : Ledger)
    (inst : String) (hi : i < L.Available.length) (hpA : p < L.Allocation.length)
    (hpN : p < L.Need.length) (hrA : i < (L.Allocation.getD p []).length)
    (hrN : i < (L.Need.getD p []).length) :
    Shift p (fun j => if j = i then
        (if 0 < L.Available.getD i 0 ∧ instructions.contains inst = true then 1 else 0)
        else 0) L (useInstance instructions p i L inst) := by
  unfold useInstance
  by_cases hc : 0 < L.Available.getD i 0 ∧ instructions.contains inst = true
  · have hcond : (decide (L.Available.getD i 0 > 0) && instructions.contains inst) = true := by
      simp only [Bool.and_eq_true, decide_eq_true_eq]
      exact hc
    rw [if_pos hcond]
    intro j
    dsimp only
    rw [getD_set_of_lt _ _ _ _ hi, getCell_setCell _ _ _ _ _ hpA hrA,
      getCell_setCell _ _ _ _ _ hpN hrN]
    by_cases hji : j = i
    · simp only [if_pos hji, if_pos hc]
      rw [hji]
      exact ⟨rfl, rfl, rfl⟩
    · simp only [if_neg hji, Int.sub_zero, Int.add_zero, and_self]
  · have hcond : ¬ (decide (L.Available.getD i 0 > 0) && instructions.contains inst) = true := by
      simp only [Bool.and_eq_true, decide_eq_true_eq]
      exact hc
    rw [if_neg hcond]
    apply shift_congr p _ _ L L (shift_refl p L)
    intro j
    dsimp only
    rw [if_neg hc]
    split <;> rfl

theorem unitsTaken_step (a : Int) (m : Nat) (ha : 0 < a) :
    1 + unitsTaken (a - 1) m = unitsTaken a (m + 1) := by
  unfold unitsTaken
  omega

theorem unitsTaken_nonpos (a : Int) (m : Nat) (ha : ¬ 0 < a) : unitsTaken a m = 0 := by
  unfold unitsTaken
  omega

/-- The inner loop of `use_resources` for resource type `i`: it takes
`unitsTaken` units. -/
theorem useInstances_shift (instructions : List String) (p i : Nat) (insts : List String) :
    ∀ (L : Ledger), i < L.Available.length → p < L.Allocation.length → p < L.Need.length →
      i < (L.Allocation.getD p []).length → i < (L.Need.getD p []).length →
      Shift p (fun j => if j = i then
          unitsTaken (L.Available.getD i 0)
            (insts.filter (fun x => instructions.contains x)).length
          else 0) L (insts.foldl (useInstance instructions p i) L) := by
  induction insts with
  | nil =>
    intro L _ _ _ _ _
    apply shift_congr p _ _ L L (shift_refl p L)
    intro j
    dsimp only
    split
    · unfold unitsTaken
      simp only [List.filter_nil, List.length_nil, Nat.cast_zero]
      omega
    · rfl
  | cons x insts ih =>
    intro L hi hpA hpN hrA hrN
    have h1 := useInstance_shift instructions p i L x hi hpA hpN hrA hrN
    have ht := useInstance_touches instructions p i L x
    obtain ⟨_, t2, t3, t4, t5, t6, _⟩ := ht
    have h2 := ih (useInstance instructions p i L x) (by omega) (by omega) (by omega)
      (by rw [t5 p]; exact hrA) (by rw [t6 p]; exact hrN)
    rw [List.foldl_cons]
    apply shift_congr p _ _ L _ (shift_trans p _ _ L _ _ h1 h2)
    intro j
    dsimp only
    by_cases hji : j = i
    · have ha := (h1 i).1
      dsimp only at ha
      simp only [if_pos hji]
      rw [ha, if_pos rfl]
      by_cases hc : 0 < L.Available.getD i 0 ∧ instructions.contains x = true
      · rw [if_pos hc, List.filter_cons_of_pos hc.2, List.length_cons]
        exact unitsTaken_step _ _ hc.1
      · rw [if_neg hc, Int.sub_zero, Int.zero_add]
        by_cases hx : instructions.contains x = true
        · have hneg : ¬ 0 < L.Available.getD i 0 := fun h => hc ⟨h, hx⟩
          rw [unitsTaken_nonpos _ _ hneg, unitsTaken_nonpos _ _ hneg]
        · rw [List.filter_cons_of_neg hx]
    · simp only [if_neg hji]
      rfl

/-- The two nested loops of `use_resources` from resource type `i0` on: of each
resource type `j` they take `unitsTaken` units, computed from `Available[j]` as
it was before and from the number of matching identifiers. -/
theorem useFrom_shift (instructions : List String) (p nR : Nat) (rs : List ResourceType) :
    ∀ (i0 : Nat) (L : Ledger), L.Available.length = nR → p < L.Allocation.length →
      p < L.Need.length → (L.Allocation.getD p []).length = nR →
      (L.Need.getD p []).length = nR → i0 + rs.length ≤ nR →
      Shift p (fun j => if i0 ≤ j ∧ j < i0 + rs.length then
          unitsTaken (L.Available.getD j 0)
            ((rs.map (matchCount instructions)).getD (j - i0) 0)
          else 0) L (useFrom instructions p rs i0 L) := by
  induction rs with
  | nil =>
    intro i0 L _ _ _ _ _ _
    apply shift_congr p _ _ L L (shift_refl p L)
    intro j
    dsimp only
    rw [if_neg (by simp only [List.length_nil]; omega)]
  | cons r rs ih =>
    intro i0 L hA hpA hpN hrA hrN hlen
    simp only [List.length_cons] at hlen
    have h1 := useInstances_shift instructions p i0 r.instances L (by omega) hpA hpN
      (by omega) (by omega)
    have ht : Touches p L (r.instances.foldl (useInstance instructions p i0) L) :=
      useFrom_touches instructions p [r] i0 L
    obtain ⟨_, t2, t3, t4, t5, t6, _⟩ := ht
    have h2 := ih (i0 + 1) (r.instances.foldl (useInstance instructions p i0) L)
      (by omega) (by omega) (by omega) (by rw [t5 p]; exact hrA) (by rw [t6 p]; exact hrN)
      (by omega)
    show Shift p _ L (useFrom instructions p rs (i0 + 1)
      (r.instances.foldl (useInstance instructions p i0) L))
    apply shift_congr p _ _ L _ (shift_trans p _ _ L _ _ h1 h2)
    intro j
    dsimp only
    by_cases hji : j = i0
    · subst hji
      rw [if_pos rfl, if_neg (by omega), if_pos ⟨Nat.le_refl j, by simp only [List.length_cons]; omega⟩,
        Nat.sub_self, List.map_cons, List.getD_cons_zero, Int.add_zero]
      rfl
    · have hA1 := (h1 j).1
      dsimp only at hA1
      rw [if_neg hji, Int.sub_zero] at hA1
      rw [if_neg hji, Int.zero_add, hA1]
      by_cases hc : i0 + 1 ≤ j ∧ j < i0 + 1 + rs.length
      · rw [if_pos hc, if_pos ⟨by omega, by simp only [List.length_cons]; omega⟩]
        have e : j - i0 = (j - (i0 + 1)) + 1 := by omega
        rw [e, List.map_cons, List.getD_cons_succ]
      · rw [if_neg hc, if_neg (by simp only [List.length_cons]; omega)]

theorem execInstruction_use (resources : List ResourceType) (instructions : List String)
    (p : Nat) (u : String) (L : Ledger) (hu : isUseLine u = true) :
    execInstruction resources instructions p u L
      = some (useResourcesStep resources instructions p L, true) := by
  unfold isUseLine at hu
  simp only [Bool.and_eq_true, Bool.not_eq_true'] at hu
  unfold execInstruction
  rw [hu.1.1, hu.1.2, hu.2]
  rfl

/-- C17 as stated fails where `Available[i]` is negative: with `Available = [-1]` and
one matching identifier the code takes no unit (the guard is
`Available[i] > 0`), while `min(Available[i], m_i)` is `-1`. -/
theorem use_min_counterexample :
    matchCount ["use_resources", "a"] ⟨"1", ["a"]⟩ = 1 ∧
    useResourcesStep [⟨"1", ["a"]⟩] ["use_resources", "a"] 0 ⟨[-1], [[1]], [[2]], [[-1]]⟩
      = ⟨[-1], [[1]], [[2]], [[-1]]⟩ ∧
    (useResourcesStep [⟨"1", ["a"]⟩] ["use_resources", "a"] 0
        ⟨[-1], [[1]], [[2]], [[-1]]⟩).Available.getD 0 0
      ≠ (-1 : Int) - min (-1 : Int)
          ((matchCount ["use_resources", "a"] ⟨"1", ["a"]⟩ : Nat) : Int) := by
  decide

/-- C17, amended. `use_resources` is ungated.  On a rectangular ledger, a `use_resources`
line run for an in-range process `p` moves, of every resource type `i`, exactly
`k_i = min(max(Available[i], 0), m_i)` units, `m_i` being the number of instance
identifiers of the type that are whole lines of the stream: `Available[i]`
drops by `k_i`, `Allocation[p][i]` grows by `k_i` and `Need[p][i]` drops by `k_i`.
`k_i` is a function of `Available[i]` and the stream alone, neither `Need` nor
`isSafe` enters; and from an initial ledger one such step yields
`Need[0][0] = -1`. -/
theorem use_resources_ungated (resources : List ResourceType) (instructions : List String)
    (u : String) (nP p : Nat) (L : Ledger) (hL : L.Rect nP resources.length) (hp : p < nP)
    (hu : isUseLine u = true) :
    execInstruction resources instructions p u L
      = some (useResourcesStep resources instructions p L, true) ∧
    (∀ i, i < resources.length →
      (useResourcesStep resources instructions p L).Available.getD i 0
        = L.Available.getD i 0 - unitsTaken (L.Available.getD i 0)
            ((resources.map (matchCount instructions)).getD i 0) ∧
      getCell (useResourcesStep resources instructions p L).Allocation p i
        = getCell L.Allocation p i + unitsTaken (L.Available.getD i 0)
            ((resources.map (matchCount instructions)).getD i 0) ∧
      getCell (useResourcesStep resources instructions p L).Need p i
        = getCell L.Need p i - unitsTaken (L.Available.getD i 0)
            ((resources.map (matchCount instructions)).getD i 0)) ∧
    (initializeDataStructures [⟨"1", ["a"]⟩] [⟨1, 0, 0, ["use_resources", "a"]⟩]
        = some ⟨[1], [[0]], [[0]], [[0]]⟩ ∧
      getCell (useResourcesStep [⟨"1", ["a"]⟩] ["use_resources", "a"] 0
        ⟨[1], [[0]], [[0]], [[0]]⟩).Need 0 0 = -1) := by
  refine ⟨execInstruction_use resources instructions p u L hu, fun i hi => ?_, by decide⟩
  obtain ⟨hA, _, hAl, hNd, _, hAlr, hNdr⟩ := hL
  have hrA := row_length_of_mem L.Allocation resources.length p hAlr (by omega)
  have hrN := row_length_of_mem L.Need resources.length p hNdr (by omega)
  have h := useFrom_shift instructions p resources.length resources 0 L hA (by omega)
    (by omega) hrA hrN (by omega) i
  dsimp only at h
  rw [if_pos ⟨Nat.zero_le i, by omega⟩, Nat.sub_zero] at h
  exact h

/-- C17 amended, on two resource types: three units of the first type are available
and two of its identifiers are lines of the stream, none of the second type is
available; two units of the first type move although the need is zero. -/
theorem use_resources_ungated_witness :
    useResourcesStep [⟨"1", ["a", "b", "c"]⟩, ⟨"2", ["d"]⟩] ["use_resources", "a", "c", "d"] 0
        ⟨[3, 0], [[0, 0]], [[0, 0]], [[0, 0]]⟩
      = ⟨[1, 0], [[0, 0]], [[2, 0]], [[-2, 0]]⟩ ∧
    unitsTaken 3 (matchCount ["use_resources", "a", "c", "d"] ⟨"1", ["a", "b", "c"]⟩) = 2 ∧
    execInstruction [⟨"1", ["a", "b", "c"]⟩, ⟨"2", ["d"]⟩] ["use_resources", "a", "c", "d"] 0
        "use_resources" ⟨[3, 0], [[0, 0]], [[0, 0]], [[0, 0]]⟩
      = some (useResourcesStep [⟨"1", ["a", "b", "c"]⟩, ⟨"2", ["d"]⟩]
          ["use_resources", "a", "c", "d"] 0 ⟨[3, 0], [[0, 0]], [[0, 0]], [[0, 0]]⟩, true) :=
  ⟨by decide, by decide,
    (use_resources_ungated [⟨"1", ["a", "b", "c"]⟩, ⟨"2", ["d"]⟩]
      ["use_resources", "a", "c", "d"] "use_resources" 1 0
      ⟨[3, 0], [[0, 0]], [[0, 0]], [[0, 0]]⟩ (by decide) (by decide) (by decide)).1⟩

/-- A negative `Available` is reachable with non-negative amounts only.  One
resource type with one instance; process 1 runs `release(1)`, `request(0)`,
`end` and process 2 runs `request(2)`.  In `runBankersAlgorithm` process 1
releases a unit it does not hold and is denied before its `end`, process 2 is
granted both units; when `runEDFScheduling` then runs process 1 again, its
`end` gives back the row `[-2]` while one unit is available. -/
theorem available_negative_reachable :
    runBankersAlgorithm [⟨"1", ["a"]⟩]
        [⟨1, 1, 0, ["release(1)", "request(0)", "end"]⟩, ⟨2, 2, 0, ["request(2)"]⟩]
      = some ⟨[0], [[0], [2]], [[-1], [2]], [[1], [0]]⟩ ∧
    executeProcess [⟨"1", ["a"]⟩] ["release(1)", "request(0)", "end"] 0
        ⟨[0], [[0], [2]], [[-1], [2]], [[1], [0]]⟩
      = some ⟨[-1], [[0], [2]], [[0], [2]], [[0], [0]]⟩ ∧
    (runEDFScheduling insertionSortByDeadline [⟨"1", ["a"]⟩]
        [⟨1, 1, 0, ["release(1)", "request(0)", "end"]⟩, ⟨2, 2, 0, ["request(2)"]⟩]
        ⟨[0], [[0], [2]], [[-1], [2]], [[1], [0]]⟩).map (fun r => (r.1, r.2.Available))
      = some ([1, 2], [-1]) := by
  decide

/-! ## Releasing keeps a safe state safe -/

theorem releaseResources_rect (L : Ledger) (nP nR p : Nat) (amounts : List Int)
    (hL : L.Rect nP nR) (hp : p < nP) : (releaseResources p amounts L).Rect nP nR := by
  obtain ⟨hA, hMx, hAl, hNd, hMxr, hAlr, hNdr⟩ := hL
  have hrA := row_length_of_mem L.Allocation nR p hAlr (by omega)
  have hrN := row_length_of_mem L.Need nR p hNdr (by omega)
  rw [releaseResources_eq]
  refine ⟨?_, hMx, ?_, ?_, hMxr, ?_, ?_⟩
  · rw [length_addVec]; exact hA
  · rw [List.length_set]; exact hAl
  · rw [List.length_set]; exact hNd
  · exact mem_set_row _ _ _ _ hAlr (by rw [length_subVec]; exact hrA)
  · exact mem_set_row _ _ _ _ hNdr (by rw [length_addVec]; exact hrN)

/-- The cells of the ledger after `releaseResources`, at every index. -/
theorem releaseResources_cells (L : Ledger) (nP nR p : Nat) (amounts : List Int)
    (hL : L.Rect nP nR) (hp : p < nP) (hlen : amounts.length = nR) :
    (∀ j, (releaseResources p amounts L).Available.getD j 0
        = L.Available.getD j 0 + amounts.getD j 0) ∧
    (∀ j, getCell (releaseResources p amounts L).Allocation p j
        = getCell L.Allocation p j - amounts.getD j 0) ∧
    (∀ j, getCell (releaseResources p amounts L).Need p j
        = getCell L.Need p j + amounts.getD j 0) ∧
    (∀ q, q ≠ p →
      (releaseResources p amounts L).Allocation.getD q [] = L.Allocation.getD q [] ∧
      (releaseResources p amounts L).Need.getD q [] = L.Need.getD q []) := by
  obtain ⟨hA, hMx, hAl, hNd, hMxr, hAlr, hNdr⟩ := hL
  have hrA := row_length_of_mem L.Allocation nR p hAlr (by omega)
  have hrN := row_length_of_mem L.Need nR p hNdr (by omega)
  rw [releaseResources_eq]
  refine ⟨?_, ?_, ?_, ?_⟩
  · intro j
    exact getD_addVec _ _ _ (by omega)
  · intro j
    rw [getCell_set_row _ _ _ _ (by omega), getD_subVec _ _ _ (by omega)]; rfl
  · intro j
    rw [getCell_set_row _ _ _ _ (by omega), getD_addVec _ _ _ (by omega)]; rfl
  · intro q hq
    exact ⟨getD_set_row_ne _ _ _ _ (Ne.symm hq), getD_set_row_ne _ _ _ _ (Ne.symm hq)⟩

/-- A safe ordering stays safe on a ledger that agrees on the rows of its
processes, from a `Work` vector that is nowhere smaller. -/
theorem safeSeq_mono (L L1 : Ledger) (nP nR p : Nat) (hL : L.Rect nP nR) (hL1 : L1.Rect nP nR)
    (hrows : ∀ q, q ≠ p → L1.Allocation.getD q [] = L.Allocation.getD q [] ∧
      L1.Need.getD q [] = L.Need.getD q []) (order : List Nat) :
    ∀ W W1 : List Int, W.length = nR → W1.length = nR → (∀ q ∈ order, q < nP) → p ∉ order →
      (∀ j, W.getD j 0 ≤ W1.getD j 0) → SafeSeq L order W → SafeSeq L1 order W1 := by
  induction order with
  | nil => intro _ _ _ _ _ _ _ _; trivial
  | cons q order ih =>
    intro W W1 hW hW1 hlt hp hle hs
    have hq : q ≠ p := fun h => hp (h ▸ List.mem_cons_self _ _)
    have hqn : q < nP := hlt q (List.mem_cons_self _ _)
    obtain ⟨h1, h2⟩ := hs
    have hrow := row_length_of_mem L.Allocation nR q hL.2.2.2.2.2.1
      (by rw [hL.2.2.1]; exact hqn)
    show (_ ∧ _)
    refine ⟨?_, ?_⟩
    · intro j hj
      rw [hL1.1, ← hL.1] at hj
      have := h1 j hj
      unfold getCell at this ⊢
      rw [(hrows q hq).2]
      exact le_trans this (hle j)
    · rw [(hrows q hq).1]
      apply ih _ _ ?_ ?_ (fun x hx => hlt x (List.mem_cons_of_mem _ hx))
        (fun h => hp (List.mem_cons_of_mem _ h)) ?_ h2
      · rw [List.length_zipWith, hW, hrow, Nat.min_self]
      · rw [List.length_zipWith, hW1, hrow, Nat.min_self]
      · intro j
        rw [← addVec_eq_zipWith _ W (by omega), ← addVec_eq_zipWith _ W1 (by omega),
          getD_addVec _ _ _ (by omega), getD_addVec _ _ _ (by omega)]
        have := hle j
        omega

/-- A safe ordering of `L` is a safe ordering of a ledger `L1` in which process
`p` has handed `a j` units of every resource type `j` back to `Available`. -/
theorem safeSeq_transfer (L L1 : Ledger) (nP nR p : Nat) (a : Nat → Int)
    (hL : L.Rect nP nR) (hL1 : L1.Rect nP nR) (hp : p < nP) (ha : ∀ j, 0 ≤ a j)
    (hA1 : ∀ j, L1.Available.getD j 0 = L.Available.getD j 0 + a j)
    (hAl1 : ∀ j, getCell L1.Allocation p j = getCell L.Allocation p j - a j)
    (hN1 : ∀ j, getCell L1.Need p j = getCell L.Need p j + a j)
    (hrows : ∀ q, q ≠ p → L1.Allocation.getD q [] = L.Allocation.getD q [] ∧
      L1.Need.getD q [] = L.Need.getD q [])
    (order : List Nat) (hperm : order.Perm (List.range nP))
    (hseq : SafeSeq L order L.Available) : SafeSeq L1 order L1.Available := by
  have hmem : p ∈ order := hperm.mem_iff.mpr (List.mem_range.mpr hp)
  have hnd : order.Nodup := hperm.nodup_iff.mpr (List.nodup_range nP)
  have hlt : ∀ q ∈ order, q < nP := fun q hq => List.mem_range.mp (hperm.mem_iff.mp hq)
  obtain ⟨s, t, rfl⟩ := List.append_of_mem hmem
  rw [List.nodup_middle, List.nodup_cons, List.mem_append] at hnd
  have hps : p ∉ s := fun h => hnd.1 (Or.inl h)
  have hpt : p ∉ t := fun h => hnd.1 (Or.inr h)
  have hslt : ∀ q ∈ s, q < nP := fun q hq => hlt q (List.mem_append_left _ hq)
  have htlt : ∀ q ∈ t, q < nP :=
    fun q hq => hlt q (List.mem_append_right _ (List.mem_cons_of_mem _ hq))
  have hsum : ∀ j, (s.map (fun i => getCell L1.Allocation i j)).sum
      = (s.map (fun i => getCell L.Allocation i j)).sum := by
    intro j
    congr 1
    apply List.map_congr_left
    intro i hi
    unfold getCell
    rw [(hrows i (fun h => hps (h ▸ hi))).1]
  rw [safeSeq_append] at hseq ⊢
  obtain ⟨hs1, hs2, hs3⟩ := hseq
  refine ⟨safeSeq_mono L L1 nP nR p hL hL1 hrows s _ _ hL.1 hL1.1 hslt hps
    (fun j => by rw [hA1]; have := ha j; omega) hs1, ?_⟩
  show (_ ∧ _)
  refine ⟨?_, ?_⟩
  · intro j hj
    rw [hL1.1, ← hL.1] at hj
    have h := hs2 j hj
    rw [getD_workAfter L nP nR hL j s _ hL.1 hslt] at h
    rw [getD_workAfter L1 nP nR hL1 j s _ hL1.1 hslt, hN1, hA1, hsum]
    omega
  · have e : List.zipWith (fun a b => a + b) (workAfter L s L.Available)
        (L.Allocation.getD p []) = workAfter L (s ++ [p]) L.Available := by
      rw [workAfter_append]; rfl
    have e1 : List.zipWith (fun a b => a + b) (workAfter L1 s L1.Available)
        (L1.Allocation.getD p []) = workAfter L1 (s ++ [p]) L1.Available := by
      rw [workAfter_append]; rfl
    have hsp : ∀ q ∈ s ++ [p], q < nP := by
      intro q hq
      rcases List.mem_append.mp hq with h | h
      · exact hslt q h
      · rw [List.mem_singleton.mp h]; exact hp
    rw [e] at hs3
    rw [e1]
    apply safeSeq_mono L L1 nP nR p hL hL1 hrows t _ _
      (length_workAfter L nP nR hL _ _ hL.1 hsp)
      (length_workAfter L1 nP nR hL1 _ _ hL1.1 hsp) htlt hpt ?_ hs3
    intro j
    rw [getD_workAfter L nP nR hL j _ _ hL.1 hsp,
      getD_workAfter L1 nP nR hL1 j _ _ hL1.1 hsp, List.map_append, List.map_append,
      List.sum_append, List.sum_append, hsum, hA1]
    simp only [List.map_cons, List.map_nil, List.sum_cons, List.sum_nil]
    rw [hAl1]
    omega

/-- C20. Release preserves safety: on a rectangular ledger whose `Allocation`
entries are all non-negative and for which `isSafe()` returns true, after
`releaseResources(p, amounts)` for an in-range process `p` and amounts with
`0 <= amounts[j] <= Allocation[p][j]` for every resource type `j`, `isSafe()`
returns true again. -/
theorem release_preserves_safety (L : Ledger) (nP nR p : Nat) (amounts : List Int)
    (hL : L.Rect nP nR)
    (hpos : ∀ i, i < nP → ∀ j, j < nR → 0 ≤ getCell L.Allocation i j)
    (hsafe : isSafe L = true) (hp : p < nP) (hlen : amounts.length = nR)
    (hamt : ∀ j, j < nR →
      0 ≤ amounts.getD j 0 ∧ amounts.getD j 0 ≤ getCell L.Allocation p j) :
    isSafe (releaseResources p amounts L) = true := by
  have hL1 := releaseResources_rect L nP nR p amounts hL hp
  obtain ⟨hA1, hAl1, hN1, hrows⟩ := releaseResources_cells L nP nR p amounts hL hp hlen
  have ha : ∀ j, 0 ≤ amounts.getD j 0 := by
    intro j
    by_cases hj : j < nR
    · exact (hamt j hj).1
    · rw [getD_of_length_le amounts j (by omega)]
  have hnn := getCell_nonneg_of_bounded L nP nR hL hpos
  have hnn1 := getCell_nonneg_of_bounded (releaseResources p amounts L) nP nR hL1 (by
    intro i hi j hj
    by_cases hip : i = p
    · rw [hip, hAl1]
      have := (hamt j hj).2
      omega
    · unfold getCell
      rw [(hrows i hip).1]
      exact hpos i hi j hj)
  obtain ⟨order, hperm, hseq⟩ := (isSafe_eq_true_iff L nP nR hL hnn).mp hsafe
  exact (isSafe_eq_true_iff _ nP nR hL1 hnn1).mpr
    ⟨order, hperm, safeSeq_transfer L _ nP nR p (fun j => amounts.getD j 0) hL hL1 hp ha
      hA1 hAl1 hN1 hrows order hperm hseq⟩

/-- C20 on two processes and two resource types: process 0 gives back `[1, 2]`
of its holdings `[2, 2]` in a safe state, and the state is safe afterwards. -/
theorem release_preserves_safety_witness :
    isSafe ⟨[0, 1], [[3, 3], [1, 1]], [[2, 2], [1, 0]], [[1, 1], [0, 1]]⟩ = true ∧
    isSafe (releaseResources 0 [1, 2]
      ⟨[0, 1], [[3, 3], [1, 1]], [[2, 2], [1, 0]], [[1, 1], [0, 1]]⟩) = true :=
  ⟨by decide,
    release_preserves_safety ⟨[0, 1], [[3, 3], [1, 1]], [[2, 2], [1, 0]], [[1, 1], [0, 1]]⟩
      2 2 0 [1, 2] (by decide) (by decide) (by decide) (by decide) (by decide) (by decide)⟩

/-! ## Equal deadlines in `runEDFScheduling` -/

theorem mem_linearInsertScan (lt : Int × Int → Int × Int → Bool) (v y : Int × Int)
    (r : List (Int × Int)) : y ∈ linearInsertScan lt v r ↔ y = v ∨ y ∈ r := by
  induction r with
  | nil => simp [linearInsertScan]
  | cons x r ih =>
    unfold linearInsertScan
    by_cases h : lt v x = true
    · rw [if_pos h, List.mem_cons, ih, List.mem_cons]
      constructor
      · rintro (h1 | h1 | h1)
        · exact Or.inr (Or.inl h1)
        · exact Or.inl h1
        · exact Or.inr (Or.inr h1)
      · rintro (h1 | h1 | h1)
        · exact Or.inr (Or.inl h1)
        · exact Or.inl h1
        · exact Or.inr (Or.inr h1)
    · rw [if_neg h, List.mem_cons]

/-- The scan of `std::__unguarded_linear_insert` keeps the entries of every
deadline in their order, the inserted entry being the nearest. -/
theorem filter_linearInsertScan (v : Int × Int) (d : Int) (r : List (Int × Int)) :
    (linearInsertScan edfLess v r).filter (fun e => decide (e.2 = d))
      = (v :: r).filter (fun e => decide (e.2 = d)) := by
  induction r with
  | nil => rfl
  | cons x r ih =>
    unfold linearInsertScan
    by_cases h : edfLess v x = true
    · rw [if_pos h, List.filter_cons, ih]
      unfold edfLess at h
      simp only [decide_eq_true_eq] at h
      by_cases hv : v.2 = d
      · have hx : ¬ x.2 = d := by omega
        simp [List.filter_cons, hv, hx]
      · simp [List.filter_cons, hv]
    · rw [if_neg h]

/-- The scan of `std::__unguarded_linear_insert` over a segment that is sorted
leaves a sorted segment. -/
theorem sorted_linearInsertScan (v : Int × Int) (r : List (Int × Int))
    (hr : r.Pairwise (fun a b => b.2 ≤ a.2)) :
    (linearInsertScan edfLess v r).Pairwise (fun a b => b.2 ≤ a.2) := by
  induction r with
  | nil => simp [linearInsertScan]
  | cons x r ih =>
    unfold linearInsertScan
    by_cases h : edfLess v x = true
    · rw [if_pos h]
      unfold edfLess at h
      simp only [decide_eq_true_eq] at h
      refine List.Pairwise.cons ?_ (ih (List.Pairwise.of_cons hr))
      intro y hy
      rcases (mem_linearInsertScan edfLess v y r).mp hy with h1 | h1
      · rw [h1]; omega
      · exact List.rel_of_pairwise_cons hr h1
    · rw [if_neg h]
      unfold edfLess at h
      simp only [decide_eq_true_eq] at h
      refine List.Pairwise.cons ?_ hr
      intro y hy
      rcases List.mem_cons.mp hy with h1 | h1
      · rw [h1]; omega
      · have := List.rel_of_pairwise_cons hr h1
        omega

/-- One step of `std::__insertion_sort` on a sorted segment keeps it sorted and
puts the new entry after the entries of its deadline. -/
theorem insertionSortStep_spec (acc : List (Int × Int)) (v : Int × Int)
    (hacc : acc.Pairwise (fun a b => a.2 ≤ b.2)) :
    (insertionSortStep edfLess acc v).Pairwise (fun a b => a.2 ≤ b.2) ∧
    ∀ d, (insertionSortStep edfLess acc v).filter (fun e => decide (e.2 = d))
      = (acc ++ [v]).filter (fun e => decide (e.2 = d)) := by
  have hscan : (unguardedLinearInsert edfLess v acc).Pairwise (fun a b => a.2 ≤ b.2) ∧
      ∀ d, (unguardedLinearInsert edfLess v acc).filter (fun e => decide (e.2 = d))
        = (acc ++ [v]).filter (fun e => decide (e.2 = d)) := by
    unfold unguardedLinearInsert
    refine ⟨?_, ?_⟩
    · rw [List.pairwise_reverse]
      exact sorted_linearInsertScan v acc.reverse (List.pairwise_reverse.mpr hacc)
    · intro d
      rw [List.filter_reverse, filter_linearInsertScan, ← List.filter_reverse,
        List.reverse_cons, List.reverse_reverse]
  cases acc with
  | nil => exact ⟨by simp [insertionSortStep], fun d => rfl⟩
  | cons f rest =>
    unfold insertionSortStep
    dsimp only
    by_cases h : edfLess v f = true
    · rw [if_pos h]
      unfold edfLess at h
      simp only [decide_eq_true_eq] at h
      have hall : ∀ y ∈ f :: rest, v.2 < y.2 := by
        intro y hy
        rcases List.mem_cons.mp hy with h1 | h1
        · rw [h1]; exact h
        · have := List.rel_of_pairwise_cons hacc h1
          omega
      refine ⟨List.Pairwise.cons (fun y hy => by have := hall y hy; omega) hacc, ?_⟩
      intro d
      rw [List.filter_append]
      by_cases hv : v.2 = d
      · have hnil : (f :: rest).filter (fun e => decide (e.2 = d)) = [] := by
          rw [List.filter_eq_nil_iff]
          intro y hy
          have := hall y hy
          simp only [decide_eq_true_eq]
          omega
        rw [List.filter_cons, hnil]
        simp [hv]
      · rw [List.filter_cons]
        simp [hv]
    · rw [if_neg h]
      exact hscan

theorem insertionSortFold_spec (rest : List (Int × Int)) :
    ∀ acc : List (Int × Int), acc.Pairwise (fun a b => a.2 ≤ b.2) →
      ∀ d, (rest.foldl (insertionSortStep edfLess) acc).filter (fun e => decide (e.2 = d))
        = (acc ++ rest).filter (fun e => decide (e.2 = d)) := by
  induction rest with
  | nil => intro acc _ d; simp
  | cons v rest ih =>
    intro acc hacc d
    obtain ⟨h1, h2⟩ := insertionSortStep_spec acc v hacc
    rw [List.foldl_cons, ih _ h1 d, List.filter_append, h2 d, ← List.filter_append,
      List.append_assoc]
    rfl

/-- The routine `std::__insertion_sort` keeps the entries of every deadline in
the order in which they came. -/
theorem insertionSortRange_stable (l : List (Int × Int)) (d : Int) :
    (insertionSortRange edfLess l).filter (fun e => decide (e.2 = d))
      = l.filter (fun e => decide (e.2 = d)) := by
  cases l with
  | nil => rfl
  | cons x rest =>
    exact insertionSortFold_spec rest [x] (List.pairwise_singleton _ _) d

/-- On at most 16 elements `std::sort` is `std::__insertion_sort`: the loop of
`std::__introsort_loop` is not entered. -/
theorem stdSort_of_length_le (lt : Int × Int → Int × Int → Bool) (a : List (Int × Int))
    (h : a.length ≤ 16) : stdSort lt a = insertionSortRange lt a := by
  unfold stdSort
  cases a with
  | nil => rfl
  | cons x rest =>
    have e : introsortLoop lt (x :: rest).length (x :: rest) 0 (x :: rest).length
        (stdLg (x :: rest).length * 2) = x :: rest := by
      rw [List.length_cons, introsortLoop, if_neg (by rw [List.length_cons] at h; omega)]
    rw [e]
    unfold finalInsertionSort
    rw [if_neg (not_lt.mpr h)]
    rfl

/-- When a sort keeps the entries of every deadline in their order and the
input is in ascending id order, entries of equal deadline come out in ascending
id order. -/
theorem ties_ascending_of_filter (l out : List (Int × Int))
    (hst : ∀ d, out.filter (fun e => decide (e.2 = d)) = l.filter (fun e => decide (e.2 = d)))
    (hl : l.Pairwise (fun x y => x.1 < y.1)) :
    out.Pairwise (fun a b => a.2 = b.2 → a.1 < b.1) := by
  rw [List.pairwise_iff_forall_sublist]
  intro a b hsub heq
  have h1 := hsub.filter (fun x => decide (x.2 = a.2))
  rw [hst] at h1
  have h2 : [a, b].filter (fun x => decide (x.2 = a.2)) = [a, b] := by
    simp [List.filter_cons, heq]
  rw [h2] at h1
  have h3 := List.Pairwise.sublist (h1.trans (List.filter_sublist _)) hl
  exact List.rel_of_pairwise_cons h3 (List.mem_cons_self b [])

set_option maxRecDepth 100000

/-- C11 as stated fails.  Seventeen processes, ids 1 to 17 collected in ascending
order, all have the deadline 5.  On more than 16 elements `std::sort` partitions
the vector before the insertion passes, and `runEDFScheduling` executes process
9 first and then the processes 17 down to 10 before process 1: larger ids run
before smaller ids of the same deadline. -/
theorem edf_tie_counterexample :
    (runEDFScheduling (stdSort edfLess) [⟨"1", ["a"]⟩]
      [⟨1, 5, 1, ["request(1)", "end"]⟩,
        ⟨2, 5, 1, ["request(1)", "end"]⟩,
        ⟨3, 5, 1, ["request(1)", "end"]⟩,
        ⟨4, 5, 1, ["request(1)", "end"]⟩,
        ⟨5, 5, 1, ["request(1)", "end"]⟩,
        ⟨6, 5, 1, ["request(1)", "end"]⟩,
        ⟨7, 5, 1, ["request(1)", "end"]⟩,
        ⟨8, 5, 1, ["request(1)", "end"]⟩,
        ⟨9, 5, 1, ["request(1)", "end"]⟩,
        ⟨10, 5, 1, ["request(1)", "end"]⟩,
        ⟨11, 5, 1, ["request(1)", "end"]⟩,
        ⟨12, 5, 1, ["request(1)", "end"]⟩,
        ⟨13, 5, 1, ["request(1)", "end"]⟩,
        ⟨14, 5, 1, ["request(1)", "end"]⟩,
        ⟨15, 5, 1, ["request(1)", "end"]⟩,
        ⟨16, 5, 1, ["request(1)", "end"]⟩,
        ⟨17, 5, 1, ["request(1)", "end"]⟩]
      ⟨[1],
        [[1], [1], [1], [1], [1], [1], [1], [1], [1], [1], [1], [1], [1], [1], [1], [1], [1]],
        [[0], [0], [0], [0], [0], [0], [0], [0], [0], [0], [0], [0], [0], [0], [0], [0], [0]],
        [[1], [1], [1], [1], [1], [1], [1], [1], [1], [1], [1], [1], [1], [1], [1], [1], [1]]⟩).map Prod.fst
      = some [9, 17, 16, 15, 14, 13, 12, 11, 10, 1, 8, 7, 6, 5, 4, 3, 2] := by
  decide

/-- C11, amended.  Let there be at most 16 processes, collected in ascending id
order as the iteration over the map does.  `std::sort` is then one
`std::__insertion_sort` pass, and in the order of `sortedProcesses`, of two
processes with equal deadlines the one with the smaller id comes first;
whenever `runEDFScheduling` runs to its end the ids on which it called
`executeProcess`, in order, are exactly that sequence. -/
theorem runEDFScheduling_ties_short (resources : List ResourceType) (processes : List Process)
    (hlen : processes.length ≤ 16)
    (hasc : (processes.map (fun q => q.pid)).Pairwise (fun x y => x < y)) :
    ((sortedProcesses (stdSort edfLess) processes).map Prod.fst).Pairwise (fun x y =>
      (lookupProcess processes x).deadline = (lookupProcess processes y).deadline → x < y) ∧
    ∀ (L : Ledger) (trace : List Int) (L1 : Ledger),
      runEDFScheduling (stdSort edfLess) resources processes L = some (trace, L1) →
      trace = (sortedProcesses (stdSort edfLess) processes).map Prod.fst := by
  have hnodup : (processes.map (fun q => q.pid)).Nodup :=
    hasc.imp (fun h => ne_of_lt h)
  have hl : (processes.map (fun q => (q.pid, q.deadline))).Pairwise
      (fun x y => x.1 < y.1) := by
    rw [List.pairwise_map] at hasc ⊢
    exact hasc
  have hstable : ∀ d,
      (stdSort edfLess (processes.map (fun q => (q.pid, q.deadline)))).filter
          (fun e => decide (e.2 = d))
        = (processes.map (fun q => (q.pid, q.deadline))).filter
          (fun e => decide (e.2 = d)) := by
    intro d
    rw [stdSort_of_length_le edfLess _ (by rw [List.length_map]; exact hlen)]
    exact insertionSortRange_stable _ d
  have hsubset : ∀ e ∈ stdSort edfLess (processes.map (fun q => (q.pid, q.deadline))),
      e ∈ processes.map (fun q => (q.pid, q.deadline)) := by
    intro e he
    have h1 : e ∈ (stdSort edfLess (processes.map (fun q => (q.pid, q.deadline)))).filter
        (fun x => decide (x.2 = e.2)) := List.mem_filter.mpr ⟨he, by simp⟩
    rw [hstable] at h1
    exact (List.mem_filter.mp h1).1
  have hentry : ∀ e ∈ stdSort edfLess (processes.map (fun q => (q.pid, q.deadline))),
      (lookupProcess processes e.1).deadline = e.2 := by
    intro e he
    obtain ⟨q, hq, rfl⟩ := List.mem_map.mp (hsubset e he)
    show (lookupProcess processes q.pid).deadline = q.deadline
    rw [lookupProcess_of_mem processes hnodup q hq]
  refine ⟨?_, ?_⟩
  · unfold sortedProcesses
    rw [List.pairwise_map]
    refine List.Pairwise.imp_of_mem ?_ (ties_ascending_of_filter _ _ hstable hl)
    intro a b ha hb hab heq
    rw [hentry a ha, hentry b hb] at heq
    exact hab heq
  · intro L trace L1 h
    unfold runEDFScheduling at h
    have := edfLoop_trace resources processes _ [] L trace L1 h
    rw [this]; simp

/-- C11 amended, on three processes of which 1 and 3 share the deadline 5:
`runEDFScheduling` executes them in the order `[2, 1, 3]`. -/
theorem runEDFScheduling_ties_short_witness :
    (runEDFScheduling (stdSort edfLess) [⟨"1", ["a"]⟩]
      [⟨1, 5, 0, ["request(1)", "end"]⟩, ⟨2, 1, 0, ["request(1)", "end"]⟩,
        ⟨3, 5, 0, ["request(1)", "end"]⟩]
      ⟨[1], [[1], [1], [1]], [[0], [0], [0]], [[1], [1], [1]]⟩).map Prod.fst
        = some [2, 1, 3] ∧
    ((sortedProcesses (stdSort edfLess)
      [⟨1, 5, 0, ["request(1)", "end"]⟩, ⟨2, 1, 0, ["request(1)", "end"]⟩,
        ⟨3, 5, 0, ["request(1)", "end"]⟩]).map Prod.fst).Pairwise (fun x y =>
      (lookupProcess [⟨1, 5, 0, ["request(1)", "end"]⟩, ⟨2, 1, 0, ["request(1)", "end"]⟩,
        ⟨3, 5, 0, ["request(1)", "end"]⟩] x).deadline =
      (lookupProcess [⟨1, 5, 0, ["request(1)", "end"]⟩, ⟨2, 1, 0, ["request(1)", "end"]⟩,
        ⟨3, 5, 0, ["request(1)", "end"]⟩] y).deadline → x < y) :=
  ⟨by decide,
    (runEDFScheduling_ties_short [⟨"1", ["a"]⟩]
      [⟨1, 5, 0, ["request(1)", "end"]⟩, ⟨2, 1, 0, ["request(1)", "end"]⟩,
        ⟨3, 5, 0, ["request(1)", "end"]⟩]
      (by decide) (by decide)).1⟩

/-! ## The priority queue of `runLLFScheduling` -/

theorem pairLess_eq_false_iff (x m : Int × Int) : pairLess x m = false ↔ pairLe m x := by
  unfold pairLess pairLe
  simp only [Bool.or_eq_false_iff, Bool.and_eq_false_imp, Bool.not_eq_true',
    decide_eq_false_iff_not, decide_eq_true_eq]
  omega

theorem pairLe_refl (a : Int × Int) : pairLe a a := by
  unfold pairLe; omega

theorem pairLe_trans (a b c : Int × Int) (h1 : pairLe a b) (h2 : pairLe b c) : pairLe a c := by
  unfold pairLe at *; omega

theorem pairLe_antisymm (a b : Int × Int) (h1 : pairLe a b) (h2 : pairLe b a) : a = b := by
  unfold pairLe at *
  apply Prod.ext <;> omega

theorem foldl_min_spec (q : List (Int × Int)) :
    ∀ e, (q.foldl (fun m x => if pairLess x m then x else m) e = e ∨
        q.foldl (fun m x => if pairLess x m then x else m) e ∈ q) ∧
      pairLe (q.foldl (fun m x => if pairLess x m then x else m) e) e ∧
      ∀ x ∈ q, pairLe (q.foldl (fun m x => if pairLess x m then x else m) e) x := by
  induction q with
  | nil => intro e; exact ⟨Or.inl rfl, pairLe_refl e, fun x hx => by cases hx⟩
  | cons a q ih =>
    intro e
    rw [List.foldl_cons]
    obtain ⟨h1, h2, h3⟩ := ih (if pairLess a e then a else e)
    have hae : pairLe (if pairLess a e then a else e) a ∧
        pairLe (if pairLess a e then a else e) e := by
      cases hc : pairLess a e
      · rw [if_neg (by simp)]
        exact ⟨(pairLess_eq_false_iff a e).mp hc, pairLe_refl e⟩
      · rw [if_pos rfl]
        refine ⟨pairLe_refl a, ?_⟩
        unfold pairLess at hc
        unfold pairLe
        simp only [Bool.or_eq_true, Bool.and_eq_true, Bool.not_eq_true',
          decide_eq_false_iff_not, decide_eq_true_eq] at hc
        omega
    refine ⟨?_, pairLe_trans _ _ _ h2 hae.2, ?_⟩
    · rcases h1 with h1 | h1
      · rw [h1]
        cases hc : pairLess a e
        · rw [if_neg (by simp)]; exact Or.inl rfl
        · rw [if_pos rfl]; exact Or.inr (List.mem_cons_self _ _)
      · exact Or.inr (List.mem_cons_of_mem _ h1)
    · intro x hx
      rcases List.mem_cons.mp hx with hx | hx
      · rw [hx]; exact pairLe_trans _ _ _ h2 hae.1
      · exact h3 x hx

theorem pqTop_spec (pq : List (Int × Int)) (m : Int × Int) (h : pqTop pq = some m) :
    m ∈ pq ∧ ∀ x ∈ pq, pairLe m x := by
  cases pq with
  | nil => cases h
  | cons e q =>
    have hm : q.foldl (fun m x => if pairLess x m then x else m) e = m := Option.some.inj h
    obtain ⟨h1, h2, h3⟩ := foldl_min_spec q e
    rw [hm] at h1 h2 h3
    refine ⟨?_, ?_⟩
    · rcases h1 with h1 | h1
      · rw [h1]; exact List.mem_cons_self _ _
      · exact List.mem_cons_of_mem _ h1
    · intro x hx
      rcases List.mem_cons.mp hx with hx | hx
      · rw [hx]; exact h2
      · exact h3 x hx

theorem pqTop_eq_none (pq : List (Int × Int)) (h : pqTop pq = none) : pq = [] := by
  cases pq with
  | nil => rfl
  | cons e q => cases h

theorem pqPop_eq (pq : List (Int × Int)) (m : Int × Int) (h : pqTop pq = some m) :
    pqPop pq = pq.erase m := by
  unfold pqPop
  rw [h]

theorem perm_cons_erase_entry (m : Int × Int) (pq : List (Int × Int)) (h : m ∈ pq) :
    pq.Perm (m :: pq.erase m) := by
  induction pq with
  | nil => cases h
  | cons a l ih =>
    rw [List.erase_cons]
    by_cases hc : a = m
    · subst hc
      simp
    · have hb : (a == m) = false := by
        simpa using hc
      rw [hb]
      rcases List.mem_cons.mp h with h1 | h1
      · exact absurd h1.symm hc
      · exact (List.Perm.cons a (ih h1)).trans (List.Perm.swap m a _)

theorem length_erase_entry (m : Int × Int) (pq : List (Int × Int)) (h : m ∈ pq) :
    (pq.erase m).length + 1 = pq.length := by
  have := (perm_cons_erase_entry m pq h).length_eq
  rw [List.length_cons] at this
  exact this.symm

/-- The inner loop moves every entry to the new queue with its laxity computed
anew; as many passes as the queue has entries are enough. -/
theorem llfRefill_spec (processes : List Process) (ct : Int) (fuel : Nat) :
    ∀ pq updated, pq.length ≤ fuel →
      ∃ u, llfRefill processes ct fuel pq updated = some u ∧
        u.Perm (updated ++ pq.map (fun e => (laxityAt processes ct e.2, e.2))) := by
  induction fuel with
  | zero =>
    intro pq updated h
    have : pq = [] := List.length_eq_zero.mp (by omega)
    rw [this]
    exact ⟨updated, rfl, by simp⟩
  | succ fuel ih =>
    intro pq updated h
    cases htop : pqTop pq with
    | none =>
      rw [pqTop_eq_none pq htop]
      exact ⟨updated, rfl, by simp⟩
    | some m =>
      obtain ⟨hm, _⟩ := pqTop_spec pq m htop
      have hlen : (pq.erase m).length ≤ fuel := by
        have := length_erase_entry m pq hm
        omega
      obtain ⟨u, hu, hperm⟩ := ih (pq.erase m)
        (pqPush updated (laxityAt processes ct m.2, m.2)) hlen
      refine ⟨u, ?_, ?_⟩
      · unfold llfRefill
        rw [htop]
        simp only
        rw [pqPop_eq pq m htop]
        exact hu
      · refine hperm.trans ?_
        have h1 := (perm_cons_erase_entry m pq hm).map
          (fun e => (laxityAt processes ct e.2, e.2))
        unfold pqPush
        rw [List.map_cons] at h1
        refine List.Perm.trans ?_ (List.Perm.append_left updated h1.symm)
        rw [List.cons_append]
        exact List.perm_middle.symm

/-! ## `runLLFScheduling` follows a static order -/

theorem runInOrder_trace (resources : List ResourceType) (processes : List Process)
    (order : List Int) :
    ∀ (trace : List Int) (L : Ledger) (out : List Int) (L1 : Ledger),
      runInOrder resources processes order trace L = some (out, L1) → out = trace ++ order := by
  induction order with
  | nil =>
    intro trace L out L1 h
    unfold runInOrder at h
    cases h
    simp
  | cons pid rest ih =>
    intro trace L out L1 h
    unfold runInOrder at h
    cases hx : executeProcess resources (lookupProcess processes pid).instructions
      (pid - 1).toNat L with
    | none => rw [hx] at h; cases h
    | some L2 =>
      rw [hx] at h
      have := ih _ _ _ _ h
      rw [this]; simp

/-- The outer loop of `runLLFScheduling` on a queue that holds the entries
`(key - currentTime, pid)` of the sorted list `keys` calls `executeProcess` on
the ids of `keys` in their order; as many passes as the queue has entries are
enough. -/
theorem llfLoop_eq (resources : List ResourceType) (processes : List Process) (fuel : Nat) :
    ∀ (keys pq : List (Int × Int)) (ct : Int) (trace : List Int) (L : Ledger),
      keys.Pairwise pairLe →
      (∀ e ∈ keys, (lookupProcess processes e.2).deadline
        - (lookupProcess processes e.2).computationTime = e.1) →
      pq.Perm (keys.map (fun e => (e.1 - ct, e.2))) →
      pq.length ≤ fuel →
      llfLoop resources processes fuel pq ct trace L
        = runInOrder resources processes (keys.map Prod.snd) trace L := by
  induction fuel with
  | zero =>
    intro keys pq ct trace L _ _ hperm hlen
    have hpq : pq = [] := List.length_eq_zero.mp (by omega)
    rw [hpq] at hperm
    have hk : keys = [] := by
      have := hperm.length_eq
      rw [List.length_map] at this
      exact List.length_eq_zero.mp this.symm
    rw [hpq, hk]
    rfl
  | succ fuel ih =>
    intro keys pq ct trace L hsorted hkey hperm hlen
    cases keys with
    | nil =>
      have hpq : pq = [] := List.perm_nil.mp hperm
      rw [hpq]
      rfl
    | cons h tl =>
      rw [List.map_cons] at hperm
      cases htop : pqTop pq with
      | none =>
        have hpq := pqTop_eq_none pq htop
        rw [hpq] at hperm
        exact absurd hperm.length_eq (by simp)
      | some m =>
        obtain ⟨hm, hmin⟩ := pqTop_spec pq m htop
        have hmh : m = (h.1 - ct, h.2) := by
          have h1 : pairLe m (h.1 - ct, h.2) :=
            hmin _ (hperm.mem_iff.mpr (List.mem_cons_self _ _))
          have h2 : pairLe (h.1 - ct, h.2) m := by
            rcases List.mem_cons.mp (hperm.mem_iff.mp hm) with hx | hx
            · rw [hx]; exact pairLe_refl _
            · obtain ⟨e, he, hem⟩ := List.mem_map.mp hx
              have hle := List.rel_of_pairwise_cons hsorted he
              rw [← hem]
              unfold pairLe at hle ⊢
              show h.1 - ct < e.1 - ct ∨ (h.1 - ct = e.1 - ct ∧ h.2 ≤ e.2)
              omega
          exact pairLe_antisymm _ _ h1 h2
        have hrest : (pq.erase m).Perm (tl.map (fun e => (e.1 - ct, e.2))) := by
          have h1 := (perm_cons_erase_entry m pq hm).symm.trans hperm
          rw [hmh] at h1 ⊢
          exact List.Perm.cons_inv h1
        rw [llfLoop, htop, List.map_cons, runInOrder]
        simp only
        rw [pqPop_eq pq m htop]
        have hm2 : m.2 = h.2 := by rw [hmh]
        rw [hm2]
        cases hx : executeProcess resources (lookupProcess processes h.2).instructions
          (h.2 - 1).toNat L with
        | none => rfl
        | some L1 =>
          simp only
          obtain ⟨u, hu, hup⟩ := llfRefill_spec processes
            (ct + (lookupProcess processes h.2).computationTime) (pq.erase m).length
            (pq.erase m) [] (Nat.le_refl _)
          rw [hu]
          simp only
          have hu2 : u.Perm (tl.map (fun e =>
              (e.1 - (ct + (lookupProcess processes h.2).computationTime), e.2))) := by
            refine hup.trans ?_
            rw [List.nil_append]
            refine (hrest.map _).trans ?_
            rw [List.map_map]
            apply List.Perm.of_eq
            apply List.map_congr_left
            intro e he
            have := hkey e (List.mem_cons_of_mem _ he)
            show (laxityAt processes _ e.2, e.2) = _
            unfold laxityAt
            apply Prod.ext
            · show _ = e.1 - _
              omega
            · rfl
          apply ih tl u _ _ L1 (List.Pairwise.of_cons hsorted)
            (fun e he => hkey e (List.mem_cons_of_mem _ he)) hu2
          have h1 := hu2.length_eq
          have h2 := hperm.length_eq
          rw [List.length_map] at h1
          rw [List.length_cons, List.length_map] at h2
          omega

theorem foldl_pqPush (f : Process → Int × Int) (processes : List Process) :
    ∀ acc, processes.foldl (fun pq proc => pqPush pq (f proc)) acc
      = (processes.map f).reverse ++ acc := by
  induction processes with
  | nil => intro acc; rfl
  | cons q rest ih =>
    intro acc
    rw [List.foldl_cons, ih, List.map_cons, List.reverse_cons, List.append_assoc]
    rfl

theorem llfInit_perm (processes : List Process) :
    (llfInit processes).Perm
      (processes.map (fun q => (q.deadline - 0 - q.computationTime, q.pid))) := by
  unfold llfInit
  rw [foldl_pqPush (fun q => (q.deadline - 0 - q.computationTime, q.pid)), List.append_nil]
  exact List.reverse_perm _

theorem staticKeys_perm (processes : List Process) :
    (staticKeys processes).Perm
      (processes.map (fun q => (q.deadline - q.computationTime, q.pid))) :=
  List.perm_insertionSort pairLe _

theorem staticKeys_key (processes : List Process)
    (hnodup : (processes.map (fun q => q.pid)).Nodup) :
    ∀ e ∈ staticKeys processes, staticKey processes e.2 = e.1 := by
  intro e he
  obtain ⟨q, hq, rfl⟩ := List.mem_map.mp ((staticKeys_perm processes).subset he)
  show staticKey processes q.pid = q.deadline - q.computationTime
  unfold staticKey
  rw [lookupProcess_of_mem processes hnodup q hq]

theorem staticOrder_perm (processes : List Process) :
    (staticOrder processes).Perm (processes.map (fun q => q.pid)) := by
  have := (staticKeys_perm processes).map Prod.snd
  rw [List.map_map] at this
  exact this

/-- The static order is strictly ascending in the pair
`(deadline - computationTime, pid)`. -/
theorem staticOrder_sorted (processes : List Process)
    (hnodup : (processes.map (fun q => q.pid)).Nodup) :
    (staticOrder processes).Pairwise (fun x y =>
      staticKey processes x < staticKey processes y ∨
        (staticKey processes x = staticKey processes y ∧ x < y)) := by
  have hnd : (staticOrder processes).Nodup :=
    (staticOrder_perm processes).nodup_iff.mpr hnodup
  have hs : (staticKeys processes).Pairwise pairLe := List.sorted_insertionSort pairLe _
  have hs2 : (staticOrder processes).Pairwise (fun x y =>
      staticKey processes x < staticKey processes y ∨
        (staticKey processes x = staticKey processes y ∧ x ≤ y)) := by
    unfold staticOrder
    rw [List.pairwise_map]
    refine List.Pairwise.imp_of_mem ?_ hs
    intro a b ha hb hab
    rw [staticKeys_key processes hnodup a ha, staticKeys_key processes hnodup b hb]
    exact hab
  refine List.Pairwise.imp ?_ (hs2.and hnd)
  intro x y h
  obtain ⟨h1, h2⟩ := h
  omega

/-- With distinct process ids, `runLLFScheduling` is the sequence of
`executeProcess` calls on the ids of the static order. -/
theorem runLLFScheduling_eq (resources : List ResourceType) (processes : List Process)
    (hnodup : (processes.map (fun q => q.pid)).Nodup) (L : Ledger) :
    runLLFScheduling resources processes L
      = runInOrder resources processes (staticOrder processes) [] L := by
  unfold runLLFScheduling staticOrder
  apply llfLoop_eq resources processes processes.length (staticKeys processes)
    (llfInit processes) 0 [] L (List.sorted_insertionSort pairLe _)
  · exact staticKeys_key processes hnodup
  · refine (llfInit_perm processes).trans ?_
    have h := ((staticKeys_perm processes).map (fun e => (e.1 - 0, e.2))).symm
    rw [List.map_map] at h
    refine List.Perm.trans (List.Perm.of_eq ?_) h
    apply List.map_congr_left
    intro q _
    apply Prod.ext
    · show q.deadline - 0 - q.computationTime = q.deadline - q.computationTime - 0
      omega
    · rfl
  · have := (llfInit_perm processes).length_eq
    rw [List.length_map] at this
    omega

/-- C19. LLF collapses to a static order, for distinct process ids and unbounded
integers.  `staticOrder` lists all process ids, each once, strictly ascending in
the lexicographic order of the pair `(deadline - computationTime, pid)`;
`runLLFScheduling` is the sequence of `executeProcess` calls on the ids of that
list, and whenever it runs to its end the ids it executed, in order, are exactly
that list.  The comparison of two queue entries `(laxity, pid)` is the same at
every `currentTime`: it is the comparison of the pairs
`(deadline - computationTime, pid)`, so that entries of equal laxity are always
ordered by ascending pid. -/
theorem runLLFScheduling_static_order (resources : List ResourceType)
    (processes : List Process) (hnodup : (processes.map (fun q => q.pid)).Nodup) :
    (staticOrder processes).Perm (processes.map (fun q => q.pid)) ∧
    (staticOrder processes).Pairwise (fun x y =>
      staticKey processes x < staticKey processes y ∨
        (staticKey processes x = staticKey processes y ∧ x < y)) ∧
    (∀ L, runLLFScheduling resources processes L
      = runInOrder resources processes (staticOrder processes) [] L) ∧
    (∀ (L : Ledger) (trace : List Int) (L1 : Ledger),
      runLLFScheduling resources processes L = some (trace, L1) →
      trace = staticOrder processes) ∧
    (∀ (ct ct1 x y : Int),
      pairLess (laxityAt processes ct x, x) (laxityAt processes ct y, y)
        = pairLess (laxityAt processes ct1 x, x) (laxityAt processes ct1 y, y)) ∧
    ∀ (ct x y : Int),
      pairLess (laxityAt processes ct x, x) (laxityAt processes ct y, y) = true ↔
        (staticKey processes x < staticKey processes y ∨
          (staticKey processes x = staticKey processes y ∧ x < y)) := by
  have hcmp : ∀ (ct x y : Int),
      pairLess (laxityAt processes ct x, x) (laxityAt processes ct y, y) = true ↔
        (staticKey processes x < staticKey processes y ∨
          (staticKey processes x = staticKey processes y ∧ x < y)) := by
    intro ct x y
    unfold pairLess laxityAt staticKey
    simp only [Bool.or_eq_true, Bool.and_eq_true, Bool.not_eq_true',
      decide_eq_false_iff_not, decide_eq_true_eq]
    omega
  refine ⟨staticOrder_perm processes, staticOrder_sorted processes hnodup,
    runLLFScheduling_eq resources processes hnodup, ?_, ?_, hcmp⟩
  · intro L trace L1 h
    rw [runLLFScheduling_eq resources processes hnodup] at h
    have := runInOrder_trace resources processes _ [] L trace L1 h
    rw [this]; simp
  · intro ct ct1 x y
    rw [Bool.eq_iff_iff, hcmp ct x y, hcmp ct1 x y]

/-- C19 on three processes of which 1 and 3 have the same
`deadline - computationTime = 6`: the static order is `[2, 1, 3]`, and it is the
order in which `runLLFScheduling` executes them. -/
theorem runLLFScheduling_static_order_witness :
    staticOrder [⟨1, 8, 2, ["request(1)", "end"]⟩, ⟨2, 4, 1, ["request(1)", "end"]⟩,
      ⟨3, 9, 3, ["request(1)", "end"]⟩] = [2, 1, 3] ∧
    (runLLFScheduling [⟨"1", ["a"]⟩]
      [⟨1, 8, 2, ["request(1)", "end"]⟩, ⟨2, 4, 1, ["request(1)", "end"]⟩,
        ⟨3, 9, 3, ["request(1)", "end"]⟩]
      ⟨[1], [[1], [1], [1]], [[0], [0], [0]], [[1], [1], [1]]⟩).map Prod.fst
        = some [2, 1, 3] ∧
    (staticOrder [⟨1, 8, 2, ["request(1)", "end"]⟩, ⟨2, 4, 1, ["request(1)", "end"]⟩,
      ⟨3, 9, 3, ["request(1)", "end"]⟩]).Perm [1, 2, 3] :=
  ⟨by decide, by decide,
    (runLLFScheduling_static_order [⟨"1", ["a"]⟩]
      [⟨1, 8, 2, ["request(1)", "end"]⟩, ⟨2, 4, 1, ["request(1)", "end"]⟩,
        ⟨3, 9, 3, ["request(1)", "end"]⟩] (by decide)).1⟩

/-! ## `runLLFScheduling` on 32-bit `int` -/

theorem wrapInt_of_isInt32 (x : Int) (h : IsInt32 x) : wrapInt x = x := by
  unfold IsInt32 at h
  unfold wrapInt
  omega

theorem laxity32_eq (processes : List Process) (ct y : Int)
    (h : IsInt32 ((lookupProcess processes y).deadline - ct) ∧
      IsInt32 (laxityAt processes ct y)) :
    laxity32 processes ct y = laxityAt processes ct y := by
  unfold laxity32
  rw [wrapInt_of_isInt32 _ h.1]
  exact wrapInt_of_isInt32 _ h.2

/-- The inner loop in `int` arithmetic moves every entry to the new queue with
its laxity computed anew; as many passes as the queue has entries are enough. -/
theorem llfRefill32_spec (processes : List Process) (ct : Int) (fuel : Nat) :
    ∀ pq updated, pq.length ≤ fuel →
      ∃ u, llfRefill32 processes ct fuel pq updated = some u ∧
        u.Perm (updated ++ pq.map (fun e => (laxity32 processes ct e.2, e.2))) := by
  induction fuel with
  | zero =>
    intro pq updated h
    have : pq = [] := List.length_eq_zero.mp (by omega)
    rw [this]
    exact ⟨updated, rfl, by simp⟩
  | succ fuel ih =>
    intro pq updated h
    cases htop : pqTop pq with
    | none =>
      rw [pqTop_eq_none pq htop]
      exact ⟨updated, rfl, by simp⟩
    | some m =>
      obtain ⟨hm, _⟩ := pqTop_spec pq m htop
      have hlen : (pq.erase m).length ≤ fuel := by
        have := length_erase_entry m pq hm
        omega
      obtain ⟨u, hu, hperm⟩ := ih (pq.erase m)
        (pqPush updated (laxity32 processes ct m.2, m.2)) hlen
      refine ⟨u, ?_, ?_⟩
      · unfold llfRefill32
        rw [htop]
        simp only
        rw [pqPop_eq pq m htop]
        exact hu
      · refine hperm.trans ?_
        have h1 := (perm_cons_erase_entry m pq hm).map
          (fun e => (laxity32 processes ct e.2, e.2))
        unfold pqPush
        rw [List.map_cons] at h1
        refine List.Perm.trans ?_ (List.Perm.append_left updated h1.symm)
        rw [List.cons_append]
        exact List.perm_middle.symm

/-- Whatever the `int` arithmetic yields, the outer loop calls `executeProcess`
on the ids of the queue entries, each once, in an order that does not depend on
the ledger; as many passes as the queue has entries are enough. -/
theorem llfLoop32_order (resources : List ResourceType) (processes : List Process)
    (fuel : Nat) :
    ∀ (pq : List (Int × Int)) (ct : Int), pq.length ≤ fuel →
      ∃ order : List Int, order.Perm (pq.map Prod.snd) ∧
        ∀ (trace : List Int) (L : Ledger),
          llfLoop32 resources processes fuel pq ct trace L
            = runInOrder resources processes order trace L := by
  induction fuel with
  | zero =>
    intro pq ct hlen
    have hpq : pq = [] := List.length_eq_zero.mp (by omega)
    rw [hpq]
    exact ⟨[], List.Perm.refl _, fun _ _ => rfl⟩
  | succ fuel ih =>
    intro pq ct hlen
    cases htop : pqTop pq with
    | none =>
      rw [pqTop_eq_none pq htop]
      exact ⟨[], List.Perm.refl _, fun _ _ => rfl⟩
    | some m =>
      obtain ⟨hm, _⟩ := pqTop_spec pq m htop
      obtain ⟨u, hu, hup⟩ := llfRefill32_spec processes
        (wrapInt (ct + (lookupProcess processes m.2).computationTime)) (pq.erase m).length
        (pq.erase m) [] (Nat.le_refl _)
      have hulen : u.length ≤ fuel := by
        have h1 := hup.length_eq
        rw [List.nil_append, List.length_map] at h1
        have h2 := length_erase_entry m pq hm
        omega
      obtain ⟨order, hperm, hrun⟩ := ih u
        (wrapInt (ct + (lookupProcess processes m.2).computationTime)) hulen
      refine ⟨m.2 :: order, ?_, ?_⟩
      · have h1 := (perm_cons_erase_entry m pq hm).map Prod.snd
        rw [List.map_cons] at h1
        refine List.Perm.trans (List.Perm.cons _ (hperm.trans ?_)) h1.symm
        have h2 := hup.map Prod.snd
        rw [List.nil_append, List.map_map] at h2
        exact h2
      · intro trace L
        rw [llfLoop32, htop, runInOrder]
        simp only
        rw [pqPop_eq pq m htop]
        cases hx : executeProcess resources (lookupProcess processes m.2).instructions
          (m.2 - 1).toNat L with
        | none => rfl
        | some L1 =>
          simp only
          rw [hu]
          exact hrun _ _

/-- While no `int` computation overflows, the outer loop in `int` arithmetic on
a queue that holds the entries `(key - currentTime, pid)` of the sorted list
`keys` calls `executeProcess` on the ids of `keys` in their order. -/
theorem llfLoop32_eq (resources : List ResourceType) (processes : List Process) (fuel : Nat) :
    ∀ (keys pq : List (Int × Int)) (ct : Int) (trace : List Int) (L : Ledger),
      keys.Pairwise pairLe →
      (∀ e ∈ keys, (lookupProcess processes e.2).deadline
        - (lookupProcess processes e.2).computationTime = e.1) →
      pq.Perm (keys.map (fun e => (e.1 - ct, e.2))) →
      pq.length ≤ fuel →
      NoOverflow processes ct (keys.map Prod.snd) →
      llfLoop32 resources processes fuel pq ct trace L
        = runInOrder resources processes (keys.map Prod.snd) trace L := by
  induction fuel with
  | zero =>
    intro keys pq ct trace L _ _ hperm hlen _
    have hpq : pq = [] := List.length_eq_zero.mp (by omega)
    rw [hpq] at hperm
    have hk : keys = [] := by
      have := hperm.length_eq
      rw [List.length_map] at this
      exact List.length_eq_zero.mp this.symm
    rw [hpq, hk]
    rfl
  | succ fuel ih =>
    intro keys pq ct trace L hsorted hkey hperm hlen hfit
    cases keys with
    | nil =>
      have hpq : pq = [] := List.perm_nil.mp hperm
      rw [hpq]
      rfl
    | cons h tl =>
      rw [List.map_cons] at hperm
      obtain ⟨hct, hlax, hrestfit⟩ := hfit
      cases htop : pqTop pq with
      | none =>
        have hpq := pqTop_eq_none pq htop
        rw [hpq] at hperm
        exact absurd hperm.length_eq (by simp)
      | some m =>
        obtain ⟨hm, hmin⟩ := pqTop_spec pq m htop
        have hmh : m = (h.1 - ct, h.2) := by
          have h1 : pairLe m (h.1 - ct, h.2) :=
            hmin _ (hperm.mem_iff.mpr (List.mem_cons_self _ _))
          have h2 : pairLe (h.1 - ct, h.2) m := by
            rcases List.mem_cons.mp (hperm.mem_iff.mp hm) with hx | hx
            · rw [hx]; exact pairLe_refl _
            · obtain ⟨e, he, hem⟩ := List.mem_map.mp hx
              have hle := List.rel_of_pairwise_cons hsorted he
              rw [← hem]
              unfold pairLe at hle ⊢
              show h.1 - ct < e.1 - ct ∨ (h.1 - ct = e.1 - ct ∧ h.2 ≤ e.2)
              omega
          exact pairLe_antisymm _ _ h1 h2
        have hrest : (pq.erase m).Perm (tl.map (fun e => (e.1 - ct, e.2))) := by
          have h1 := (perm_cons_erase_entry m pq hm).symm.trans hperm
          rw [hmh] at h1 ⊢
          exact List.Perm.cons_inv h1
        rw [llfLoop32, htop, List.map_cons, runInOrder]
        simp only
        rw [pqPop_eq pq m htop]
        have hm2 : m.2 = h.2 := by rw [hmh]
        rw [hm2]
        cases hx : executeProcess resources (lookupProcess processes h.2).instructions
          (h.2 - 1).toNat L with
        | none => rfl
        | some L1 =>
          simp only
          rw [wrapInt_of_isInt32 _ hct]
          obtain ⟨u, hu, hup⟩ := llfRefill32_spec processes
            (ct + (lookupProcess processes h.2).computationTime) (pq.erase m).length
            (pq.erase m) [] (Nat.le_refl _)
          rw [hu]
          simp only
          have hu2 : u.Perm (tl.map (fun e =>
              (e.1 - (ct + (lookupProcess processes h.2).computationTime), e.2))) := by
            refine hup.trans ?_
            rw [List.nil_append]
            refine (hrest.map _).trans ?_
            rw [List.map_map]
            apply List.Perm.of_eq
            apply List.map_congr_left
            intro e he
            have := hkey e (List.mem_cons_of_mem _ he)
            show (laxity32 processes _ e.2, e.2) = _
            rw [laxity32_eq processes _ e.2 (hlax e.2 (List.mem_map.mpr ⟨e, he, rfl⟩))]
            unfold laxityAt
            apply Prod.ext
            · show _ = e.1 - _
              omega
            · rfl
          apply ih tl u _ _ L1 (List.Pairwise.of_cons hsorted)
            (fun e he => hkey e (List.mem_cons_of_mem _ he)) hu2 ?_ hrestfit
          have h1 := hu2.length_eq
          have h2 := hperm.length_eq
          rw [List.length_map] at h1
          rw [List.length_cons, List.length_map] at h2
          omega

theorem llfInit32_perm (processes : List Process) :
    (llfInit32 processes).Perm
      (processes.map (fun q =>
        (wrapInt (wrapInt (q.deadline - 0) - q.computationTime), q.pid))) := by
  unfold llfInit32
  rw [foldl_pqPush (fun q => (wrapInt (wrapInt (q.deadline - 0) - q.computationTime), q.pid)),
    List.append_nil]
  exact List.reverse_perm _

/-- The function `runLLFScheduling` in `int` arithmetic calls `executeProcess` on
every process id once, in an order that does not depend on the ledger. -/
theorem runLLFScheduling32_order (resources : List ResourceType) (processes : List Process) :
    ∃ order : List Int, order.Perm (processes.map (fun q => q.pid)) ∧
      ∀ L, runLLFScheduling32 resources processes L
        = runInOrder resources processes order [] L := by
  have hlen : (llfInit32 processes).length ≤ processes.length := by
    have := (llfInit32_perm processes).length_eq
    rw [List.length_map] at this
    omega
  obtain ⟨order, hperm, hrun⟩ :=
    llfLoop32_order resources processes processes.length (llfInit32 processes) 0 hlen
  refine ⟨order, hperm.trans ?_, fun L => hrun [] L⟩
  have := (llfInit32_perm processes).map Prod.snd
  rw [List.map_map] at this
  exact this

/-- With distinct process ids and no overflowing `int` computation,
`runLLFScheduling` in `int` arithmetic is the sequence of `executeProcess` calls
on the ids of the static order. -/
theorem runLLFScheduling32_eq (resources : List ResourceType) (processes : List Process)
    (hnodup : (processes.map (fun q => q.pid)).Nodup)
    (hinit : LaxitiesFit processes 0 (processes.map (fun q => q.pid)))
    (hfit : NoOverflow processes 0 (staticOrder processes)) (L : Ledger) :
    runLLFScheduling32 resources processes L
      = runInOrder resources processes (staticOrder processes) [] L := by
  unfold runLLFScheduling32
  apply llfLoop32_eq resources processes processes.length (staticKeys processes)
    (llfInit32 processes) 0 [] L (List.sorted_insertionSort pairLe _)
    (staticKeys_key processes hnodup) ?_ ?_ hfit
  · refine (llfInit32_perm processes).trans ?_
    have h := ((staticKeys_perm processes).map (fun e => (e.1 - 0, e.2))).symm
    rw [List.map_map] at h
    refine List.Perm.trans (List.Perm.of_eq ?_) h
    apply List.map_congr_left
    intro q hq
    have h1 := hinit q.pid (List.mem_map.mpr ⟨q, hq, rfl⟩)
    have h2 := laxity32_eq processes 0 q.pid h1
    unfold laxity32 laxityAt at h2
    rw [lookupProcess_of_mem processes hnodup q hq] at h2
    apply Prod.ext
    · show wrapInt (wrapInt (q.deadline - 0) - q.computationTime)
        = q.deadline - q.computationTime - 0
      rw [h2]
      omega
    · rfl
  · have := (llfInit32_perm processes).length_eq
    rw [List.length_map] at this
    omega

/-- C12 as stated fails on 32-bit `int`.  Process 1 has deadline `-2147483648`
and computation time 1, process 2 has deadline 4 and computation time 1.  The
laxity of process 1 at `currentTime = 0` is `-2147483649`, below the laxity 3 of
process 2, but the `int` subtraction wraps to `2147483647` and
`runLLFScheduling` executes process 2 first. -/
theorem llf_overflow_counterexample :
    (runLLFScheduling32 [⟨"1", ["a"]⟩]
      [⟨1, -2147483648, 1, ["request(1)", "end"]⟩, ⟨2, 4, 1, ["request(1)", "end"]⟩]
      ⟨[1], [[1], [1]], [[0], [0]], [[1], [1]]⟩).map Prod.fst = some [2, 1] ∧
    laxityAt [⟨1, -2147483648, 1, ["request(1)", "end"]⟩, ⟨2, 4, 1, ["request(1)", "end"]⟩]
      (elapsed [⟨1, -2147483648, 1, ["request(1)", "end"]⟩,
        ⟨2, 4, 1, ["request(1)", "end"]⟩] []) 1 = -2147483649 ∧
    laxityAt [⟨1, -2147483648, 1, ["request(1)", "end"]⟩, ⟨2, 4, 1, ["request(1)", "end"]⟩]
      (elapsed [⟨1, -2147483648, 1, ["request(1)", "end"]⟩,
        ⟨2, 4, 1, ["request(1)", "end"]⟩] []) 2 = 3 ∧
    laxity32 [⟨1, -2147483648, 1, ["request(1)", "end"]⟩, ⟨2, 4, 1, ["request(1)", "end"]⟩]
      0 1 = 2147483647 := by
  decide

/-- C12, amended.  With distinct process ids, `runLLFScheduling` on 32-bit `int`
is the sequence of `executeProcess` calls on the ids of an order of all process
ids, each exactly once, whatever the `int` arithmetic yields.  Provided no `int`
computation overflows (the initial laxities, every later `currentTime` and the
laxities computed from it are values of a 32-bit `int`), every process of that
order has minimum laxity `deadline - currentTime - computationTime` among the
processes not yet executed when its turn comes, `currentTime` being the sum of
the computation times of the processes before it; and whenever the function runs
to its end the ids it executed, in order, are exactly that order. -/
theorem runLLFScheduling32_selection (resources : List ResourceType)
    (processes : List Process) (hnodup : (processes.map (fun q => q.pid)).Nodup) :
    (∃ order : List Int, order.Perm (processes.map (fun q => q.pid)) ∧
      (∀ L, runLLFScheduling32 resources processes L
        = runInOrder resources processes order [] L) ∧
      ∀ (L : Ledger) (trace : List Int) (L1 : Ledger),
        runLLFScheduling32 resources processes L = some (trace, L1) → trace = order) ∧
    (LaxitiesFit processes 0 (processes.map (fun q => q.pid)) →
      NoOverflow processes 0 (staticOrder processes) →
      ∃ order : List Int, order.Perm (processes.map (fun q => q.pid)) ∧
        (∀ pre x post, order = pre ++ x :: post → ∀ y ∈ x :: post,
          laxityAt processes (elapsed processes pre) x
            ≤ laxityAt processes (elapsed processes pre) y) ∧
        (∀ L, runLLFScheduling32 resources processes L
          = runInOrder resources processes order [] L) ∧
        ∀ (L : Ledger) (trace : List Int) (L1 : Ledger),
          runLLFScheduling32 resources processes L = some (trace, L1) → trace = order) := by
  refine ⟨?_, ?_⟩
  · obtain ⟨order, hperm, hrun⟩ := runLLFScheduling32_order resources processes
    refine ⟨order, hperm, hrun, ?_⟩
    intro L trace L1 h
    rw [hrun L] at h
    have := runInOrder_trace resources processes _ [] L trace L1 h
    rw [this]; simp
  · intro hinit hfit
    refine ⟨staticOrder processes, staticOrder_perm processes, ?_,
      runLLFScheduling32_eq resources processes hnodup hinit hfit, ?_⟩
    · intro pre x post hsplit y hy
      rcases List.mem_cons.mp hy with hy | hy
      · rw [hy]
      · have hs := staticOrder_sorted processes hnodup
        rw [hsplit] at hs
        have h := List.rel_of_pairwise_cons (List.pairwise_append.mp hs).2.1 hy
        unfold staticKey at h
        unfold laxityAt
        omega
    · intro L trace L1 h
      rw [runLLFScheduling32_eq resources processes hnodup hinit hfit] at h
      have := runInOrder_trace resources processes _ [] L trace L1 h
      rw [this]; simp

/-- C12 amended, the scenario of the specification: A (id 1, deadline 10,
computation 2) and B (id 2, deadline 4, computation 1) have the initial laxities
8 and 3, B runs first, then `currentTime = 1` and A, of laxity 7, runs; no `int`
computation overflows. -/
theorem runLLFScheduling32_selection_witness :
    (runLLFScheduling32 [⟨"1", ["a"]⟩]
      [⟨1, 10, 2, ["request(1)", "end"]⟩, ⟨2, 4, 1, ["request(1)", "end"]⟩]
      ⟨[1], [[1], [1]], [[0], [0]], [[1], [1]]⟩).map Prod.fst = some [2, 1] ∧
    laxityAt [⟨1, 10, 2, ["request(1)", "end"]⟩, ⟨2, 4, 1, ["request(1)", "end"]⟩] 0 1 = 8 ∧
    laxityAt [⟨1, 10, 2, ["request(1)", "end"]⟩, ⟨2, 4, 1, ["request(1)", "end"]⟩] 0 2 = 3 ∧
    laxityAt [⟨1, 10, 2, ["request(1)", "end"]⟩, ⟨2, 4, 1, ["request(1)", "end"]⟩]
      (elapsed [⟨1, 10, 2, ["request(1)", "end"]⟩, ⟨2, 4, 1, ["request(1)", "end"]⟩] [2]) 1
        = 7 ∧
    ∃ order : List Int, order.Perm [1, 2] ∧
      ∀ (L : Ledger) (trace : List Int) (L1 : Ledger),
        runLLFScheduling32 [⟨"1", ["a"]⟩]
          [⟨1, 10, 2, ["request(1)", "end"]⟩, ⟨2, 4, 1, ["request(1)", "end"]⟩] L
            = some (trace, L1) → trace = order :=
  ⟨by decide, by decide, by decide, by decide,
    ((runLLFScheduling32_selection [⟨"1", ["a"]⟩]
      [⟨1, 10, 2, ["request(1)", "end"]⟩, ⟨2, 4, 1, ["request(1)", "end"]⟩]
      (by decide)).2 (by decide) (by decide)).imp (fun _ h => ⟨h.1, h.2.2.2⟩)⟩

end BankersLedger
